import Mathlib

/-!
Shallow embedding of the TSP repository (src/source/CheapestTour.c and
src/source/HeuristicTour.c) and verification of the specification claims.

Machine ints are modelled as `Int` (distances, costs, directions) and `Nat`
(sizes, indices).  Memory that the C code leaves uninitialized (malloc'd
arrays, the `largestMobileIndex` local before its first assignment, the
`struct edge e` fields before a candidate is found) is modelled by explicit
`junk` parameters threaded into the corresponding definitions.
-/

namespace TSP

/-! ### CheapestTour.c -/

/-- direction of integer for the Steinhaus Johnson Trotter algorithm:
`#define LEFT -1`. -/
def LEFT : Int := -1

/-- Macro `#define RIGHT 1`. -/
def RIGHT : Int := 1

/-- Macro `#define INFINITE 0` (shared by both C files). -/
def INFINITE : Int := 0

/-- Function `int factorial(int n)`: `result = 1; for (i=2; i<=n; i++) result *= i;`.
The loop body multiplies by `i = 2, …, n`, i.e. folds over `List.range' 2 (n-1)`. -/
def factorial (n : Nat) : Nat :=
  (List.range' 2 (n - 1)).foldl (fun r i => r * i) 1

/-- The index `j + d[j]` used to address the directed neighbour
(`p[j + d[j]]`); the C `int` sum is nonnegative wherever the code reads it. -/
def nbr (j : Nat) (dj : Int) : Nat := ((j : Int) + dj).toNat

/-- The three-assignment swap idiom
`temp = a[i]; a[i] = a[k]; a[k] = temp;` on an array modelled as a list. -/
def listSwap (l : List α) (dflt : α) (i k : Nat) : List α :=
  (l.set i (l.getD k dflt)).set k (l.getD i dflt)

/-- State of the permutation generator inside `getOptimalTour`:
the permutation array `p`, the direction array `d`, and the C local
`largestMobileIndex`, which is declared once and keeps its (possibly stale
or initially indeterminate) value across loop iterations. -/
structure SJT where
  p : List Nat
  d : List Int
  lmi : Nat
deriving Repr, DecidableEq

/-- One step `j` of the largest-mobile search loop
(`for (j=1; j<nr_cities; j++) …`, CheapestTour.c lines 144–152).
`acc = (largestMobile, largestMobileIndex)`. -/
def mobileScan (n : Nat) (p : List Nat) (d : List Int) (acc : Nat × Nat) (j : Nat) :
    Nat × Nat :=
  if ¬(j = 1 ∧ d.getD j 0 = LEFT) ∧ ¬(j = n - 1 ∧ d.getD j 0 = RIGHT) then
    if p.getD j 0 > p.getD (nbr j (d.getD j 0)) 0 ∧ p.getD j 0 > acc.1 then
      (p.getD j 0, j)
    else acc
  else acc

/-- The whole largest-mobile search: `largestMobile = 0;` then the scan over
`j = 1, …, n-1`; `largestMobileIndex` starts at its previous (stale) value. -/
def findMobile (n : Nat) (p : List Nat) (d : List Int) (prevIdx : Nat) : Nat × Nat :=
  (List.range' 1 (n - 1)).foldl (mobileScan n p d) (0, prevIdx)

/-- The direction-flip loop (lines 165–169): for `j = 1, …, n-1`,
if `p[j] > largestMobile` then `d[j] = d[j] == LEFT ? RIGHT : LEFT`. -/
def flipDirs (n : Nat) (p : List Nat) (d : List Int) (lm : Nat) : List Int :=
  (List.range' 1 (n - 1)).foldl
    (fun dd j =>
      if p.getD j 0 > lm then
        dd.set j (if dd.getD j 0 = LEFT then RIGHT else LEFT)
      else dd)
    d

/-- One permutation-advancing step of `getOptimalTour` (lines 142–169):
find the largest mobile integer, swap it with its directed neighbour in both
`p` and `d`, then flip the direction of every integer larger than it. -/
def sjtStep (n : Nat) (s : SJT) : SJT :=
  let m := findMobile n s.p s.d s.lmi
  let i := m.2
  let k := nbr i (s.d.getD i 0)
  let p2 := listSwap s.p 0 i k
  let d2 := listSwap s.d 0 i k
  let d3 := flipDirs n p2 d2 m.1
  ⟨p2, d3, i⟩

/-- The per-iteration tour-cost computation (lines 128–132):
`cost = Σ_j cities[p[j]][p[next]]` with `next = j+1` except `next = 0`
for the last position. -/
def tourCost (n : Nat) (cities : Nat → Nat → Int) (p : List Nat) : Int :=
  (List.range n).foldl
    (fun c j => c + cities (p.getD j 0) (p.getD (if j < n - 1 then j + 1 else 0) 0)) 0

/-- Struct `result` of CheapestTour.c. -/
structure CResult where
  cost : Int
  tour : List Nat
  tour_size : Nat
deriving Repr, DecidableEq

/-- One iteration of the main enumeration loop (lines 126–170): compute the
cost of the current permutation, store it as the new best if
`cost < res.cost || res.cost == INFINITE`, then advance the permutation. -/
def optLoopStep (n : Nat) (cities : Nat → Nat → Int) (st : CResult × SJT) (_i : Nat) :
    CResult × SJT :=
  let res := st.1
  let s := st.2
  let cost := tourCost n cities s.p
  let res' :=
    if cost < res.cost ∨ res.cost = INFINITE then
      { res with cost := cost, tour := s.p.take n ++ res.tour.drop n }
    else res
  (res', sjtStep n s)

/-- Function `struct result getOptimalTour(int nr_cities, int **cities)`.
`junk` models the indeterminate contents of the malloc'd `res.tour` array and
`junkIdx` the indeterminate initial value of `largestMobileIndex`. -/
def getOptimalTour (n : Nat) (cities : Nat → Nat → Int) (junk junkIdx : Nat) : CResult :=
  let res0 : CResult := ⟨INFINITE, List.replicate (n + 1) junk, n + 1⟩
  let s0 : SJT := ⟨List.range n, List.replicate n LEFT, junkIdx⟩
  let nr_perm := factorial (n - 1) / 2
  let fin := (List.range nr_perm).foldl (optLoopStep n cities) (res0, s0)
  { fin.1 with tour := fin.1.tour.set n (fin.1.tour.getD 0 junk) }

/-- The sequence of permutations examined by the enumeration loop of
`getOptimalTour`: the contents of `p` at the top of each of the
`factorial(n-1)/2` iterations (the cost of each of these is computed and
compared at lines 128–140). -/
def enumPerms (n : Nat) (junkIdx : Nat) : List (List Nat) :=
  let s0 : SJT := ⟨List.range n, List.replicate n LEFT, junkIdx⟩
  ((List.range (factorial (n - 1) / 2)).foldl
    (fun (acc : List (List Nat) × SJT) _ => (acc.1 ++ [acc.2.p], sjtStep n acc.2))
    ([], s0)).1

/-- The permutation states reached by iterating `sjtStep` from `s`,
listed for `k` consecutive iterations (head = current `p`). -/
def sjtTrace (n : Nat) (s : SJT) : Nat → List (List Nat)
  | 0 => []
  | k + 1 => s.p :: sjtTrace n (sjtStep n s) k

/-- The best-tracking part of one enumeration-loop iteration, expressed as a
fold step over the examined permutation `l` (lines 128–140 of
CheapestTour.c). -/
def bestStep (n : Nat) (cities : Nat → Nat → Int) (res : CResult) (l : List Nat) :
    CResult :=
  if tourCost n cities l < res.cost ∨ res.cost = INFINITE then
    { res with cost := tourCost n cities l, tour := l.take n ++ res.tour.drop n }
  else res

/-- The SJT generator state at the top of iteration `k` of the enumeration
loop: the initial state (identity permutation, all directions LEFT, the
indeterminate initial `largestMobileIndex` modelled by `junkIdx`) advanced
`k` times. -/
def sjtIter (n junkIdx : Nat) : Nat → SJT
  | 0 => ⟨List.range n, List.replicate n LEFT, junkIdx⟩
  | k + 1 => sjtStep n (sjtIter n junkIdx k)

/-- The largest-mobile search of an SJT state succeeds regardless of the
stale previous index: some scan step fires, leaving `largestMobile`
positive. -/
def HasMobile (n : Nat) (s : SJT) : Prop :=
  ∀ a, 0 < (findMobile n s.p s.d a).1

/-- Well-formedness of an SJT state of the `n`-city enumeration: both
arrays have length `n`, the permutation entries are below `n`, and every
direction is LEFT or RIGHT. -/
structure SJTWf (n : Nat) (s : SJT) : Prop where
  plen : s.p.length = n
  dlen : s.d.length = n
  vals : ∀ i, i < n → s.p.getD i 0 < n
  dpm : ∀ i, i < n → s.d.getD i 0 = LEFT ∨ s.d.getD i 0 = RIGHT

/-- Decomposition of an `n`-city SJT state: the value `n-1` sits at
position `t` with direction `dl`, and deleting it leaves the sub-state `σ`
of the `n-1`-city generator (pointwise, positions above `t` shifted). -/
structure SJTDec (n t : Nat) (dl : Int) (s σ : SJT) : Prop where
  plen : s.p.length = n
  dlen : s.d.length = n
  pv : s.p.getD t 0 = n - 1
  dv : s.d.getD t 0 = dl
  plo : ∀ i, i < t → s.p.getD i 0 = σ.p.getD i 0
  phi : ∀ i, t < i → i < n → s.p.getD i 0 = σ.p.getD (i - 1) 0
  dlo : ∀ i, i < t → s.d.getD i 0 = σ.d.getD i 0
  dhi : ∀ i, t < i → i < n → s.d.getD i 0 = σ.d.getD (i - 1) 0

/-- Direction of the largest value during its `q`-th sweep. -/
def vdir (q : Nat) : Int := if q % 2 = 0 then LEFT else RIGHT

/-- Position of the largest value at step `k` of the `n`-city generator. -/
def vpos (n k : Nat) : Nat :=
  if (k / (n - 1)) % 2 = 0 then (n - 1) - k % (n - 1) else 1 + k % (n - 1)

/-! ### Specification-side notions for the exhaustive search -/

/-- Hamiltonian cycles that start (and implicitly end) at city 0, represented
by their city orderings: permutations of `0, …, n-1` whose first entry is 0.
The cost of such a cycle is `tourCost` (which closes the cycle back to the
first entry). -/
def IsStartTour (n : Nat) (l : List Nat) : Prop :=
  l.Perm (List.range n) ∧ l.head? = some 0

/-- The 2-city distance matrix with distance 1 between the two distinct
cities, used as a concrete failing input. -/
def mat2 : Nat → Nat → Int := fun i j => if i = j then 0 else 1

/-- The 4-city symmetric matrix from the spec's scenario:
d(0,1)=10, d(0,2)=15, d(0,3)=20, d(1,2)=35, d(1,3)=25, d(2,3)=30. -/
def mat4 : Nat → Nat → Int := fun i j =>
  (([[0, 10, 15, 20], [10, 0, 35, 25], [15, 35, 0, 30],
     [20, 25, 30, 0]].getD i []).getD j 0)

/-- A 5-city symmetric nonnegative matrix: the edges of the cycle
`0-3-4-1-2-0` have distance 0 and the remaining five pairs have distances
d(0,1)=1, d(0,4)=10, d(1,3)=10, d(2,3)=1, d(2,4)=1. -/
def mat5 : Nat → Nat → Int := fun i j =>
  (([[0, 1, 0, 0, 10], [1, 0, 0, 10, 0], [0, 0, 0, 1, 1],
     [0, 10, 1, 0, 0], [10, 0, 1, 0, 0]].getD i []).getD j 0)

/-! ### HeuristicTour.c -/

/-- Struct `edge` of HeuristicTour.c (`city1`, `city2`, `weight`). -/
structure Edge where
  city1 : Nat
  city2 : Nat
  weight : Int
deriving Repr, DecidableEq

/-- One step `j` of the inner candidate scan of Prim's algorithm
(HeuristicTour.c lines 203–224), for a fixed visited vertex `vp1`.
`acc = (v_new->city, e)`; a non-INFINITE entry to an unvisited `j` replaces
the candidate when `e.weight == INFINITE || cities[vp1][j] < e.weight`. -/
def primScanRow (cities : Nat → Nat → Int) (vlist : List Nat) (vp1 : Nat)
    (acc : Nat × Edge) (j : Nat) : Nat × Edge :=
  if cities vp1 j = INFINITE then acc
  else if j ∈ vlist then acc
  else if acc.2.weight = INFINITE ∨ cities vp1 j < acc.2.weight then
    (j, ⟨vp1, j, cities vp1 j⟩)
  else acc

/-- The full candidate search of one Prim iteration (lines 200–225):
scan every visited vertex `vp1` (in insertion order) and every city `j`. -/
def primSelect (n : Nat) (cities : Nat → Nat → Int) (vlist : List Nat)
    (init : Nat × Edge) : Nat × Edge :=
  vlist.foldl (fun acc vp1 => (List.range n).foldl (primScanRow cities vlist vp1) acc) init

/-- Marking `mst[a][b] = mst[b][a] = CONNECTED` (lines 233–234). -/
def mstAdd (g : Nat → Nat → Bool) (a b : Nat) : Nat → Nat → Bool :=
  fun x y => if (x = a ∧ y = b) ∨ (x = b ∧ y = a) then true else g x y

/-- One iteration of the outer Prim loop (lines 191–235).  `junkC` models the
uninitialized `v_new->city` and `junk1`, `junk2` the uninitialized
`e.city1`, `e.city2` (only `e.weight` is initialized, to INFINITE). -/
def primStep (n : Nat) (cities : Nat → Nat → Int) (junkC junk1 junk2 : Nat)
    (st : List Nat × (Nat → Nat → Bool)) (_i : Nat) :
    List Nat × (Nat → Nat → Bool) :=
  let sel := primSelect n cities st.1 (junkC, ⟨junk1, junk2, INFINITE⟩)
  (st.1 ++ [sel.1], mstAdd st.2 sel.2.city1 sel.2.city2)

/-- The Prim phase of `getHeuristicTour` (lines 182–235): the visited-vertex
list starts as `[0]`, the mst matrix all-UNCONNECTED, and the loop runs for
`i = 1, …, n-1`. -/
def buildMST (n : Nat) (cities : Nat → Nat → Int) (junkC junk1 junk2 : Nat) :
    List Nat × (Nat → Nat → Bool) :=
  (List.range' 1 (n - 1)).foldl (primStep n cities junkC junk1 junk2)
    ([0], fun _ _ => false)

/-- The `for (i=0; i<nr_cities; i++)` loop of `dfs` (HeuristicTour.c lines
119–139), as recursion over the remaining cities: for each adjacent
unvisited city, recurse into it (through `rec`, the one-level-deeper `dfs`)
and append the backward-trail entry for `node`. -/
def dfsKids (rec : Nat → (Nat → Bool) → ((Nat → Bool) × List Nat))
    (g : Nat → Nat → Bool) (node : Nat) :
    List Nat → ((Nat → Bool) × List Nat) → ((Nat → Bool) × List Nat)
  | [], st => st
  | i :: rest, st =>
    if g node i = true ∧ st.1 i = false then
      dfsKids rec g node rest ((rec i st.1).1, st.2 ++ (rec i st.1).2 ++ [node])
    else dfsKids rec g node rest st

/-- Function `void dfs(...)` (HeuristicTour.c lines 93–140): mark the node
visited, record it in the trail, then scan the cities in increasing index
order (`dfsKids`).  The C function recurses without bound; here `fuel`
bounds the recursion depth, and the top-level call passes fuel `n`, which is
never exhausted because each recursive call targets an unvisited node of
`0, …, n-1` that is immediately marked. -/
def dfs (g : Nat → Nat → Bool) (n : Nat) :
    Nat → Nat → (Nat → Bool) → ((Nat → Bool) × List Nat)
  | 0, _node, visited => (visited, [])
  | fuel + 1, node, visited =>
    dfsKids (dfs g n fuel) g node (List.range n)
      (fun k => if k = node then true else visited k, [node])

/-- The shortcut loop of `getHeuristicTour` (lines 253–265): walk the trail,
keeping a city when it is unvisited or when it is the last element
(`v->next == NULL`); each kept city after the first adds
`cities[res.tour[i-1]][res.tour[i]]` to the cost. -/
def shortcutAux (cities : Nat → Nat → Int) :
    List Nat → (Nat → Bool) → List Nat → Int → List Nat × Int
  | [], _visited, kept, cost => (kept, cost)
  | c :: rest, visited, kept, cost =>
    if visited c = false ∨ rest = [] then
      shortcutAux cities rest (fun k => if k = c then true else visited k) (kept ++ [c])
        (match kept.getLast? with
          | some prev => cost + cities prev c
          | none => cost)
    else shortcutAux cities rest visited kept cost

/-- Struct `result` of HeuristicTour.c. -/
structure HResult where
  cost : Int
  tour : List Nat
  tour_size : Nat
deriving Repr, DecidableEq

/-- Function `struct result getHeuristicTour(int nr_cities, int **cities)`
(lines 147–268): Prim's algorithm, then a depth-first walk of the mst from
city 0, then the shortcut compression.  The C code writes the kept cities
into the first entries of a malloc'd array of `nr_cities + 1` ints; `tour`
here is the list of cities actually written. -/
def getHeuristicTour (n : Nat) (cities : Nat → Nat → Int) (junkC junk1 junk2 : Nat) :
    HResult :=
  let bm := buildMST n cities junkC junk1 junk2
  let walk := (dfs bm.2 n n 0 (fun _ => false)).2
  let sc := shortcutAux cities walk (fun _ => false) [] INFINITE
  ⟨sc.2, sc.1, n + 1⟩

/-! ### Specification-side notions for the heuristic engine -/

/-- Reachability within the vertices `0, …, n-1` through an adjacency
predicate. -/
inductive Reach (n : Nat) (adj : Nat → Nat → Prop) : Nat → Nat → Prop
  | refl (i : Nat) : Reach n adj i i
  | step {i j k : Nat} : Reach n adj i j → k < n → adj j k → Reach n adj i k

/-- The input graph of the heuristic engine: cities `i`, `j` are adjacent
when the matrix entry is nonzero (zero is overloaded to mean "absent edge"). -/
def adjNZ (cities : Nat → Nat → Int) : Nat → Nat → Prop :=
  fun i j => cities i j ≠ 0

/-- Connectivity of the nonzero-entry graph on the `n` cities. -/
def ConnNZ (n : Nat) (cities : Nat → Nat → Int) : Prop :=
  ∀ k < n, Reach n (adjNZ cities) 0 k

/-- Adjacency of a boolean matrix (such as the built mst). -/
def adjB (g : Nat → Nat → Bool) : Nat → Nat → Prop :=
  fun i j => g i j = true

/-- The normalized edge set of a boolean adjacency matrix over `n` vertices:
pairs `(i, j)` with `i < j < n` and `g i j`. -/
def edgeFinset (n : Nat) (g : Nat → Nat → Bool) : Finset (Nat × Nat) :=
  (Finset.range n ×ˢ Finset.range n).filter (fun p => p.1 < p.2 ∧ g p.1 p.2 = true)

/-- Adjacency induced by a set of (normalized) undirected edges. -/
def adjE (E : Finset (Nat × Nat)) : Nat → Nat → Prop :=
  fun a b => (a, b) ∈ E ∨ (b, a) ∈ E

/-- Edge sets (normalized pairs) representing a spanning tree of the
nonzero-entry graph of the matrix: every edge is an existing graph edge,
the edges connect all `n` vertices, and there are exactly `n - 1` of them. -/
def IsSpanTree (n : Nat) (cities : Nat → Nat → Int) (E : Finset (Nat × Nat)) : Prop :=
  (∀ p ∈ E, p.1 < p.2 ∧ p.2 < n ∧ cities p.1 p.2 ≠ 0) ∧
  (∀ k < n, Reach n (adjE E) 0 k) ∧
  E.card = n - 1

/-- Total weight of an edge set. -/
def edgeWeight (cities : Nat → Nat → Int) (E : Finset (Nat × Nat)) : Int :=
  ∑ p ∈ E, cities p.1 p.2

/-- The cities of `0, …, n-1` not yet marked visited. -/
def unvis (n : Nat) (vis : Nat → Bool) : Finset Nat :=
  (Finset.range n).filter (fun k => vis k = false)

/-- The spec-side child scan of the Euler-style tree walk: the children of
`node` (its tree neighbours other than its parent `par`) are visited in
increasing city-index order, and after exhausting each child subtree a
return entry for `node` is recorded. -/
def eulerKids (rec : Nat → Nat → List Nat) (g : Nat → Nat → Bool) (node par : Nat) :
    List Nat → List Nat
  | [] => []
  | i :: rest =>
    if g node i = true ∧ i ≠ par then
      rec i node ++ [node] ++ eulerKids rec g node par rest
    else eulerKids rec g node par rest

/-- The walk described by the spec for `TreeWalker`: a full depth-first
traversal of the tree that records a visit entry each time control enters a
vertex — the initial entry and every return to a parent after a child
subtree — visiting children in increasing city-index order.  For the root
call, `par` is the root itself (a tree has no self-loops, so no child is
excluded). -/
def eulerTour (g : Nat → Nat → Bool) (n : Nat) : Nat → Nat → Nat → List Nat
  | 0, _, _ => []
  | fuel + 1, node, par =>
    node :: eulerKids (fun c p => eulerTour g n fuel c p) g node par (List.range n)

/-- Adjacency restricted to the vertices `0, …, n-1` other than `v`. -/
def AvoidAdj (n : Nat) (g : Nat → Nat → Bool) (v : Nat) : Nat → Nat → Prop :=
  fun x y => g x y = true ∧ x ≠ v ∧ y ≠ v ∧ x < n ∧ y < n

/-- Breadth-first reachability layers from city 0 in a boolean adjacency
matrix, used for counting the edges of a connected graph. -/
def ball (n : Nat) (g : Nat → Nat → Bool) : Nat → Finset Nat
  | 0 => {0}
  | t + 1 =>
    ball n g t ∪ (Finset.range n).filter (fun w => ∃ u ∈ ball n g t, g u w = true)

/-- Reachability through `g`-edges stepping only into cities unvisited in
`vis`. -/
def ReachAvoid (n : Nat) (g : Nat → Nat → Bool) (vis : Nat → Bool) : Nat → Nat → Prop :=
  Reach n (fun u w => g u w = true ∧ vis w = false)

/-- A candidate edge for one Prim iteration: it leads from a row vertex to a
city outside the visited-vertex list through a non-INFINITE entry. -/
def IsCand (cities : Nat → Nat → Int) (vlist : List Nat) (u j : Nat) : Prop :=
  cities u j ≠ INFINITE ∧ j ∉ vlist

/-- Invariant of the candidate-scan accumulator `acc = (v_new->city, e)`
relative to the pairs `P` already scanned: either nothing scanned so far was
a candidate and `e.weight` still holds the INFINITE sentinel, or `acc`
records a genuine candidate of minimal weight among the scanned ones. -/
def SelOk (n : Nat) (cities : Nat → Nat → Int) (vlist : List Nat) (P : Nat → Nat → Prop)
    (acc : Nat × Edge) : Prop :=
  (acc.2.weight = INFINITE ∧ ∀ u j, P u j → ¬IsCand cities vlist u j) ∨
  (acc.1 = acc.2.city2 ∧ acc.2.city1 ∈ vlist ∧ acc.2.city2 < n ∧
    IsCand cities vlist acc.2.city1 acc.2.city2 ∧
    acc.2.weight = cities acc.2.city1 acc.2.city2 ∧
    ∀ u j, P u j → IsCand cities vlist u j → acc.2.weight ≤ cities u j)

/-- Invariant of the Prim loop state `st = (vlist, mst)`: the visited-vertex
list is duplicate-free, starts from city 0 and stays within range; the mst
matrix is symmetric, contains only nonzero-weight edges between visited
vertices, connects every visited vertex to city 0, and holds exactly
`|vlist| - 1` undirected edges. -/
structure PrimInv (n : Nat) (cities : Nat → Nat → Int)
    (st : List Nat × (Nat → Nat → Bool)) : Prop where
  nodup : st.1.Nodup
  zero_mem : 0 ∈ st.1
  sub : ∀ v ∈ st.1, v < n
  symm : ∀ x y, st.2 x y = st.2 y x
  edge_mem : ∀ x y, st.2 x y = true → x ∈ st.1 ∧ y ∈ st.1 ∧ x ≠ y ∧
    (cities x y ≠ 0 ∨ cities y x ≠ 0)
  conn : ∀ v ∈ st.1, Reach n (adjB st.2) 0 v
  count : (edgeFinset n st.2).card + 1 = st.1.length

/-- Sum of matrix distances between consecutive cities of a list, the first
city contributing nothing; `prev` is the previously kept city, if any. -/
def pathCostFrom (cities : Nat → Nat → Int) : Option Nat → List Nat → Int
  | _, [] => 0
  | prev, x :: xs =>
    (match prev with
      | some p => cities p x
      | none => 0) + pathCostFrom cities (some x) xs

/-- What one `dfs` call guarantees, relating the entry state (`vis`) to the
result `out = (visited', trail)`: trail length bookkeeping, monotone growth
of the visited set, soundness (only cities reachable from `node` through
unvisited cities get visited), closure (all neighbours of a newly visited
city end up visited), and trail structure (members, head and last entry). -/
structure DfsOut (n : Nat) (g : Nat → Nat → Bool) (node : Nat) (vis : Nat → Bool)
    (out : (Nat → Bool) × List Nat) : Prop where
  len : out.2.length = 2 * ((unvis n vis).card - (unvis n out.1).card) - 1
  card_lt : (unvis n out.1).card < (unvis n vis).card
  mono : ∀ x, vis x = true → out.1 x = true
  node_vis : out.1 node = true
  sound : ∀ x, out.1 x = true → vis x = true ∨
    (x < n ∧ vis x = false ∧ ReachAvoid n g vis node x)
  closure : ∀ x, out.1 x = true → vis x = false →
    ∀ y, y < n → g x y = true → out.1 y = true
  trail_mem : ∀ x ∈ out.2, out.1 x = true ∧ vis x = false
  new_in_trail : ∀ x, out.1 x = true → vis x = true ∨ x ∈ out.2
  head : out.2.head? = some node
  last : out.2.getLast? = some node

/-- What the child-scan loop `dfsKids` guarantees, relating the loop entry
state `st` to the result `out`, for the remaining scan list `l`; `vis` is
the visited set at entry of the enclosing `dfs` call on `node`. -/
structure KidsOut (n : Nat) (g : Nat → Nat → Bool) (vis : Nat → Bool) (node : Nat)
    (l : List Nat) (st out : (Nat → Bool) × List Nat) : Prop where
  len : out.2.length = st.2.length + 2 * ((unvis n st.1).card - (unvis n out.1).card)
  card_le : (unvis n out.1).card ≤ (unvis n st.1).card
  mono : ∀ x, st.1 x = true → out.1 x = true
  sound : ∀ x, out.1 x = true → st.1 x = true ∨
    (x < n ∧ vis x = false ∧ ReachAvoid n g vis node x)
  closure : ∀ x, out.1 x = true → st.1 x = false →
    ∀ y, y < n → g x y = true → out.1 y = true
  scanned : ∀ i ∈ l, g node i = true → out.1 i = true
  trail_mem : ∀ x ∈ out.2, x ∈ st.2 ∨ (out.1 x = true ∧ st.1 x = false)
  new_in_trail : ∀ x, out.1 x = true → st.1 x = true ∨ x ∈ out.2
  ext : ∃ tail, out.2 = st.2 ++ tail
  last : out.2.getLast? = some node

/-! ### Theorems -/

/-- C1: getOptimalTour is claimed to return a minimum-cost Hamiltonian cycle
for every n ≥ 1.  At the failing input n = 2 with distance 1 between the two
cities, `nr_perm = factorial(1)/2 = 0`, so the enumeration loop never runs:
the code returns cost 0 (and an uninitialized tour, here junk value 7), while
every Hamiltonian cycle ordering starting at city 0 costs 2. -/
theorem C1_n2_failing_eval :
    (getOptimalTour 2 mat2 7 9).cost = 0 ∧
    (getOptimalTour 2 mat2 7 9).tour = [7, 7, 7] ∧
    (∀ l, IsStartTour 2 l → tourCost 2 mat2 l = 2) := by
  refine ⟨by decide, by decide, ?_⟩
  rintro l ⟨hp, hh⟩
  have hr2 : List.range 2 = [0, 1] := by decide
  rw [hr2] at hp
  have hlen : l.length = 2 := by simpa using hp.length_eq
  rcases l with _ | ⟨a, _ | ⟨b, _ | ⟨c, t⟩⟩⟩
  · simp at hlen
  · simp at hlen
  · have ha : a = 0 := by simpa using hh
    subst ha
    have h1 : (1 : Nat) ∈ [0, b] := hp.mem_iff.mpr (by simp)
    have hb : b = 1 := by
      rcases List.mem_pair.mp h1 with h | h
      · omega
      · omega
    subst hb
    decide
  · simp at hlen

/-- C2: the enumeration loop is claimed to visit, for every n, every
structurally distinct Hamiltonian cycle (city 0 fixed) exactly once.  At the
failing input n = 2 the loop runs `factorial(1)/2 = 0` times, so the single
distinct Hamiltonian cycle `[0, 1]` occurs zero times, not once. -/
theorem C2_n2_failing_eval :
    enumPerms 2 9 = [] ∧ IsStartTour 2 [0, 1] := by
  refine ⟨by decide, ?_⟩
  constructor
  · have hr2 : List.range 2 = [0, 1] := by decide
    rw [hr2]
  · decide

/-- C9: for n = 1 the tour is claimed to be `[0, 0]` with cost 0.  The code
computes `nr_perm = factorial(0)/2 = 0` (the special case the spec demands is
absent), so the loop never runs and the malloc'd tour array is returned with
its contents uninitialized: with junk value 7 the result is `[7, 7]`, not
`[0, 0]`; only the cost 0 matches the claim. -/
theorem C9_n1_failing_eval :
    (getOptimalTour 1 mat2 7 9).cost = 0 ∧
    (getOptimalTour 1 mat2 7 9).tour = [7, 7] ∧
    (getOptimalTour 1 mat2 7 9).tour ≠ [0, 0] := by
  decide

/-- Helper: one iteration of the enumeration loop splits into the
best-tracking step on the current permutation and the SJT advance. -/
theorem optFold_eq_bestFold (n : Nat) (cities : Nat → Nat → Int) :
    ∀ (idxs : List Nat) (res : CResult) (s : SJT),
      idxs.foldl (optLoopStep n cities) (res, s) =
        ((sjtTrace n s idxs.length).foldl (bestStep n cities) res,
          (sjtStep n)^[idxs.length] s) := by
  intro idxs
  induction idxs with
  | nil => intro res s; rfl
  | cons i is ih =>
    intro res s
    have h1 : optLoopStep n cities (res, s) i = (bestStep n cities res s.p, sjtStep n s) := rfl
    simp only [List.foldl_cons, h1, ih, List.length_cons, sjtTrace]
    rw [Function.iterate_succ_apply]

/-- Helper: the accumulating fold defining `enumPerms` produces the
`sjtTrace` of the iterated states. -/
theorem enumAux_eq (n : Nat) :
    ∀ (idxs : List Nat) (acc : List (List Nat)) (s : SJT),
      (idxs.foldl (fun (a : List (List Nat) × SJT) _ => (a.1 ++ [a.2.p], sjtStep n a.2))
        (acc, s)).1 = acc ++ sjtTrace n s idxs.length := by
  intro idxs
  induction idxs with
  | nil => intro acc s; simp [sjtTrace]
  | cons i is ih =>
    intro acc s
    simp only [List.foldl_cons, ih, List.length_cons, sjtTrace]
    simp

/-- Helper: `enumPerms` as an `sjtTrace`. -/
theorem enumPerms_eq_trace (n junkIdx : Nat) :
    enumPerms n junkIdx =
      sjtTrace n ⟨List.range n, List.replicate n LEFT, junkIdx⟩ (factorial (n - 1) / 2) := by
  unfold enumPerms
  rw [enumAux_eq]
  simp

/-- Helper: `getOptimalTour` equals the `bestStep` fold over `enumPerms`,
followed by the closing-city fixup. -/
theorem getOptimalTour_eq_bestFold (n : Nat) (cities : Nat → Nat → Int)
    (junk junkIdx : Nat) :
    getOptimalTour n cities junk junkIdx =
      (fun res => { res with tour := res.tour.set n (res.tour.getD 0 junk) })
        ((enumPerms n junkIdx).foldl (bestStep n cities)
          ⟨INFINITE, List.replicate (n + 1) junk, n + 1⟩) := by
  unfold getOptimalTour
  rw [enumPerms_eq_trace]
  simp only [optFold_eq_bestFold, List.length_range]

/-- Helper: `sjtStep` preserves the length of the permutation array. -/
theorem sjtStep_p_length (n : Nat) (s : SJT) : (sjtStep n s).p.length = s.p.length := by
  simp [sjtStep, listSwap]

/-- Helper: all permutations in an `sjtTrace` have the initial length. -/
theorem sjtTrace_mem_length (n : Nat) :
    ∀ (k : Nat) (s : SJT), s.p.length = n → ∀ l ∈ sjtTrace n s k, l.length = n := by
  intro k
  induction k with
  | zero => intro s _ l hl; simp [sjtTrace] at hl
  | succ k ih =>
    intro s hs l hl
    simp only [sjtTrace, List.mem_cons] at hl
    rcases hl with rfl | hl
    · exact hs
    · exact ih (sjtStep n s) (by rw [sjtStep_p_length, hs]) l hl

/-- Helper: every permutation examined by the loop has length `n`. -/
theorem enumPerms_mem_length (n junkIdx : Nat) :
    ∀ l ∈ enumPerms n junkIdx, l.length = n := by
  rw [enumPerms_eq_trace]
  exact sjtTrace_mem_length n _ _ (by simp)

/-- Helper: setting the element just past a list rewrites the appended
singleton. -/
theorem set_append_singleton (l : List Nat) (x y : Nat) :
    (l ++ [x]).set l.length y = l ++ [y] := by
  induction l with
  | nil => rfl
  | cons a l ih => simp [List.set, ih]

/-- Helper: folding `bestStep` over permutations of positive cost, starting
from a stored positive cost, either leaves the result unchanged (no
permutation beats it) or returns the first permutation achieving the
minimum. -/
theorem bestFold_first_min (n : Nat) (cities : Nat → Nat → Int) :
    ∀ (L : List (List Nat)) (res : CResult),
      (∀ l ∈ L, 0 < tourCost n cities l) → (∀ l ∈ L, n ≤ l.length) → 0 < res.cost →
      ((∀ l ∈ L, res.cost ≤ tourCost n cities l) ∧
        L.foldl (bestStep n cities) res = res) ∨
      (∃ pre lmin post, L = pre ++ lmin :: post ∧
        tourCost n cities lmin < res.cost ∧
        (∀ l ∈ pre, tourCost n cities lmin < tourCost n cities l) ∧
        (∀ l ∈ post, tourCost n cities lmin ≤ tourCost n cities l) ∧
        L.foldl (bestStep n cities) res =
          { cost := tourCost n cities lmin,
            tour := lmin.take n ++ res.tour.drop n,
            tour_size := res.tour_size }) := by
  intro L
  induction L with
  | nil => intro res _ _ _; exact Or.inl ⟨by simp, rfl⟩
  | cons l L ih =>
    intro res hpos hlen hres
    have hposl : 0 < tourCost n cities l := hpos l (by simp)
    have htl : (l.take n).length = n := by
      rw [List.length_take]
      exact Nat.min_eq_left (hlen l (by simp))
    have hdrop : (l.take n ++ res.tour.drop n).drop n = res.tour.drop n :=
      List.drop_left' htl
    by_cases hc : tourCost n cities l < res.cost
    · have hstep : bestStep n cities res l =
          ⟨tourCost n cities l, l.take n ++ res.tour.drop n, res.tour_size⟩ := by
        unfold bestStep
        rw [if_pos (Or.inl hc)]
      have hres1 := ih ⟨tourCost n cities l, l.take n ++ res.tour.drop n, res.tour_size⟩
          (fun l' hl' => hpos l' (by simp [hl'])) (fun l' hl' => hlen l' (by simp [hl']))
          hposl
      rcases hres1 with h | h
      · refine Or.inr ⟨[], l, L, by simp, hc, by simp, ?_, ?_⟩
        · exact fun l' hl' => h.1 l' hl'
        · rw [List.foldl_cons, hstep, h.2]
      · obtain ⟨pre, lmin, post, hsplit, hlt, hpre, hpost, hfold⟩ := h
        have hlt2 : tourCost n cities lmin < tourCost n cities l := hlt
        refine Or.inr ⟨l :: pre, lmin, post, by rw [hsplit]; rfl,
          lt_trans hlt2 hc, ?_, hpost, ?_⟩
        · intro l' hl'
          rcases List.mem_cons.mp hl' with rfl | hl'
          · exact hlt2
          · exact hpre l' hl'
        · rw [List.foldl_cons, hstep, hfold]
          simp only [hdrop]
    · have hstep : bestStep n cities res l = res := by
        unfold bestStep
        rw [if_neg]
        push_neg
        refine ⟨not_lt.mp hc, ?_⟩
        show res.cost ≠ INFINITE
        rw [INFINITE]
        omega
      have hres1 := ih res (fun l' hl' => hpos l' (by simp [hl']))
          (fun l' hl' => hlen l' (by simp [hl'])) hres
      rcases hres1 with h | h
      · refine Or.inl ⟨?_, by rw [List.foldl_cons, hstep, h.2]⟩
        intro l' hl'
        rcases List.mem_cons.mp hl' with rfl | hl'
        · exact not_lt.mp hc
        · exact h.1 l' hl'
      · obtain ⟨pre, lmin, post, hsplit, hlt, hpre, hpost, hfold⟩ := h
        refine Or.inr ⟨l :: pre, lmin, post, by rw [hsplit]; rfl, hlt, ?_, hpost, ?_⟩
        · intro l' hl'
          rcases List.mem_cons.mp hl' with rfl | hl'
          · exact lt_of_lt_of_le hlt (not_lt.mp hc)
          · exact hpre l' hl'
        · rw [List.foldl_cons, hstep, hfold]

/-- C8 amended: a permutation replaces the stored best when its cost is
strictly lower than the stored cost or when the stored cost equals the
INFINITE sentinel 0; consequently, whenever every enumerated permutation has
positive cost, the returned tour is the first enumerated permutation
achieving the minimal enumerated cost, closed with its starting city. -/
theorem C8_amended_stable_min (n : Nat) (cities : Nat → Nat → Int) (junk junkIdx : Nat)
    (hne : enumPerms n junkIdx ≠ [])
    (hpos : ∀ l ∈ enumPerms n junkIdx, 0 < tourCost n cities l) :
    ∃ pre lmin post,
      enumPerms n junkIdx = pre ++ lmin :: post ∧
      (∀ l ∈ pre, tourCost n cities lmin < tourCost n cities l) ∧
      (∀ l ∈ enumPerms n junkIdx, tourCost n cities lmin ≤ tourCost n cities l) ∧
      (getOptimalTour n cities junk junkIdx).cost = tourCost n cities lmin ∧
      (getOptimalTour n cities junk junkIdx).tour = lmin ++ [lmin.getD 0 junk] := by
  obtain ⟨l0, L, hL⟩ : ∃ l0 L, enumPerms n junkIdx = l0 :: L := by
    rcases h : enumPerms n junkIdx with _ | ⟨l0, L⟩
    · exact absurd h hne
    · exact ⟨l0, L, rfl⟩
  have hn : n ≠ 0 := by
    rintro rfl
    exact hne rfl
  have hlen0 : l0.length = n := enumPerms_mem_length n junkIdx l0 (by simp [hL])
  have hc0 : 0 < tourCost n cities l0 := hpos l0 (by simp [hL])
  have hrep : (List.replicate (n + 1) junk).drop n = [junk] := by
    rw [List.replicate_succ']
    exact List.drop_left' (List.length_replicate n junk)
  have hfix : ∀ lm : List Nat, lm.length = n →
      (lm ++ [junk]).set n ((lm ++ [junk]).getD 0 junk) = lm ++ [lm.getD 0 junk] := by
    intro lm hlm
    have hgd : (lm ++ [junk]).getD 0 junk = lm.getD 0 junk := by
      rcases lm with _ | ⟨a, t⟩
      · simp at hlm
        omega
      · rfl
    rw [hgd, show n = lm.length from hlm.symm, set_append_singleton]
  have hstep0 : bestStep n cities ⟨INFINITE, List.replicate (n + 1) junk, n + 1⟩ l0 =
      { cost := tourCost n cities l0, tour := l0 ++ [junk], tour_size := n + 1 } := by
    unfold bestStep
    rw [if_pos (Or.inr rfl)]
    have ht : l0.take n = l0 := List.take_of_length_le (le_of_eq hlen0)
    simp [ht, hrep]
  have key : ∃ pre lmin post,
      enumPerms n junkIdx = pre ++ lmin :: post ∧
      (∀ l ∈ pre, tourCost n cities lmin < tourCost n cities l) ∧
      (∀ l ∈ enumPerms n junkIdx, tourCost n cities lmin ≤ tourCost n cities l) ∧
      (enumPerms n junkIdx).foldl (bestStep n cities)
          ⟨INFINITE, List.replicate (n + 1) junk, n + 1⟩ =
        { cost := tourCost n cities lmin, tour := lmin ++ [junk], tour_size := n + 1 } := by
    rcases bestFold_first_min n cities L
        { cost := tourCost n cities l0, tour := l0 ++ [junk], tour_size := n + 1 }
        (fun l' hl' => hpos l' (by simp [hL, hl']))
        (fun l' hl' => le_of_eq (enumPerms_mem_length n junkIdx l' (by simp [hL, hl'])).symm)
        hc0 with h | h
    · refine ⟨[], l0, L, by simp [hL], by simp, ?_, ?_⟩
      · intro l hl
        rw [hL] at hl
        rcases List.mem_cons.mp hl with rfl | hl
        · exact le_refl _
        · exact h.1 l hl
      · rw [hL, List.foldl_cons, hstep0, h.2]
    · obtain ⟨pre, lmin, post, hsplit, hlt, hpre, hpost, hfold⟩ := h
      have hlmin : lmin ∈ enumPerms n junkIdx := by simp [hL, hsplit]
      have hlminlen : lmin.length = n := enumPerms_mem_length n junkIdx lmin hlmin
      refine ⟨l0 :: pre, lmin, post, by rw [hL, hsplit]; rfl, ?_, ?_, ?_⟩
      · intro l hl
        rcases List.mem_cons.mp hl with rfl | hl
        · exact hlt
        · exact hpre l hl
      · intro l hl
        rw [hL, hsplit] at hl
        rcases List.mem_cons.mp hl with rfl | hl
        · exact le_of_lt hlt
        · rcases List.mem_append.mp hl with hl | hl
          · exact le_of_lt (hpre l hl)
          · rcases List.mem_cons.mp hl with rfl | hl
            · exact le_refl _
            · exact hpost l hl
      · rw [hL, List.foldl_cons, hstep0, hfold]
        have htk : lmin.take n = lmin := List.take_of_length_le (le_of_eq hlminlen)
        have hdr : ((l0 ++ [junk] : List Nat)).drop n = [junk] := by
          rw [show n = l0.length from hlen0.symm]
          exact List.drop_left l0 [junk]
        simp [htk, hdr]
  obtain ⟨pre, lmin, post, hsplit, hpre, hall, hfold⟩ := key
  have hlminlen : lmin.length = n :=
    enumPerms_mem_length n junkIdx lmin (by simp [hsplit])
  refine ⟨pre, lmin, post, hsplit, hpre, hall, ?_, ?_⟩
  · rw [getOptimalTour_eq_bestFold, hfold]
  · rw [getOptimalTour_eq_bestFold, hfold]
    exact hfix lmin hlminlen

/-- Helper: a boolean that is not true is false. -/
theorem bool_eq_false {b : Bool} (h : ¬b = true) : b = false := by
  cases b
  · rfl
  · exact absurd rfl h

/-- Helper: a boolean that is not false is true. -/
theorem bool_eq_true {b : Bool} (h : ¬b = false) : b = true := by
  cases b
  · exact absurd rfl h
  · rfl

/-- Helper: reachability is transitive. -/
theorem reach_trans {n : Nat} {adj : Nat → Nat → Prop} {a b c : Nat}
    (h1 : Reach n adj a b) (h2 : Reach n adj b c) : Reach n adj a c := by
  induction h2 with
  | refl => exact h1
  | step _ hk hadj ih => exact Reach.step ih hk hadj

/-- Helper: reachability is monotone in the adjacency predicate. -/
theorem reach_mono {n : Nat} {adj1 adj2 : Nat → Nat → Prop}
    (h : ∀ x y, adj1 x y → adj2 x y) {a b : Nat} (hr : Reach n adj1 a b) :
    Reach n adj2 a b := by
  induction hr with
  | refl => exact Reach.refl _
  | step _ hk hadj ih => exact Reach.step ih hk (h _ _ hadj)

/-- Helper: marking a city removes it from the unvisited set. -/
theorem unvis_mark (n : Nat) (vis : Nat → Bool) (node : Nat) :
    unvis n (fun k => if k = node then true else vis k) = (unvis n vis).erase node := by
  ext k
  by_cases hk : k = node <;> simp [unvis, Finset.mem_erase, hk]

/-- Helper: a smaller visited set has a larger unvisited set. -/
theorem unvis_card_le_of_mono {n : Nat} {v1 v2 : Nat → Bool}
    (h : ∀ x, v1 x = true → v2 x = true) :
    (unvis n v2).card ≤ (unvis n v1).card := by
  apply Finset.card_le_card
  intro k hk
  simp only [unvis, Finset.mem_filter, Finset.mem_range] at hk ⊢
  refine ⟨hk.1, ?_⟩
  rcases h2 : v1 k with _ | _
  · rfl
  · exact absurd (h k h2) (by simp [hk.2])

/-- Helper: the master characterization of `dfs` and its child scan, by
induction on the fuel. -/
theorem dfs_master (g : Nat → Nat → Bool) (n : Nat) :
    ∀ fuel,
      (∀ node vis, node < n → vis node = false → (unvis n vis).card ≤ fuel →
        DfsOut n g node vis (dfs g n fuel node vis)) ∧
      (∀ vis node (l : List Nat) st, node < n → (∀ i ∈ l, i < n) →
        (unvis n st.1).card ≤ fuel →
        (∀ x, vis x = true → st.1 x = true) →
        node ∈ st.2 → st.2.getLast? = some node →
        KidsOut n g vis node l st (dfsKids (dfs g n fuel) g node l st)) := by
  intro fuel
  induction fuel with
  | zero =>
    constructor
    · intro node vis hn hv hcard
      exfalso
      have : node ∈ unvis n vis := by simp [unvis, hn, hv]
      have : 0 < (unvis n vis).card := Finset.card_pos.mpr ⟨node, this⟩
      omega
    · intro vis node l
      induction l with
      | nil =>
        intro st hn _ hcard hmono hmem hlast
        exact (⟨by simp, le_refl _, fun x hx => hx, fun x hx => Or.inl hx,
          fun x hx hx' => absurd hx (by simp [hx']), by simp, fun x hx => Or.inl hx,
          fun x hx => Or.inl hx, ⟨[], by simp⟩, hlast⟩ :
            KidsOut n g vis node [] st st)
      | cons i rest ih =>
        intro st hn hil hcard hmono hmem hlast
        have hiv : st.1 i = true := by
          by_contra hiv
          have : i ∈ unvis n st.1 := by
            simp [unvis, hil i (by simp)]
            exact bool_eq_false hiv
          have : 0 < (unvis n st.1).card := Finset.card_pos.mpr ⟨i, this⟩
          omega
        have hcond : ¬(g node i = true ∧ st.1 i = false) := by
          rintro ⟨_, h2⟩
          rw [hiv] at h2
          cases h2
        rw [dfsKids, if_neg hcond]
        have K := ih st hn (fun j hj => hil j (by simp [hj])) hcard hmono hmem hlast
        exact ⟨K.len, K.card_le, K.mono, K.sound, K.closure,
          fun j hj hgj => by
            rcases List.mem_cons.mp hj with rfl | hj
            · exact K.mono j hiv
            · exact K.scanned j hj hgj,
          K.trail_mem, K.new_in_trail, K.ext, K.last⟩
  | succ f ihf =>
    have hdfs : ∀ node vis, node < n → vis node = false → (unvis n vis).card ≤ f + 1 →
        DfsOut n g node vis (dfs g n (f + 1) node vis) := by
      intro node vis hn hv hcard
      rw [dfs]
      set st0 : (Nat → Bool) × List Nat :=
        (fun k => if k = node then true else vis k, [node]) with hst0
      have hnodemem : node ∈ unvis n vis := by simp [unvis, hn, hv]
      have hcard0 : (unvis n st0.1).card = (unvis n vis).card - 1 := by
        rw [show st0.1 = (fun k => if k = node then true else vis k) from rfl,
          unvis_mark, Finset.card_erase_of_mem hnodemem]
      have hcardpos : 0 < (unvis n vis).card := Finset.card_pos.mpr ⟨node, hnodemem⟩
      have K := ihf.2 vis node (List.range n) st0 hn (fun i hi => List.mem_range.mp hi)
        (by omega) (fun x hx => by simp [hst0, hx])
        (by simp [hst0]) (by simp [hst0])
      have hcardK := K.card_le
      rw [hcard0] at hcardK
      refine ⟨?_, ?_, ?_, ?_, ?_, ?_, ?_, ?_, ?_, K.last⟩
      · have := K.len
        rw [hcard0] at this
        have h12 : st0.2.length = 1 := rfl
        rw [h12] at this
        omega
      · omega
      · intro x hx
        exact K.mono x (by simp [hst0, hx])
      · exact K.mono node (by simp [hst0])
      · intro x hx
        rcases K.sound x hx with h | h
        · simp only [hst0] at h
          by_cases hxn : x = node
          · subst hxn
            exact Or.inr ⟨hn, hv, Reach.refl _⟩
          · simp [hxn] at h
            exact Or.inl h
        · exact Or.inr h
      · intro x hx hvx y hy hgy
        by_cases hxn : x = node
        · subst hxn
          exact K.scanned y (List.mem_range.mpr hy) hgy
        · exact K.closure x hx (by simpa [hst0, hxn] using hvx) y hy hgy
      · intro x hx
        rcases K.trail_mem x hx with h | h
        · simp only [hst0, List.mem_singleton] at h
          rw [h]
          exact ⟨K.mono node (by simp [hst0]), hv⟩
        · refine ⟨h.1, ?_⟩
          have := h.2
          simp only [hst0] at this
          by_cases hxn : x = node
          · exact absurd this (by simp [hxn])
          · simpa [hxn] using this
      · intro x hx
        rcases K.new_in_trail x hx with h | h
        · simp only [hst0] at h
          by_cases hxn : x = node
          · subst hxn
            obtain ⟨tail, htail⟩ := K.ext
            rw [htail]
            exact Or.inr (by simp [hst0])
          · simp [hxn] at h
            exact Or.inl h
        · exact Or.inr h
      · obtain ⟨tail, htail⟩ := K.ext
        rw [htail]
        simp [hst0]
    refine ⟨hdfs, ?_⟩
    intro vis node l
    induction l with
    | nil =>
      intro st hn _ hcard hmono hmem hlast
      exact (⟨by simp, le_refl _, fun x hx => hx, fun x hx => Or.inl hx,
        fun x hx hx' => absurd hx (by simp [hx']), by simp, fun x hx => Or.inl hx,
        fun x hx => Or.inl hx, ⟨[], by simp⟩, hlast⟩ :
          KidsOut n g vis node [] st st)
    | cons i rest ih =>
      intro st hn hil hcard hmono hmem hlast
      by_cases hcond : g node i = true ∧ st.1 i = false
      · rw [dfsKids, if_pos hcond]
        have hin : i < n := hil i (by simp)
        have D := hdfs i st.1 hin hcond.2 hcard
        set st' : (Nat → Bool) × List Nat :=
          ((dfs g n (f + 1) i st.1).1, st.2 ++ (dfs g n (f + 1) i st.1).2 ++ [node])
          with hst'
        have hcard' : (unvis n st'.1).card = (unvis n (dfs g n (f + 1) i st.1).1).card := rfl
        have hK := ih st' hn (fun j hj => hil j (by simp [hj]))
          (by have := D.card_lt; omega)
          (fun x hx => D.mono x (hmono x hx))
          (by simp [hst', hmem])
          (by simp [hst', List.getLast?_concat])
        refine ⟨?_, ?_, ?_, ?_, ?_, ?_, ?_, ?_, ?_, hK.last⟩
        · have h1 := hK.len
          have h2 := D.len
          have h3 := D.card_lt
          have h4 := hK.card_le
          have h5 : st'.2.length = st.2.length + (dfs g n (f + 1) i st.1).2.length + 1 := by
            show (st.2 ++ (dfs g n (f + 1) i st.1).2 ++ [node]).length = _
            simp [Nat.add_assoc]
          omega
        · have := D.card_lt
          have := hK.card_le
          omega
        · intro x hx
          exact hK.mono x (D.mono x hx)
        · intro x hx
          rcases hK.sound x hx with h | h
          · rcases D.sound x h with h' | h'
            · exact Or.inl h'
            · refine Or.inr ⟨h'.1, ?_, ?_⟩
              · by_contra hvx
                exact absurd (hmono x (bool_eq_true hvx)) (by simp [h'.2.1])
              · have hvi : vis i = false := by
                  by_contra hvi
                  exact absurd (hmono i (bool_eq_true hvi)) (by simp [hcond.2])
                have hreach_i : ReachAvoid n g vis node i :=
                  Reach.step (Reach.refl node) hin ⟨hcond.1, hvi⟩
                have hreach_x : ReachAvoid n g vis i x := by
                  apply reach_mono _ h'.2.2
                  rintro a b ⟨hab, hb⟩
                  refine ⟨hab, ?_⟩
                  by_contra hvb
                  exact absurd (hmono b (bool_eq_true hvb)) (by simp [hb])
                exact reach_trans hreach_i hreach_x
          · exact Or.inr h
        · intro x hx hsx y hy hgy
          by_cases hs'x : st'.1 x = true
          · have : st.1 x = false := hsx
            have hcl := D.closure x hs'x this y hy hgy
            exact hK.mono y hcl
          · exact hK.closure x hx (bool_eq_false hs'x) y hy hgy
        · intro j hj hgj
          rcases List.mem_cons.mp hj with rfl | hj
          · exact hK.mono j (D.node_vis)
          · exact hK.scanned j hj hgj
        · intro x hx
          rcases hK.trail_mem x hx with h | h
          · simp only [hst', List.mem_append, List.mem_singleton] at h
            rcases h with (h | h) | h
            · exact Or.inl h
            · have := D.trail_mem x h
              exact Or.inr ⟨hK.mono x this.1, this.2⟩
            · subst h
              exact Or.inl hmem
          · refine Or.inr ⟨h.1, ?_⟩
            by_contra hsx
            have h2 : (dfs g n (f + 1) i st.1).1 x = false := h.2
            exact absurd (D.mono x (bool_eq_true hsx)) (by simp [h2])
        · intro x hx
          rcases hK.new_in_trail x hx with h | h
          · rcases D.new_in_trail x h with h' | h'
            · exact Or.inl h'
            · obtain ⟨tail, htail⟩ := hK.ext
              rw [htail]
              exact Or.inr (by simp [hst', h'])
          · exact Or.inr h
        · obtain ⟨tail, htail⟩ := hK.ext
          rw [htail]
          exact ⟨(dfs g n (f + 1) i st.1).2 ++ [node] ++ tail, by simp [hst']⟩
      · rw [dfsKids, if_neg hcond]
        have hK := ih st hn (fun j hj => hil j (by simp [hj])) hcard hmono hmem hlast
        refine ⟨hK.len, hK.card_le, hK.mono, hK.sound, hK.closure, ?_,
          hK.trail_mem, hK.new_in_trail, hK.ext, hK.last⟩
        intro j hj hgj
        rcases List.mem_cons.mp hj with rfl | hj
        · have hsj : st.1 j = true := by
            by_contra hsj
            exact hcond ⟨hgj, bool_eq_false hsj⟩
          exact hK.mono j hsj
        · exact hK.scanned j hj hgj

/-- Helper: appending a singleton fixes the last element. -/
theorem getLast?_append_singleton {α : Type} (l : List α) (a : α) :
    (l ++ [a]).getLast? = some a := by
  rw [List.getLast?_concat]

/-- Helper: the walk produced by the top-level dfs call on a graph whose
vertices are all reachable from city 0: every city gets visited, the walk
has length 2·(n-1)+1, its members are exactly the cities 0, …, n-1, and it
starts and ends at city 0. -/
theorem dfs_walk_facts (n : Nat) (g : Nat → Nat → Bool) (hn : 0 < n)
    (hconn : ∀ k, k < n → Reach n (adjB g) 0 k) :
    (∀ k, k < n → (dfs g n n 0 (fun _ => false)).1 k = true) ∧
    (dfs g n n 0 (fun _ => false)).2.length = 2 * (n - 1) + 1 ∧
    (∀ x ∈ (dfs g n n 0 (fun _ => false)).2, x < n) ∧
    (∀ k, k < n → k ∈ (dfs g n n 0 (fun _ => false)).2) ∧
    (dfs g n n 0 (fun _ => false)).2.head? = some 0 ∧
    (dfs g n n 0 (fun _ => false)).2.getLast? = some 0 := by
  have hcardn : (unvis n (fun _ => false)).card = n := by simp [unvis]
  have D := (dfs_master g n n).1 0 (fun _ => false) hn rfl (le_of_eq hcardn)
  have hvisall : ∀ k, Reach n (adjB g) 0 k → (dfs g n n 0 (fun _ => false)).1 k = true := by
    intro k hr
    induction hr with
    | refl => exact D.node_vis
    | step _ hk' hadj ih => exact D.closure _ ih rfl _ hk' hadj
  have hcard0 : (unvis n (dfs g n n 0 (fun _ => false)).1).card = 0 := by
    rw [Finset.card_eq_zero, unvis, Finset.filter_eq_empty_iff]
    intro k hk
    simp [hvisall k (hconn k (Finset.mem_range.mp hk))]
  refine ⟨fun k hk => hvisall k (hconn k hk), ?_, ?_, ?_, D.head, D.last⟩
  · have := D.len
    rw [hcardn, hcard0] at this
    omega
  · intro x hx
    rcases D.trail_mem x hx with ⟨hv, _⟩
    rcases D.sound x hv with h | h
    · exact absurd h (by simp)
    · exact h.1
  · intro k hk
    rcases D.new_in_trail k (hvisall k (hconn k hk)) with h | h
    · exact absurd h (by simp)
    · exact h

/-- Helper: behavior of the shortcut loop on a walk with an explicit final
element: the kept list grows by the first occurrences of the not-yet-kept
cities of `w`, then the final element, and the cost grows by the
consecutive-pair distances along the appended cities. -/
theorem shortcutAux_spec (cities : Nat → Nat → Int) (z : Nat) :
    ∀ (w : List Nat) (vis : Nat → Bool) (kept : List Nat) (cost : Int),
      (∀ k, vis k = true ↔ k ∈ kept) → kept.Nodup →
      ∃ fo : List Nat,
        (shortcutAux cities (w ++ [z]) vis kept cost).1 = kept ++ fo ++ [z] ∧
        (kept ++ fo).Nodup ∧
        (∀ k, k ∈ fo ↔ (k ∉ kept ∧ k ∈ w)) ∧
        (shortcutAux cities (w ++ [z]) vis kept cost).2 =
          cost + pathCostFrom cities kept.getLast? (fo ++ [z]) := by
  intro w
  induction w with
  | nil =>
    intro vis kept cost hvis hnd
    refine ⟨[], ?_, by simpa using hnd, by simp, ?_⟩
    · rw [List.nil_append, shortcutAux, if_pos (Or.inr rfl), shortcutAux]
      simp
    · rw [List.nil_append, shortcutAux, if_pos (Or.inr rfl), shortcutAux]
      cases hk : kept.getLast? <;> simp [pathCostFrom, hk]
  | cons c rest ih =>
    intro vis kept cost hvis hnd
    rw [List.cons_append, shortcutAux]
    by_cases hc : vis c = false
    · rw [if_pos (Or.inl hc)]
      have hcnk : c ∉ kept := by
        intro hmem
        have := (hvis c).mpr hmem
        rw [hc] at this
        cases this
      have hvis' : ∀ k, (fun k => if k = c then true else vis k) k = true ↔
          k ∈ kept ++ [c] := by
        intro k
        by_cases hk : k = c
        · subst hk
          simp
        · simpa [hk] using hvis k
      have hnd' : (kept ++ [c]).Nodup := by
        rw [List.nodup_append]
        exact ⟨hnd, List.nodup_singleton c, by simpa using hcnk⟩
      obtain ⟨fo, h1, h2, h3, h4⟩ := ih _ _ _ hvis' hnd'
      refine ⟨c :: fo, ?_, ?_, ?_, ?_⟩
      · rw [h1]
        simp
      · have : kept ++ [c] ++ fo = kept ++ (c :: fo) := by simp
        rw [this] at h2
        exact h2
      · intro k
        by_cases hk : k = c
        · subst hk
          simp [hcnk]
        · rw [List.mem_cons]
          simp only [hk, false_or]
          rw [h3]
          simp [hk]
      · rw [h4, getLast?_append_singleton]
        have hpc : pathCostFrom cities kept.getLast? ((c :: fo) ++ [z]) =
            (match kept.getLast? with
              | some p => cities p c
              | none => 0) + pathCostFrom cities (some c) (fo ++ [z]) := by
          rw [List.cons_append]
          rfl
        rw [hpc]
        cases hk : kept.getLast? <;> simp [hk] <;> try ring
    · have hcm : c ∈ kept := (hvis c).mp (bool_eq_true hc)
      rw [if_neg (by simp [hc])]
      obtain ⟨fo, h1, h2, h3, h4⟩ := ih vis kept cost hvis hnd
      refine ⟨fo, h1, h2, ?_, h4⟩
      intro k
      rw [h3, List.mem_cons]
      constructor
      · rintro ⟨hk1, hk2⟩
        exact ⟨hk1, Or.inr hk2⟩
      · rintro ⟨hk1, rfl | hk2⟩
        · exact absurd hcm hk1
        · exact ⟨hk1, hk2⟩

/-- C5: for every n ≥ 1 and every walk produced by the DFS (from city 0)
over a graph connecting all n cities — in particular a spanning tree of the
n cities — the shortcut loop keeps each of the n cities exactly once apart
from the final closing repeat of city 0 (the walk's last element is always
kept: the returned sequence ends exactly where the walk ends), and the
reported cost equals the sum of matrix distances between consecutive kept
cities, with no cost added for the first kept city. -/
theorem C5_shortcut_tour (n : Nat) (g : Nat → Nat → Bool) (cities : Nat → Nat → Int)
    (hn : 0 < n) (hconn : ∀ k, k < n → Reach n (adjB g) 0 k) :
    (∀ x ∈ (shortcutAux cities (dfs g n n 0 (fun _ => false)).2
        (fun _ => false) [] INFINITE).1, x < n) ∧
    (∀ k, k < n →
      (shortcutAux cities (dfs g n n 0 (fun _ => false)).2
        (fun _ => false) [] INFINITE).1.count k = if k = 0 ∧ 2 ≤ n then 2 else 1) ∧
    (shortcutAux cities (dfs g n n 0 (fun _ => false)).2
        (fun _ => false) [] INFINITE).1.getLast? =
      (dfs g n n 0 (fun _ => false)).2.getLast? ∧
    (shortcutAux cities (dfs g n n 0 (fun _ => false)).2
        (fun _ => false) [] INFINITE).2 =
      pathCostFrom cities none
        (shortcutAux cities (dfs g n n 0 (fun _ => false)).2
          (fun _ => false) [] INFINITE).1 := by
  obtain ⟨hvisall, hlen, hmem, hocc, hhead, hlast⟩ := dfs_walk_facts n g hn hconn
  set walk := (dfs g n n 0 (fun _ => false)).2 with hwalk
  have hne : walk ≠ [] := by
    intro h
    rw [h] at hlen
    simp at hlen
  have hlast0 : walk.getLast hne = 0 := by
    rwa [List.getLast?_eq_getLast walk hne, Option.some_inj] at hlast
  have hdecomp : walk.dropLast ++ [0] = walk := by
    have := List.dropLast_append_getLast hne
    rwa [hlast0] at this
  obtain ⟨fo, h1, h2, h3, h4⟩ := shortcutAux_spec cities 0 walk.dropLast
    (fun _ => false) [] INFINITE (by simp) (by simp)
  rw [hdecomp] at h1 h4
  simp only [List.nil_append] at h1 h2
  have h3' : ∀ k, k ∈ fo ↔ k ∈ walk.dropLast := by
    intro k
    rw [h3]
    simp
  have hdlmem : ∀ x ∈ walk.dropLast, x ∈ walk := by
    intro x hx
    rw [← hdecomp]
    exact List.mem_append.mpr (Or.inl hx)
  refine ⟨?_, ?_, ?_, ?_⟩
  · intro x hx
    rw [h1] at hx
    rcases List.mem_append.mp hx with hx | hx
    · exact hmem x (hdlmem x ((h3' x).mp hx))
    · simp at hx
      subst hx
      exact hn
  · intro k hk
    rw [h1]
    by_cases hk0 : k = 0
    · subst hk0
      by_cases h2n : 2 ≤ n
      · have hlen3 : 3 ≤ walk.length := by omega
        have hdne : walk.dropLast ≠ [] := by
          intro h
          have hlw := congrArg List.length hdecomp
          rw [h] at hlw
          simp at hlw
          omega
        have hh : walk.dropLast.head? = some 0 := by
          have hw : (walk.dropLast ++ [0]).head? = walk.dropLast.head? := by
            cases hcc : walk.dropLast with
            | nil => exact absurd hcc hdne
            | cons a t => rfl
          rw [← hdecomp] at hhead
          rwa [hw] at hhead
        have h0m : 0 ∈ walk.dropLast := by
          cases hcc : walk.dropLast with
          | nil => exact absurd hcc hdne
          | cons a t =>
            rw [hcc] at hh
            simp at hh
            simp [hh]
        have hcnt : fo.count 0 = 1 := List.count_eq_one_of_mem h2 ((h3' 0).mpr h0m)
        simp [List.count_append, hcnt, h2n]
      · have hn1 : n = 1 := by omega
        have hlen1 : walk.length = 1 := by
          rw [hlen, hn1]
        have hdl : walk.dropLast = [] := by
          apply List.eq_nil_of_length_eq_zero
          rw [List.length_dropLast, hlen1]
        have hfo : fo = [] := by
          apply List.eq_nil_iff_forall_not_mem.mpr
          intro x hx
          rw [h3', hdl] at hx
          simp at hx
        simp [hfo, h2n]
    · have hkm : k ∈ walk.dropLast := by
        have := hocc k hk
        rw [← hdecomp] at this
        rcases List.mem_append.mp this with h | h
        · exact h
        · simp at h
          exact absurd h hk0
      have hcnt : fo.count k = 1 := List.count_eq_one_of_mem h2 ((h3' k).mpr hkm)
      simp [List.count_append, hcnt, hk0]
  · rw [h1, getLast?_append_singleton]
    exact hlast.symm
  · rw [h4, h1]
    simp [INFINITE, pathCostFrom]

/-- C5 instantiated: the Prim tree built from the spec's 4-city scenario
matrix connects all four cities, and the shortcut conclusions hold there. -/
theorem C5_shortcut_tour_witness :
    (0 < 4 ∧ ∀ k, k < 4 → Reach 4 (adjB (buildMST 4 mat4 99 98 97).2) 0 k) ∧
    ((∀ x ∈ (shortcutAux mat4 (dfs (buildMST 4 mat4 99 98 97).2 4 4 0 (fun _ => false)).2
        (fun _ => false) [] INFINITE).1, x < 4) ∧
    (∀ k, k < 4 →
      (shortcutAux mat4 (dfs (buildMST 4 mat4 99 98 97).2 4 4 0 (fun _ => false)).2
        (fun _ => false) [] INFINITE).1.count k = if k = 0 ∧ 2 ≤ 4 then 2 else 1) ∧
    (shortcutAux mat4 (dfs (buildMST 4 mat4 99 98 97).2 4 4 0 (fun _ => false)).2
        (fun _ => false) [] INFINITE).1.getLast? =
      (dfs (buildMST 4 mat4 99 98 97).2 4 4 0 (fun _ => false)).2.getLast? ∧
    (shortcutAux mat4 (dfs (buildMST 4 mat4 99 98 97).2 4 4 0 (fun _ => false)).2
        (fun _ => false) [] INFINITE).2 =
      pathCostFrom mat4 none
        (shortcutAux mat4 (dfs (buildMST 4 mat4 99 98 97).2 4 4 0 (fun _ => false)).2
          (fun _ => false) [] INFINITE).1) :=
  have hconn : ∀ k, k < 4 → Reach 4 (adjB (buildMST 4 mat4 99 98 97).2) 0 k := by
    intro k hk
    interval_cases k
    · exact Reach.refl 0
    · exact Reach.step (Reach.refl 0) (by omega)
        (show (buildMST 4 mat4 99 98 97).2 0 1 = true by decide)
    · exact Reach.step (Reach.refl 0) (by omega)
        (show (buildMST 4 mat4 99 98 97).2 0 2 = true by decide)
    · exact Reach.step (Reach.refl 0) (by omega)
        (show (buildMST 4 mat4 99 98 97).2 0 3 = true by decide)
  ⟨⟨by decide, hconn⟩, C5_shortcut_tour 4 (buildMST 4 mat4 99 98 97).2 mat4 (by decide) hconn⟩

/-- Helper: the scan invariant is contravariant in the scanned-pair
predicate. -/
theorem SelOk_mono {n : Nat} {cities : Nat → Nat → Int} {vlist : List Nat}
    {P Q : Nat → Nat → Prop} (h : ∀ u j, Q u j → P u j) {acc : Nat × Edge}
    (ha : SelOk n cities vlist P acc) : SelOk n cities vlist Q acc := by
  rcases ha with ⟨h1, h2⟩ | ⟨h1, h2, h3, h4, h5, h6⟩
  · exact Or.inl ⟨h1, fun u j hq => h2 u j (h u j hq)⟩
  · exact Or.inr ⟨h1, h2, h3, h4, h5, fun u j hq hc => h6 u j (h u j hq) hc⟩

/-- Helper: one step of the candidate scan preserves the invariant, adding
the scanned pair `(vp1, j)`. -/
theorem primScanRow_ok {n : Nat} {cities : Nat → Nat → Int} {vlist : List Nat}
    {vp1 : Nat} (hvp : vp1 ∈ vlist) {P : Nat → Nat → Prop} {acc : Nat × Edge}
    (ha : SelOk n cities vlist P acc) {j : Nat} (hj : j < n) :
    SelOk n cities vlist (fun u j' => P u j' ∨ (u = vp1 ∧ j' = j))
      (primScanRow cities vlist vp1 acc j) := by
  unfold primScanRow
  by_cases h0 : cities vp1 j = INFINITE
  · rw [if_pos h0]
    rcases ha with ⟨h1, h2⟩ | ⟨h1, h2, h3, h4, h5, h6⟩
    · refine Or.inl ⟨h1, ?_⟩
      rintro u j' (hp | ⟨rfl, rfl⟩)
      · exact h2 u j' hp
      · rintro ⟨hc, _⟩
        exact hc h0
    · refine Or.inr ⟨h1, h2, h3, h4, h5, ?_⟩
      rintro u j' (hp | ⟨rfl, rfl⟩) hc
      · exact h6 u j' hp hc
      · exact absurd h0 hc.1
  · rw [if_neg h0]
    by_cases hmem : j ∈ vlist
    · rw [if_pos hmem]
      rcases ha with ⟨h1, h2⟩ | ⟨h1, h2, h3, h4, h5, h6⟩
      · refine Or.inl ⟨h1, ?_⟩
        rintro u j' (hp | ⟨rfl, rfl⟩)
        · exact h2 u j' hp
        · rintro ⟨_, hc⟩
          exact hc hmem
      · refine Or.inr ⟨h1, h2, h3, h4, h5, ?_⟩
        rintro u j' (hp | ⟨rfl, rfl⟩) hc
        · exact h6 u j' hp hc
        · exact absurd hmem (by simpa using hc.2)
    · rw [if_neg hmem]
      by_cases hupd : acc.2.weight = INFINITE ∨ cities vp1 j < acc.2.weight
      · rw [if_pos hupd]
        refine Or.inr ⟨rfl, hvp, hj, ⟨h0, hmem⟩, rfl, ?_⟩
        rintro u j' (hp | ⟨rfl, rfl⟩) hc
        · rcases ha with ⟨h1, h2⟩ | ⟨h1, h2, h3, h4, h5, h6⟩
          · exact absurd hc (h2 u j' hp)
          · rcases hupd with hupd | hupd
            · exact absurd (h5 ▸ hupd) h4.1
            · exact le_of_lt (lt_of_lt_of_le hupd (h6 u j' hp hc))
        · exact le_refl _
      · rw [if_neg hupd]
        push_neg at hupd
        rcases ha with ⟨h1, h2⟩ | ⟨h1, h2, h3, h4, h5, h6⟩
        · exact absurd h1 hupd.1
        · refine Or.inr ⟨h1, h2, h3, h4, h5, ?_⟩
          rintro u j' (hp | ⟨rfl, rfl⟩) hc
          · exact h6 u j' hp hc
          · exact hupd.2

/-- Helper: the whole row scan over `js` preserves the invariant. -/
theorem primScanRow_fold_ok {n : Nat} {cities : Nat → Nat → Int} {vlist : List Nat}
    {vp1 : Nat} (hvp : vp1 ∈ vlist) :
    ∀ (js : List Nat), (∀ j ∈ js, j < n) →
    ∀ (acc : Nat × Edge) (P : Nat → Nat → Prop), SelOk n cities vlist P acc →
      SelOk n cities vlist (fun u j => P u j ∨ (u = vp1 ∧ j ∈ js))
        (js.foldl (primScanRow cities vlist vp1) acc) := by
  intro js
  induction js with
  | nil =>
    intro _ acc P h
    refine SelOk_mono ?_ h
    rintro u j (hp | ⟨_, hj⟩)
    · exact hp
    · simp at hj
  | cons j js ih =>
    intro hjs acc P h
    rw [List.foldl_cons]
    have h1 := primScanRow_ok hvp h (hjs j (by simp))
    have h2 := ih (fun j' hj' => hjs j' (by simp [hj'])) _ _ h1
    refine SelOk_mono ?_ h2
    rintro u j' (hp | ⟨rfl, hj'⟩)
    · exact Or.inl (Or.inl hp)
    · rcases List.mem_cons.mp hj' with rfl | hj'
      · exact Or.inl (Or.inr ⟨rfl, rfl⟩)
      · exact Or.inr ⟨rfl, hj'⟩

/-- Helper: the outer scan over the visited vertices preserves the
invariant. -/
theorem primSelect_fold_ok {n : Nat} {cities : Nat → Nat → Int} {vlist : List Nat} :
    ∀ (us : List Nat), (∀ u ∈ us, u ∈ vlist) →
    ∀ (acc : Nat × Edge) (P : Nat → Nat → Prop), SelOk n cities vlist P acc →
      SelOk n cities vlist (fun u j => P u j ∨ (u ∈ us ∧ j < n))
        (us.foldl (fun a vp1 => (List.range n).foldl (primScanRow cities vlist vp1) a)
          acc) := by
  intro us
  induction us with
  | nil =>
    intro _ acc P h
    refine SelOk_mono ?_ h
    rintro u j (hp | ⟨hu, _⟩)
    · exact hp
    · simp at hu
  | cons u us ih =>
    intro hsub acc P h
    rw [List.foldl_cons]
    have h1 := primScanRow_fold_ok (hsub u (by simp)) (List.range n)
      (fun j hj => List.mem_range.mp hj) acc P h
    have h2 := ih (fun v hv => hsub v (by simp [hv])) _ _ h1
    refine SelOk_mono ?_ h2
    rintro u' j (hp | ⟨hu, hj⟩)
    · exact Or.inl (Or.inl hp)
    · rcases List.mem_cons.mp hu with rfl | hu
      · exact Or.inl (Or.inr ⟨rfl, List.mem_range.mpr hj⟩)
      · exact Or.inr ⟨hu, hj⟩

/-- Helper: when a candidate exists, `primSelect` returns a minimum-weight
candidate edge (first-found among ties), consistently recorded. -/
theorem primSelect_spec (n : Nat) (cities : Nat → Nat → Int) (vlist : List Nat)
    (init : Nat × Edge) (hw : init.2.weight = INFINITE)
    (hex : ∃ u ∈ vlist, ∃ j, j < n ∧ IsCand cities vlist u j) :
    (primSelect n cities vlist init).1 = (primSelect n cities vlist init).2.city2 ∧
    (primSelect n cities vlist init).2.city1 ∈ vlist ∧
    (primSelect n cities vlist init).2.city2 < n ∧
    IsCand cities vlist (primSelect n cities vlist init).2.city1
      (primSelect n cities vlist init).2.city2 ∧
    (primSelect n cities vlist init).2.weight =
      cities (primSelect n cities vlist init).2.city1
        (primSelect n cities vlist init).2.city2 ∧
    (∀ u ∈ vlist, ∀ j, j < n → IsCand cities vlist u j →
      (primSelect n cities vlist init).2.weight ≤ cities u j) := by
  have h0 : SelOk n cities vlist (fun _ _ => False) init :=
    Or.inl ⟨hw, fun u j h => h.elim⟩
  have hfin := primSelect_fold_ok vlist (fun u hu => hu) init _ h0
  rcases hfin with ⟨_, h2⟩ | ⟨h1, h2, h3, h4, h5, h6⟩
  · obtain ⟨u, hu, j, hj, hc⟩ := hex
    exact absurd hc (h2 u j (Or.inr ⟨hu, hj⟩))
  · exact ⟨h1, h2, h3, h4, h5, fun u hu j hj hc => h6 u j (Or.inr ⟨hu, hj⟩) hc⟩

/-- Helper: a reachable city outside the visited list yields a crossing
edge from a listed to an unlisted city. -/
theorem reach_crossing {n : Nat} {adj : Nat → Nat → Prop} {a k : Nat}
    (hr : Reach n adj a k) (vlist : List Nat) (ha : a ∈ vlist) (hk : k ∉ vlist) :
    ∃ u ∈ vlist, ∃ j, j < n ∧ adj u j ∧ j ∉ vlist := by
  revert hk
  induction hr with
  | refl => intro hk; exact absurd ha hk
  | @step j k hr hk' hadj ih =>
    intro hkk
    by_cases hj : j ∈ vlist
    · exact ⟨j, hj, k, hk', hadj, hkk⟩
    · exact ih hj

/-- Helper: a duplicate-free in-range list shorter than `n` misses some
city below `n`. -/
theorem exists_unlisted {n : Nat} {vlist : List Nat} (hnd : vlist.Nodup)
    (hsub : ∀ v ∈ vlist, v < n) (hlen : vlist.length < n) :
    ∃ k, k < n ∧ k ∉ vlist := by
  by_contra h
  push_neg at h
  have hsubset : Finset.range n ⊆ vlist.toFinset := by
    intro k hk
    simp only [List.mem_toFinset]
    exact h k (Finset.mem_range.mp hk)
  have hcard := Finset.card_le_card hsubset
  rw [Finset.card_range, List.toFinset_card_of_nodup hnd] at hcard
  omega

/-- Helper: an existing mst edge survives `mstAdd`. -/
theorem mstAdd_mono {g : Nat → Nat → Bool} {a b x y : Nat} (h : g x y = true) :
    mstAdd g a b x y = true := by
  unfold mstAdd
  by_cases hc : (x = a ∧ y = b) ∨ (x = b ∧ y = a)
  · rw [if_pos hc]
  · rw [if_neg hc]
    exact h

/-- Helper: marking an undirected edge inserts its normalized pair into the
edge set. -/
theorem edgeFinset_mstAdd (n : Nat) (g : Nat → Nat → Bool) {a b : Nat}
    (ha : a < n) (hb : b < n) (hab : a ≠ b) :
    edgeFinset n (mstAdd g a b) = insert (min a b, max a b) (edgeFinset n g) := by
  ext ⟨x, y⟩
  simp only [edgeFinset, Finset.mem_filter, Finset.mem_insert, Finset.mem_product,
    Finset.mem_range, mstAdd, Prod.mk.injEq]
  constructor
  · rintro ⟨⟨hx, hy⟩, hxy, hg⟩
    by_cases hcase : (x = a ∧ y = b) ∨ (x = b ∧ y = a)
    · left
      rcases hcase with ⟨rfl, rfl⟩ | ⟨rfl, rfl⟩ <;> constructor <;> omega
    · right
      rw [if_neg hcase] at hg
      exact ⟨⟨hx, hy⟩, hxy, hg⟩
  · rintro (⟨hx, hy⟩ | ⟨⟨hx, hy⟩, hxy, hg⟩)
    · subst hx
      subst hy
      refine ⟨⟨lt_of_le_of_lt (min_le_left a b) ha, max_lt ha hb⟩,
        min_lt_max.mpr hab, ?_⟩
      rcases Nat.le_total a b with h | h
      · rw [if_pos (Or.inl ⟨Nat.min_eq_left h, Nat.max_eq_right h⟩)]
      · rw [if_pos (Or.inr ⟨Nat.min_eq_right h, Nat.max_eq_left h⟩)]
    · refine ⟨⟨hx, hy⟩, hxy, ?_⟩
      by_cases hcase : (x = a ∧ y = b) ∨ (x = b ∧ y = a)
      · rw [if_pos hcase]
      · rw [if_neg hcase]
        exact hg

/-- Helper: one Prim iteration preserves the loop invariant and grows the
visited-vertex list by one, provided the nonzero-entry graph is connected
and some city is still missing. -/
theorem primStep_inv (n : Nat) (cities : Nat → Nat → Int) (junkC junk1 junk2 : Nat)
    (hconn : ConnNZ n cities) {st : List Nat × (Nat → Nat → Bool)}
    (hinv : PrimInv n cities st) (hlen : st.1.length < n) (i : Nat) :
    PrimInv n cities (primStep n cities junkC junk1 junk2 st i) ∧
    (primStep n cities junkC junk1 junk2 st i).1.length = st.1.length + 1 := by
  obtain ⟨k, hk, hknot⟩ := exists_unlisted hinv.nodup hinv.sub hlen
  have hex : ∃ u ∈ st.1, ∃ j, j < n ∧ IsCand cities st.1 u j := by
    obtain ⟨u, hu, j, hj, hadj, hjn⟩ :=
      reach_crossing (hconn k hk) st.1 hinv.zero_mem hknot
    exact ⟨u, hu, j, hj, hadj, hjn⟩
  obtain ⟨hs1, hs2, hs3, hs4, hs5, hs6⟩ :=
    primSelect_spec n cities st.1 (junkC, ⟨junk1, junk2, INFINITE⟩) rfl hex
  set sel := primSelect n cities st.1 (junkC, ⟨junk1, junk2, INFINITE⟩) with hsel
  have hc1n : sel.2.city1 < n := hinv.sub _ hs2
  have hne : sel.2.city1 ≠ sel.2.city2 := by
    intro h
    rw [h] at hs2
    exact hs4.2 hs2
  have hstep : primStep n cities junkC junk1 junk2 st i =
      (st.1 ++ [sel.1], mstAdd st.2 sel.2.city1 sel.2.city2) := rfl
  rw [hstep]
  constructor
  · refine ⟨?_, ?_, ?_, ?_, ?_, ?_, ?_⟩
    · rw [List.nodup_append]
      refine ⟨hinv.nodup, List.nodup_singleton _, ?_⟩
      intro v hv hveq
      simp only [List.mem_singleton] at hveq
      rw [hveq, hs1] at hv
      exact hs4.2 hv
    · exact List.mem_append.mpr (Or.inl hinv.zero_mem)
    · intro v hv
      rcases List.mem_append.mp hv with hv | hv
      · exact hinv.sub v hv
      · simp only [List.mem_singleton] at hv
        rw [hv, hs1]
        exact hs3
    · intro x y
      show mstAdd st.2 sel.2.city1 sel.2.city2 x y =
        mstAdd st.2 sel.2.city1 sel.2.city2 y x
      unfold mstAdd
      by_cases hcase : (x = sel.2.city1 ∧ y = sel.2.city2) ∨
          (x = sel.2.city2 ∧ y = sel.2.city1)
      · rw [if_pos hcase, if_pos (by tauto)]
      · rw [if_neg hcase, if_neg (by tauto), hinv.symm]
    · intro x y hxy
      replace hxy : mstAdd st.2 sel.2.city1 sel.2.city2 x y = true := hxy
      unfold mstAdd at hxy
      by_cases hcase : (x = sel.2.city1 ∧ y = sel.2.city2) ∨
          (x = sel.2.city2 ∧ y = sel.2.city1)
      · rcases hcase with ⟨rfl, rfl⟩ | ⟨rfl, rfl⟩
        · exact ⟨List.mem_append.mpr (Or.inl hs2),
            List.mem_append.mpr (Or.inr (by simp [hs1])), hne, Or.inl hs4.1⟩
        · exact ⟨List.mem_append.mpr (Or.inr (by simp [hs1])),
            List.mem_append.mpr (Or.inl hs2), hne.symm, Or.inr hs4.1⟩
      · rw [if_neg hcase] at hxy
        obtain ⟨h1, h2, h3, h4⟩ := hinv.edge_mem x y hxy
        exact ⟨List.mem_append.mpr (Or.inl h1), List.mem_append.mpr (Or.inl h2),
          h3, h4⟩
    · intro v hv
      have hmono : ∀ x y, adjB st.2 x y → adjB (mstAdd st.2 sel.2.city1 sel.2.city2) x y :=
        fun x y h => mstAdd_mono h
      rcases List.mem_append.mp hv with hv | hv
      · exact reach_mono hmono (hinv.conn v hv)
      · simp only [List.mem_singleton] at hv
        rw [hv, hs1]
        refine Reach.step (reach_mono hmono (hinv.conn _ hs2)) hs3 ?_
        show mstAdd st.2 sel.2.city1 sel.2.city2 sel.2.city1 sel.2.city2 = true
        unfold mstAdd
        rw [if_pos (Or.inl ⟨rfl, rfl⟩)]
    · rw [edgeFinset_mstAdd n st.2 hc1n hs3 hne]
      have hnotmem : (min sel.2.city1 sel.2.city2, max sel.2.city1 sel.2.city2) ∉
          edgeFinset n st.2 := by
        intro hmem
        simp only [edgeFinset, Finset.mem_filter] at hmem
        obtain ⟨_, _, hg⟩ := hmem
        obtain ⟨hm1, hm2, _, _⟩ := hinv.edge_mem _ _ hg
        rcases Nat.le_total sel.2.city1 sel.2.city2 with h | h
        · rw [Nat.max_eq_right h] at hm2
          exact hs4.2 hm2
        · rw [Nat.min_eq_right h] at hm1
          exact hs4.2 hm1
      rw [Finset.card_insert_of_not_mem hnotmem]
      have := hinv.count
      simp only [List.length_append, List.length_singleton]
      omega
  · simp

/-- Helper: the Prim loop invariant carried over the whole fold. -/
theorem prim_fold_inv (n : Nat) (cities : Nat → Nat → Int)
    (junkC junk1 junk2 : Nat) (hconn : ConnNZ n cities) :
    ∀ (idxs : List Nat) (st : List Nat × (Nat → Nat → Bool)),
      PrimInv n cities st → st.1.length + idxs.length ≤ n →
      PrimInv n cities (idxs.foldl (primStep n cities junkC junk1 junk2) st) ∧
      (idxs.foldl (primStep n cities junkC junk1 junk2) st).1.length =
        st.1.length + idxs.length := by
  intro idxs
  induction idxs with
  | nil => intro st h _; exact ⟨h, by simp⟩
  | cons i is ih =>
    intro st hinv hlen
    rw [List.foldl_cons]
    simp only [List.length_cons] at hlen
    have hstep := primStep_inv n cities junkC junk1 junk2 hconn hinv (by omega) i
    have hrest := ih _ hstep.1 (by rw [hstep.2]; omega)
    refine ⟨hrest.1, ?_⟩
    rw [hrest.2, hstep.2]
    simp only [List.length_cons]
    omega

/-- Helper: the Prim loop invariant holds of the final state, the final
visited-vertex list has length `n`, and it contains every city. -/
theorem prim_final (n : Nat) (cities : Nat → Nat → Int)
    (junkC junk1 junk2 : Nat) (hn : 0 < n) (hconn : ConnNZ n cities) :
    PrimInv n cities (buildMST n cities junkC junk1 junk2) ∧
    (buildMST n cities junkC junk1 junk2).1.length = n ∧
    (∀ k, k < n → k ∈ (buildMST n cities junkC junk1 junk2).1) := by
  have hinv0 : PrimInv n cities ([0], fun _ _ => false) := by
    refine ⟨List.nodup_singleton 0, by simp, ?_, fun x y => rfl, ?_, ?_, ?_⟩
    · intro v hv
      simp only [List.mem_singleton] at hv
      rw [hv]
      exact hn
    · intro x y h
      cases h
    · intro v hv
      simp only [List.mem_singleton] at hv
      rw [hv]
      exact Reach.refl 0
    · simp [edgeFinset]
  have hfold := prim_fold_inv n cities junkC junk1 junk2 hconn
    (List.range' 1 (n - 1)) ([0], fun _ _ => false) hinv0
    (by simp [List.length_range']; omega)
  have hinv := hfold.1
  have hbm : buildMST n cities junkC junk1 junk2 =
      (List.range' 1 (n - 1)).foldl (primStep n cities junkC junk1 junk2)
        ([0], fun _ _ => false) := rfl
  rw [hbm]
  have hlenf : ((List.range' 1 (n - 1)).foldl (primStep n cities junkC junk1 junk2)
      ([0], fun _ _ => false)).1.length = n := by
    rw [hfold.2]
    simp [List.length_range']
    omega
  refine ⟨hinv, hlenf, ?_⟩
  intro k hk
  have hsubF : ((List.range' 1 (n - 1)).foldl (primStep n cities junkC junk1 junk2)
      ([0], fun _ _ => false)).1.toFinset ⊆ Finset.range n := by
    intro v hv
    simp only [List.mem_toFinset] at hv
    exact Finset.mem_range.mpr (hinv.sub v hv)
  have hcardle : (Finset.range n).card ≤
      ((List.range' 1 (n - 1)).foldl (primStep n cities junkC junk1 junk2)
        ([0], fun _ _ => false)).1.toFinset.card := by
    rw [Finset.card_range, List.toFinset_card_of_nodup hinv.nodup, hlenf]
  have heq := Finset.eq_of_subset_of_card_le hsubF hcardle
  have hkm : k ∈ ((List.range' 1 (n - 1)).foldl (primStep n cities junkC junk1 junk2)
      ([0], fun _ _ => false)).1.toFinset := by
    rw [heq]
    exact Finset.mem_range.mpr hk
  simpa using hkm

/-- C7: for every n ≥ 1 and every symmetric matrix whose nonzero entries
form a connected graph on the n cities, after the Prim loop the mst matrix
is symmetric, encodes exactly n−1 undirected edges, and is connected over
all n vertices. -/
theorem C7_prim_spanning (n : Nat) (cities : Nat → Nat → Int)
    (junkC junk1 junk2 : Nat) (hn : 0 < n)
    (hsym : ∀ i j, cities i j = cities j i) (hconn : ConnNZ n cities) :
    (∀ x y, (buildMST n cities junkC junk1 junk2).2 x y =
      (buildMST n cities junkC junk1 junk2).2 y x) ∧
    (edgeFinset n (buildMST n cities junkC junk1 junk2).2).card = n - 1 ∧
    (∀ k, k < n → Reach n (adjB (buildMST n cities junkC junk1 junk2).2) 0 k) := by
  obtain ⟨hinv, hlenf, hall⟩ := prim_final n cities junkC junk1 junk2 hn hconn
  refine ⟨hinv.symm, ?_, fun k hk => hinv.conn k (hall k hk)⟩
  have hcnt := hinv.count
  rw [hlenf] at hcnt
  omega

/-- C7 instantiated: four cities with all pairwise distances 1 (a symmetric
matrix with connected nonzero graph); the Prim loop output is a spanning
tree. -/
theorem C7_prim_spanning_witness :
    (0 < 4 ∧ (∀ i j : Nat, mat2 i j = mat2 j i) ∧ ConnNZ 4 mat2) ∧
    ((∀ x y, (buildMST 4 mat2 99 98 97).2 x y = (buildMST 4 mat2 99 98 97).2 y x) ∧
    (edgeFinset 4 (buildMST 4 mat2 99 98 97).2).card = 4 - 1 ∧
    (∀ k, k < 4 → Reach 4 (adjB (buildMST 4 mat2 99 98 97).2) 0 k)) :=
  have hsym : ∀ i j : Nat, mat2 i j = mat2 j i := by
    intro i j
    unfold mat2
    by_cases h : i = j
    · rw [if_pos h, if_pos h.symm]
    · rw [if_neg h, if_neg (fun hc => h hc.symm)]
  have hconn : ConnNZ 4 mat2 := by
    intro k hk
    interval_cases k
    · exact Reach.refl 0
    · exact Reach.step (Reach.refl 0) (by omega) (show mat2 0 1 ≠ 0 by decide)
    · exact Reach.step (Reach.refl 0) (by omega) (show mat2 0 2 ≠ 0 by decide)
    · exact Reach.step (Reach.refl 0) (by omega) (show mat2 0 3 ≠ 0 by decide)
  ⟨⟨by decide, hsym, hconn⟩, C7_prim_spanning 4 mat2 99 98 97 (by decide) hsym hconn⟩

/-- Helper: reachability stays below `n` when the start is below `n`. -/
theorem reach_endpoint_lt {n : Nat} {adj : Nat → Nat → Prop} {u w : Nat}
    (hr : Reach n adj u w) (hu : u < n) : w < n := by
  induction hr with
  | refl => exact hu
  | @step j k _ hk _ _ => exact hk

/-- Helper: reachability through a symmetric adjacency reverses when the
start city is in range. -/
theorem reach_symm {n : Nat} {adj : Nat → Nat → Prop}
    (hsym : ∀ x y, adj x y → adj y x) {u w : Nat} (hu : u < n)
    (hr : Reach n adj u w) : Reach n adj w u := by
  induction hr with
  | refl => exact Reach.refl _
  | @step j k hr' hk hadj ih =>
    have hj : j < n := reach_endpoint_lt hr' hu
    exact reach_trans (Reach.step (Reach.refl k) hj (hsym j k hadj)) ih

/-- Helper: reachability transfers when every edge is simulated by
reachability in the target adjacency. -/
theorem reach_sim {n : Nat} {adj1 adj2 : Nat → Nat → Prop}
    (hsim : ∀ x y, y < n → adj1 x y → Reach n adj2 x y) {u w : Nat}
    (hr : Reach n adj1 u w) : Reach n adj2 u w := by
  induction hr with
  | refl => exact Reach.refl _
  | @step j k _ hk hadj ih => exact reach_trans ih (hsim j k hk hadj)

/-- Helper: a walk from inside `S` to outside `S` has a last crossing edge,
after which it stays outside `S`. -/
theorem reach_last_crossing {n : Nat} {adj : Nat → Nat → Prop} {u w : Nat}
    (hr : Reach n adj u w) (S : List Nat) (hu : u ∈ S) (hw : w ∉ S) :
    ∃ a b, a ∈ S ∧ b ∉ S ∧ b < n ∧ adj a b ∧ Reach n adj u a ∧
      Reach n (fun x y => adj x y ∧ x ∉ S ∧ y ∉ S) b w := by
  revert hw
  induction hr with
  | refl => intro hw; exact absurd hu hw
  | @step j k hr' hk hadj ih =>
    intro hw
    by_cases hj : j ∈ S
    · exact ⟨j, k, hj, hw, hk, hadj, hr', Reach.refl k⟩
    · obtain ⟨a, b, ha, hb, hbn, hab, hpre, hsuf⟩ := ih hj
      exact ⟨a, b, ha, hb, hbn, hab, hpre, Reach.step hsuf hk ⟨hadj, hj, hw⟩⟩

/-- Helper: the edge set read off the final Prim mst matrix is a spanning
tree of the nonzero-entry graph. -/
theorem prim_spantree (n : Nat) (cities : Nat → Nat → Int)
    (junkC junk1 junk2 : Nat) (hn : 0 < n)
    (hsym : ∀ i j, cities i j = cities j i) (hconn : ConnNZ n cities) :
    IsSpanTree n cities (edgeFinset n (buildMST n cities junkC junk1 junk2).2) := by
  obtain ⟨hinv, hlenf, hall⟩ := prim_final n cities junkC junk1 junk2 hn hconn
  refine ⟨?_, ?_, ?_⟩
  · intro p hp
    simp only [edgeFinset, Finset.mem_filter, Finset.mem_product, Finset.mem_range] at hp
    obtain ⟨⟨h1, h2⟩, h3, h4⟩ := hp
    obtain ⟨_, _, _, h5⟩ := hinv.edge_mem p.1 p.2 h4
    refine ⟨h3, h2, ?_⟩
    rcases h5 with h | h
    · exact h
    · rw [hsym]
      exact h
  · intro k hk
    refine reach_mono ?_ (hinv.conn k (hall k hk))
    intro x y hxy
    obtain ⟨hx1, hy1, hne, _⟩ := hinv.edge_mem x y hxy
    have hxn : x < n := hinv.sub x hx1
    have hyn : y < n := hinv.sub y hy1
    rcases Nat.lt_or_ge x y with h | h
    · left
      simp only [edgeFinset, Finset.mem_filter, Finset.mem_product, Finset.mem_range]
      exact ⟨⟨hxn, hyn⟩, h, hxy⟩
    · right
      have hyx : y < x := lt_of_le_of_ne h (fun hc => hne hc.symm)
      simp only [edgeFinset, Finset.mem_filter, Finset.mem_product, Finset.mem_range]
      refine ⟨⟨hyn, hxn⟩, hyx, ?_⟩
      rw [← hinv.symm]
      exact hxy
  · have hcnt := hinv.count
    rw [hlenf] at hcnt
    omega

/-- Helper: edge-set adjacency is symmetric. -/
theorem adjE_symm {E : Finset (Nat × Nat)} {x y : Nat} (h : adjE E x y) :
    adjE E y x := by
  rcases h with h | h
  · exact Or.inr h
  · exact Or.inl h

/-- Helper: the exchange step of the minimality argument: if some minimum
spanning tree contains all edges marked so far, then after one more Prim
iteration some minimum spanning tree contains all marked edges. -/
theorem prim_exchange_step (n : Nat) (cities : Nat → Nat → Int)
    (junkC junk1 junk2 : Nat) (hn : 0 < n)
    (hsym : ∀ i j, cities i j = cities j i) (hconn : ConnNZ n cities)
    {st : List Nat × (Nat → Nat → Bool)} (hinv : PrimInv n cities st)
    (hlen : st.1.length < n) {M : Finset (Nat × Nat)}
    (hM : IsSpanTree n cities M)
    (hMmin : ∀ E, IsSpanTree n cities E → edgeWeight cities M ≤ edgeWeight cities E)
    (hsub : edgeFinset n st.2 ⊆ M) (i : Nat) :
    ∃ M2, IsSpanTree n cities M2 ∧
      (∀ E, IsSpanTree n cities E → edgeWeight cities M2 ≤ edgeWeight cities E) ∧
      edgeFinset n (primStep n cities junkC junk1 junk2 st i).2 ⊆ M2 := by
  obtain ⟨k0, hk0, hk0not⟩ := exists_unlisted hinv.nodup hinv.sub hlen
  have hex : ∃ u ∈ st.1, ∃ j, j < n ∧ IsCand cities st.1 u j := by
    obtain ⟨u, hu, j, hj, hadj, hjn⟩ :=
      reach_crossing (hconn k0 hk0) st.1 hinv.zero_mem hk0not
    exact ⟨u, hu, j, hj, hadj, hjn⟩
  obtain ⟨hs1, hs2, hs3, hs4, hs5, hs6⟩ :=
    primSelect_spec n cities st.1 (junkC, ⟨junk1, junk2, INFINITE⟩) rfl hex
  set sel := primSelect n cities st.1 (junkC, ⟨junk1, junk2, INFINITE⟩) with hsel
  have hc1n : sel.2.city1 < n := hinv.sub _ hs2
  have hne : sel.2.city1 ≠ sel.2.city2 := fun h => hs4.2 (h ▸ hs2)
  have hwp : cities (min sel.2.city1 sel.2.city2) (max sel.2.city1 sel.2.city2) =
      cities sel.2.city1 sel.2.city2 := by
    rcases Nat.le_total sel.2.city1 sel.2.city2 with h | h
    · rw [Nat.min_eq_left h, Nat.max_eq_right h]
    · rw [Nat.min_eq_right h, Nat.max_eq_left h]
      exact hsym _ _
  have hedge : edgeFinset n (primStep n cities junkC junk1 junk2 st i).2 =
      insert (min sel.2.city1 sel.2.city2, max sel.2.city1 sel.2.city2)
        (edgeFinset n st.2) := by
    show edgeFinset n (mstAdd st.2 sel.2.city1 sel.2.city2) = _
    exact edgeFinset_mstAdd n st.2 hc1n hs3 hne
  rw [hedge]
  set p : Nat × Nat := (min sel.2.city1 sel.2.city2, max sel.2.city1 sel.2.city2)
    with hpdef
  by_cases hpM : p ∈ M
  · exact ⟨M, hM, hMmin, Finset.insert_subset hpM hsub⟩
  · obtain ⟨hMp, hMconn, hMcard⟩ := hM
    have hr1 : Reach n (adjE M) 0 sel.2.city1 := hMconn _ hc1n
    have hr2 : Reach n (adjE M) 0 sel.2.city2 := hMconn _ hs3
    have hrc : Reach n (adjE M) sel.2.city1 sel.2.city2 :=
      reach_trans (reach_symm (fun _ _ h => adjE_symm h) hn hr1) hr2
    obtain ⟨a, b, ha, hb, hbn, hab, hpre, hsuf⟩ :=
      reach_last_crossing hrc st.1 hs2 hs4.2
    obtain ⟨f, hfM, hfends⟩ :
        ∃ f, f ∈ M ∧ ((f.1 = a ∧ f.2 = b) ∨ (f.1 = b ∧ f.2 = a)) := by
      rcases hab with h | h
      · exact ⟨(a, b), h, Or.inl ⟨rfl, rfl⟩⟩
      · exact ⟨(b, a), h, Or.inr ⟨rfl, rfl⟩⟩
    have hwf : cities f.1 f.2 = cities a b := by
      rcases hfends with ⟨h1, h2⟩ | ⟨h1, h2⟩
      · rw [h1, h2]
      · rw [h1, h2]
        exact hsym b a
    have hanb : cities a b ≠ 0 := by
      have h := (hMp f hfM).2.2
      rwa [hwf] at h
    have hle : cities p.1 p.2 ≤ cities f.1 f.2 := by
      show cities (min sel.2.city1 sel.2.city2) (max sel.2.city1 sel.2.city2) ≤ _
      rw [hwp, hwf, ← hs5]
      exact hs6 a ha b hbn ⟨hanb, hb⟩
    have hfnp : f ≠ p := fun h => hpM (h ▸ hfM)
    have hpnotin : p ∉ M.erase f := fun h => hpM (Finset.mem_of_mem_erase h)
    have hfnotst : f ∉ edgeFinset n st.2 := by
      intro hmem
      simp only [edgeFinset, Finset.mem_filter, Finset.mem_product,
        Finset.mem_range] at hmem
      obtain ⟨m1, m2, _, _⟩ := hinv.edge_mem f.1 f.2 hmem.2.2
      rcases hfends with ⟨_, h2⟩ | ⟨h1, _⟩
      · exact hb (h2 ▸ m2)
      · exact hb (h1 ▸ m1)
    have hsub' : edgeFinset n st.2 ⊆ M.erase f := by
      intro q hq
      exact Finset.mem_erase.mpr ⟨fun h => hfnotst (h ▸ hq), hsub hq⟩
    set M2 : Finset (Nat × Nat) := insert p (M.erase f) with hM2def
    have hstM2 : ∀ x y, adjB st.2 x y → adjE M2 x y := by
      intro x y hxy
      obtain ⟨hx1, hy1, hxny, _⟩ := hinv.edge_mem x y hxy
      rcases Nat.lt_or_ge x y with h | h
      · refine Or.inl (Finset.mem_insert_of_mem (hsub' ?_))
        simp only [edgeFinset, Finset.mem_filter, Finset.mem_product, Finset.mem_range]
        exact ⟨⟨hinv.sub x hx1, hinv.sub y hy1⟩, h, hxy⟩
      · refine Or.inr (Finset.mem_insert_of_mem (hsub' ?_))
        simp only [edgeFinset, Finset.mem_filter, Finset.mem_product, Finset.mem_range]
        refine ⟨⟨hinv.sub y hy1, hinv.sub x hx1⟩,
          lt_of_le_of_ne h (fun hc => hxny hc.symm), ?_⟩
        rw [← hinv.symm]
        exact hxy
    have hpc : adjE M2 sel.2.city1 sel.2.city2 := by
      rcases Nat.le_total sel.2.city1 sel.2.city2 with h | h
      · have hp1 : p = (sel.2.city1, sel.2.city2) := by
          rw [hpdef, Nat.min_eq_left h, Nat.max_eq_right h]
        exact Or.inl (hp1 ▸ Finset.mem_insert_self p (M.erase f))
      · have hp1 : p = (sel.2.city2, sel.2.city1) := by
          rw [hpdef, Nat.min_eq_right h, Nat.max_eq_left h]
        exact Or.inr (hp1 ▸ Finset.mem_insert_self p (M.erase f))
    have hadjb : ∀ x y, adjB st.2 x y → adjB st.2 y x := by
      intro x y h
      show st.2 y x = true
      rw [← hinv.symm]
      exact h
    have hbr1 : Reach n (adjE M2) a sel.2.city1 := by
      have r1 := hinv.conn a ha
      have r2 := hinv.conn _ hs2
      exact reach_mono hstM2 (reach_trans (reach_symm hadjb hn r1) r2)
    have hbr3 : Reach n (adjE M2) sel.2.city2 b := by
      have hmono2 : ∀ x y, (adjE M x y ∧ x ∉ st.1 ∧ y ∉ st.1) → adjE M2 x y := by
        rintro x y ⟨hxy, hxS, hyS⟩
        have hnotf : ∀ q : Nat × Nat, q.1 = x ∧ q.2 = y ∨ q.1 = y ∧ q.2 = x →
            q ≠ f := by
          intro q hq hqf
          have hfx : f.1 = x ∨ f.1 = y := by
            rcases hq with ⟨hq1, _⟩ | ⟨hq1, _⟩
            · exact Or.inl (by rw [← hqf]; exact hq1)
            · exact Or.inr (by rw [← hqf]; exact hq1)
          have hfy : f.2 = x ∨ f.2 = y := by
            rcases hq with ⟨_, hq2⟩ | ⟨_, hq2⟩
            · exact Or.inr (by rw [← hqf]; exact hq2)
            · exact Or.inl (by rw [← hqf]; exact hq2)
          rcases hfends with ⟨h1, _⟩ | ⟨_, h2⟩
          · rcases hfx with h | h
            · rw [h1] at h
              exact hxS (h ▸ ha)
            · rw [h1] at h
              exact hyS (h ▸ ha)
          · rcases hfy with h | h
            · rw [h2] at h
              exact hxS (h ▸ ha)
            · rw [h2] at h
              exact hyS (h ▸ ha)
        rcases hxy with h | h
        · exact Or.inl (Finset.mem_insert_of_mem (Finset.mem_erase.mpr
            ⟨hnotf (x, y) (Or.inl ⟨rfl, rfl⟩), h⟩))
        · exact Or.inr (Finset.mem_insert_of_mem (Finset.mem_erase.mpr
            ⟨hnotf (y, x) (Or.inr ⟨rfl, rfl⟩), h⟩))
      exact reach_symm (fun _ _ h => adjE_symm h) hbn (reach_mono hmono2 hsuf)
    have hbridge : Reach n (adjE M2) a b :=
      reach_trans (reach_trans hbr1 (Reach.step (Reach.refl _) hs3 hpc)) hbr3
    have hconnM2 : ∀ k, k < n → Reach n (adjE M2) 0 k := by
      intro k hk
      refine reach_sim ?_ (hMconn k hk)
      intro x y hyn hxy
      by_cases hq : (x, y) = f ∨ (y, x) = f
      · have hxyab : (x = a ∧ y = b) ∨ (x = b ∧ y = a) := by
          rcases hq with hq | hq <;> rcases hfends with ⟨h1, h2⟩ | ⟨h1, h2⟩
          · exact Or.inl ⟨by rw [← h1, ← hq], by rw [← h2, ← hq]⟩
          · exact Or.inr ⟨by rw [← h1, ← hq], by rw [← h2, ← hq]⟩
          · exact Or.inr ⟨by rw [← h2, ← hq], by rw [← h1, ← hq]⟩
          · exact Or.inl ⟨by rw [← h2, ← hq], by rw [← h1, ← hq]⟩
        rcases hxyab with ⟨hx, hy⟩ | ⟨hx, hy⟩
        · rw [hx, hy]
          exact hbridge
        · rw [hx, hy]
          exact reach_symm (fun _ _ h => adjE_symm h) (hinv.sub a ha) hbridge
      · push_neg at hq
        rcases hxy with h | h
        · exact Reach.step (Reach.refl x) hyn
            (Or.inl (Finset.mem_insert_of_mem (Finset.mem_erase.mpr ⟨hq.1, h⟩)))
        · exact Reach.step (Reach.refl x) hyn
            (Or.inr (Finset.mem_insert_of_mem (Finset.mem_erase.mpr ⟨hq.2, h⟩)))
    have hcard2 : M2.card = n - 1 := by
      have hcpos : 0 < M.card := Finset.card_pos.mpr ⟨f, hfM⟩
      rw [hM2def, Finset.card_insert_of_not_mem hpnotin,
        Finset.card_erase_of_mem hfM, hMcard]
      omega
    have hw2 : edgeWeight cities M2 ≤ edgeWeight cities M := by
      have h1 : edgeWeight cities M2 =
          cities p.1 p.2 + edgeWeight cities (M.erase f) := by
        show ∑ q ∈ insert p (M.erase f), cities q.1 q.2 = _
        rw [Finset.sum_insert hpnotin]
        rfl
      have h2 : edgeWeight cities (M.erase f) + cities f.1 f.2 =
          edgeWeight cities M := Finset.sum_erase_add M _ hfM
      have hle2 := hle
      linarith
    have hsp2 : IsSpanTree n cities M2 := by
      refine ⟨?_, hconnM2, hcard2⟩
      intro q hq
      rcases Finset.mem_insert.mp hq with rfl | hq
      · refine ⟨min_lt_max.mpr hne, max_lt hc1n hs3, ?_⟩
        show cities (min sel.2.city1 sel.2.city2) (max sel.2.city1 sel.2.city2) ≠ 0
        rw [hwp]
        exact hs4.1
      · exact hMp q (Finset.mem_of_mem_erase hq)
    refine ⟨M2, hsp2, fun E hE => le_trans hw2 (hMmin E hE), ?_⟩
    intro q hq
    rcases Finset.mem_insert.mp hq with rfl | hq
    · exact Finset.mem_insert_self _ _
    · exact Finset.mem_insert_of_mem (hsub' hq)

/-- Helper: folding the Prim step over any index list preserves containment
of the marked edges in some minimum spanning tree. -/
theorem prim_fold_exchange (n : Nat) (cities : Nat → Nat → Int)
    (junkC junk1 junk2 : Nat) (hn : 0 < n)
    (hsym : ∀ i j, cities i j = cities j i) (hconn : ConnNZ n cities) :
    ∀ (idxs : List Nat) (st : List Nat × (Nat → Nat → Bool)),
      PrimInv n cities st → st.1.length + idxs.length ≤ n →
      (∃ M, IsSpanTree n cities M ∧
        (∀ E, IsSpanTree n cities E →
          edgeWeight cities M ≤ edgeWeight cities E) ∧
        edgeFinset n st.2 ⊆ M) →
      ∃ M, IsSpanTree n cities M ∧
        (∀ E, IsSpanTree n cities E →
          edgeWeight cities M ≤ edgeWeight cities E) ∧
        edgeFinset n
          (idxs.foldl (primStep n cities junkC junk1 junk2) st).2 ⊆ M := by
  intro idxs
  induction idxs with
  | nil =>
    intro st _ _ h
    simpa using h
  | cons i is ih =>
    intro st hinv hlen hex
    obtain ⟨M, hM, hMmin, hsub⟩ := hex
    rw [List.foldl_cons]
    have hlt : st.1.length < n := by
      simp only [List.length_cons] at hlen
      omega
    have hstep := primStep_inv n cities junkC junk1 junk2 hconn hinv hlt i
    obtain ⟨M2, hM2, hM2min, hsub2⟩ :=
      prim_exchange_step n cities junkC junk1 junk2 hn hsym hconn hinv hlt
        hM hMmin hsub i
    refine ih _ hstep.1 ?_ ⟨M2, hM2, hM2min, hsub2⟩
    rw [hstep.2]
    simp only [List.length_cons] at hlen
    omega

/-- Helper: a minimum spanning tree exists whenever the nonzero-entry
graph is connected (Prim's own output is a spanning tree, and the set of
spanning trees is finite). -/
theorem mst_exists (n : Nat) (cities : Nat → Nat → Int) (hn : 0 < n)
    (hsym : ∀ i j, cities i j = cities j i) (hconn : ConnNZ n cities) :
    ∃ M, IsSpanTree n cities M ∧
      ∀ E, IsSpanTree n cities E →
        edgeWeight cities M ≤ edgeWeight cities E := by
  classical
  have hprim := prim_spantree n cities 0 0 0 hn hsym hconn
  set T := (Finset.range n ×ˢ Finset.range n).powerset.filter
    (fun E => IsSpanTree n cities E) with hT
  have hmemT : ∀ E, IsSpanTree n cities E → E ∈ T := by
    intro E hE
    rw [hT, Finset.mem_filter, Finset.mem_powerset]
    refine ⟨?_, hE⟩
    intro q hq
    obtain ⟨h1, h2, _⟩ := hE.1 q hq
    exact Finset.mem_product.mpr
      ⟨Finset.mem_range.mpr (lt_trans h1 h2), Finset.mem_range.mpr h2⟩
  have hTne : T.Nonempty := ⟨_, hmemT _ hprim⟩
  obtain ⟨M, hMT, hMmin⟩ :=
    Finset.exists_min_image T (fun E => edgeWeight cities E) hTne
  exact ⟨M, (Finset.mem_filter.mp hMT).2, fun E hE => hMmin E (hmemT E hE)⟩

/-- C4: for every n ≥ 1 and every symmetric matrix whose nonzero entries
form a connected graph on the n cities (zero meaning absent edge), the
edges marked in the Prim loop's mst matrix form a spanning tree of all n
vertices whose total edge weight is minimal among all spanning trees of
that graph. -/
theorem C4_prim_minimal (n : Nat) (cities : Nat → Nat → Int)
    (junkC junk1 junk2 : Nat) (hn : 0 < n)
    (hsym : ∀ i j, cities i j = cities j i) (hconn : ConnNZ n cities) :
    IsSpanTree n cities
      (edgeFinset n (buildMST n cities junkC junk1 junk2).2) ∧
    ∀ E, IsSpanTree n cities E →
      edgeWeight cities (edgeFinset n (buildMST n cities junkC junk1 junk2).2)
        ≤ edgeWeight cities E := by
  have hsp := prim_spantree n cities junkC junk1 junk2 hn hsym hconn
  refine ⟨hsp, ?_⟩
  have hinv0 : PrimInv n cities ([0], fun _ _ => false) := by
    refine ⟨List.nodup_singleton 0, by simp, ?_, fun x y => rfl, ?_, ?_, ?_⟩
    · intro v hv
      simp only [List.mem_singleton] at hv
      rw [hv]
      exact hn
    · intro x y h
      cases h
    · intro v hv
      simp only [List.mem_singleton] at hv
      rw [hv]
      exact Reach.refl 0
    · simp [edgeFinset]
  obtain ⟨M0, hM0, hM0min⟩ := mst_exists n cities hn hsym hconn
  have hsub0 : edgeFinset n (([0], fun _ _ => false) :
      List Nat × (Nat → Nat → Bool)).2 ⊆ M0 := by
    intro q hq
    simp [edgeFinset] at hq
  obtain ⟨M, hM, hMmin, hsubM⟩ :=
    prim_fold_exchange n cities junkC junk1 junk2 hn hsym hconn
      (List.range' 1 (n - 1)) ([0], fun _ _ => false) hinv0
      (by simp [List.length_range']; omega) ⟨M0, hM0, hM0min, hsub0⟩
  have hsubM' : edgeFinset n (buildMST n cities junkC junk1 junk2).2 ⊆ M :=
    hsubM
  have hcards : M.card ≤
      (edgeFinset n (buildMST n cities junkC junk1 junk2).2).card := by
    rw [hM.2.2, hsp.2.2]
  have heq := Finset.eq_of_subset_of_card_le hsubM' hcards
  rw [heq]
  exact hMmin

/-- C4 instantiated: four cities with all pairwise distances 1; the Prim
loop output's edge set is a spanning tree of minimal total weight. -/
theorem C4_prim_minimal_witness :
    (0 < 4 ∧ (∀ i j : Nat, mat2 i j = mat2 j i) ∧ ConnNZ 4 mat2) ∧
    (IsSpanTree 4 mat2 (edgeFinset 4 (buildMST 4 mat2 99 98 97).2) ∧
    ∀ E, IsSpanTree 4 mat2 E →
      edgeWeight mat2 (edgeFinset 4 (buildMST 4 mat2 99 98 97).2)
        ≤ edgeWeight mat2 E) :=
  have hsym : ∀ i j : Nat, mat2 i j = mat2 j i := by
    intro i j
    unfold mat2
    by_cases h : i = j
    · rw [if_pos h, if_pos h.symm]
    · rw [if_neg h, if_neg (fun hc => h hc.symm)]
  have hconn : ConnNZ 4 mat2 := by
    intro k hk
    interval_cases k
    · exact Reach.refl 0
    · exact Reach.step (Reach.refl 0) (by omega) (show mat2 0 1 ≠ 0 by decide)
    · exact Reach.step (Reach.refl 0) (by omega) (show mat2 0 2 ≠ 0 by decide)
    · exact Reach.step (Reach.refl 0) (by omega) (show mat2 0 3 ≠ 0 by decide)
  ⟨⟨by decide, hsym, hconn⟩, C4_prim_minimal 4 mat2 99 98 97 (by decide) hsym hconn⟩

/-- C8 amended, instantiated: on the spec's 4-city scenario matrix all
enumerated permutation costs are positive, and the theorem applies. -/
theorem C8_amended_stable_min_witness :
    (enumPerms 4 9 ≠ [] ∧ ∀ l ∈ enumPerms 4 9, 0 < tourCost 4 mat4 l) ∧
    ∃ pre lmin post,
      enumPerms 4 9 = pre ++ lmin :: post ∧
      (∀ l ∈ pre, tourCost 4 mat4 lmin < tourCost 4 mat4 l) ∧
      (∀ l ∈ enumPerms 4 9, tourCost 4 mat4 lmin ≤ tourCost 4 mat4 l) ∧
      (getOptimalTour 4 mat4 7 9).cost = tourCost 4 mat4 lmin ∧
      (getOptimalTour 4 mat4 7 9).tour = lmin ++ [lmin.getD 0 7] :=
  ⟨⟨by decide, by decide⟩, C8_amended_stable_min 4 mat4 7 9 (by decide) (by decide)⟩

/-- C8 counterexample: on the all-zero 4×4 matrix all three enumerated
permutations tie at cost 0, the first enumerated being `[0, 1, 2, 3]`; but
because the stored cost 0 equals the INFINITE sentinel, every tied
permutation replaces the stored best and the returned tour is the last one,
`[0, 3, 1, 2, 0]` — refuting "among permutations of equal minimal cost, the
first one enumerated is the one returned". -/
theorem C8_zero_cost_tie_counterexample :
    enumPerms 4 99 = [[0, 1, 2, 3], [0, 1, 3, 2], [0, 3, 1, 2]] ∧
    (∀ l ∈ enumPerms 4 99, tourCost 4 (fun _ _ => 0) l = 0) ∧
    (getOptimalTour 4 (fun _ _ => 0) 99 99).tour = [0, 3, 1, 2, 0] ∧
    (getOptimalTour 4 (fun _ _ => 0) 99 99).tour ≠ [0, 1, 2, 3, 0] := by
  decide

/-- Helper: a nontrivial reachability chain has a first step. -/
theorem reach_first_step {n : Nat} {adj : Nat → Nat → Prop} {a b : Nat}
    (hr : Reach n adj a b) (hne : a ≠ b) :
    ∃ c, c < n ∧ adj a c ∧ Reach n adj c b := by
  induction hr with
  | refl => exact absurd rfl hne
  | @step j k hr' hk hadj ih =>
    by_cases haj : a = j
    · exact ⟨k, hk, haj ▸ hadj, Reach.refl k⟩
    · obtain ⟨c, hc, hac, hcj⟩ := ih haj
      exact ⟨c, hc, hac, Reach.step hcj hk hadj⟩

/-- Helper: the BFS layers stay within range, given a positive `n`. -/
theorem ball_subset_range (n : Nat) (g : Nat → Nat → Bool) (hn : 0 < n) :
    ∀ t, ball n g t ⊆ Finset.range n
  | 0 => by
    intro x hx
    have hx' : x ∈ ({0} : Finset Nat) := hx
    simp only [Finset.mem_singleton] at hx'
    simpa [hx'] using hn
  | t + 1 => by
    intro x hx
    have hx' : x ∈ ball n g t ∪
        (Finset.range n).filter (fun w => ∃ u ∈ ball n g t, g u w = true) := hx
    rcases Finset.mem_union.mp hx' with h | h
    · exact ball_subset_range n g hn t h
    · exact (Finset.mem_filter.mp h).1

/-- Helper: every city reachable from city 0 lies in some BFS layer. -/
theorem reach_mem_ball {n : Nat} {g : Nat → Nat → Bool} {k : Nat}
    (hr : Reach n (adjB g) 0 k) : ∃ t, k ∈ ball n g t := by
  induction hr with
  | refl => exact ⟨0, by simp [ball]⟩
  | @step j k2 hr' hk hadj ih =>
    obtain ⟨t, ht⟩ := ih
    refine ⟨t + 1, ?_⟩
    have hmem : k2 ∈ (Finset.range n).filter
        (fun w => ∃ u ∈ ball n g t, g u w = true) := by
      simp only [Finset.mem_filter, Finset.mem_range]
      exact ⟨hk, j, ht, hadj⟩
    exact Finset.mem_union_right _ hmem

/-- Helper: a graph connecting all `n` cities has at least `n - 1` edges
(each nonzero BFS depth yields an edge towards a strictly shallower city,
injectively). -/
theorem min_edges (n : Nat) (g : Nat → Nat → Bool) (hn : 0 < n)
    (hsym : ∀ x, x < n → ∀ y, y < n → g x y = g y x)
    (hirr : ∀ x, x < n → g x x = false)
    (hconn : ∀ k, k < n → Reach n (adjB g) 0 k) :
    n - 1 ≤ (edgeFinset n g).card := by
  classical
  set d : Nat → Nat := fun k =>
    if h : ∃ t, k ∈ ball n g t then Nat.find h else 0 with hd
  have hball : ∀ k, (∃ t, k ∈ ball n g t) → k ∈ ball n g (d k) := by
    intro k hk
    rw [hd]
    simp only
    rw [dif_pos hk]
    exact Nat.find_spec hk
  have hdle : ∀ k t, k ∈ ball n g t → d k ≤ t := by
    intro k t ht
    rw [hd]
    simp only
    rw [dif_pos ⟨t, ht⟩]
    exact Nat.find_le ht
  have hpredE : ∀ k, ∃ u, (k < n ∧ k ≠ 0) → (u < n ∧ g u k = true ∧ d u < d k) := by
    intro k
    by_cases hk : k < n ∧ k ≠ 0
    · obtain ⟨hkn, hk0⟩ := hk
      have hex : ∃ t, k ∈ ball n g t := reach_mem_ball (hconn k hkn)
      have hmem := hball k hex
      have hdpos : 0 < d k := by
        rcases Nat.eq_zero_or_pos (d k) with h0 | h0
        · rw [h0] at hmem
          have hmem' : k ∈ ({0} : Finset Nat) := hmem
          simp only [Finset.mem_singleton] at hmem'
          exact absurd hmem' hk0
        · exact h0
      obtain ⟨t, ht⟩ : ∃ t, d k = t + 1 := ⟨d k - 1, by omega⟩
      rw [ht] at hmem
      have hmem' : k ∈ ball n g t ∪
          (Finset.range n).filter (fun w => ∃ u ∈ ball n g t, g u w = true) := hmem
      have hnot : k ∉ ball n g t := by
        intro hc
        have := hdle k t hc
        omega
      have hmem2 : k ∈ (Finset.range n).filter
          (fun w => ∃ u ∈ ball n g t, g u w = true) := by
        rcases Finset.mem_union.mp hmem' with h | h
        · exact absurd h hnot
        · exact h
      obtain ⟨u, hu, hguk⟩ := (Finset.mem_filter.mp hmem2).2
      have hun : u < n := Finset.mem_range.mp (ball_subset_range n g hn t hu)
      refine ⟨u, fun _ => ⟨hun, hguk, ?_⟩⟩
      have := hdle u t hu
      omega
    · exact ⟨0, fun hc => absurd hc hk⟩
  choose pr hpr using hpredE
  have hprne : ∀ k, k < n → k ≠ 0 → pr k ≠ k := by
    intro k hkn hk0 hc
    obtain ⟨hun, hguk, _⟩ := hpr k ⟨hkn, hk0⟩
    rw [hc] at hguk
    rw [hirr k hkn] at hguk
    cases hguk
  have hmaps : ∀ k ∈ (Finset.range n).erase 0,
      (min (pr k) k, max (pr k) k) ∈ edgeFinset n g := by
    intro k hk
    obtain ⟨hk0, hkr⟩ := Finset.mem_erase.mp hk
    have hkn := Finset.mem_range.mp hkr
    obtain ⟨hun, hguk, _⟩ := hpr k ⟨hkn, hk0⟩
    have hne := hprne k hkn hk0
    simp only [edgeFinset, Finset.mem_filter, Finset.mem_product, Finset.mem_range]
    refine ⟨⟨lt_of_le_of_lt (min_le_left _ _) hun, max_lt hun hkn⟩,
      min_lt_max.mpr hne, ?_⟩
    rcases le_or_lt (pr k) k with h | h
    · rw [Nat.min_eq_left h, Nat.max_eq_right h]
      exact hguk
    · rw [Nat.min_eq_right (le_of_lt h), Nat.max_eq_left (le_of_lt h)]
      rw [hsym k hkn (pr k) hun]
      exact hguk
  have hinj : Set.InjOn (fun k => (min (pr k) k, max (pr k) k))
      ((Finset.range n).erase 0) := by
    intro k1 h1 k2 h2 heq
    by_contra hne12
    obtain ⟨hk10, hk1r⟩ := Finset.mem_erase.mp h1
    obtain ⟨hk20, hk2r⟩ := Finset.mem_erase.mp h2
    have hk1n := Finset.mem_range.mp hk1r
    have hk2n := Finset.mem_range.mp hk2r
    obtain ⟨_, _, hd1⟩ := hpr k1 ⟨hk1n, hk10⟩
    obtain ⟨_, _, hd2⟩ := hpr k2 ⟨hk2n, hk20⟩
    have hne1 := hprne k1 hk1n hk10
    have hne2 := hprne k2 hk2n hk20
    have hm : min (pr k1) k1 = min (pr k2) k2 := congrArg Prod.fst heq
    have hM : max (pr k1) k1 = max (pr k2) k2 := congrArg Prod.snd heq
    have hswap : pr k1 = k2 ∧ pr k2 = k1 := by
      constructor <;> omega
    rw [hswap.1] at hd1
    rw [hswap.2] at hd2
    omega
  have hcard := Finset.card_le_card_of_injOn _ hmaps hinj
  have herase : ((Finset.range n).erase 0).card = n - 1 := by
    rw [Finset.card_erase_of_mem (Finset.mem_range.mpr hn), Finset.card_range]
  rw [herase] at hcard
  exact hcard

/-- Helper: in a graph that connects all `n` cities with exactly `n - 1`
edges (a tree), two distinct neighbours of a vertex `v` are never joined by
a path avoiding `v` — otherwise dropping the edge `v`–`c1` would leave a
connected graph with `n - 2` edges. -/
theorem tree_acy (n : Nat) (g : Nat → Nat → Bool)
    (hsym : ∀ x, x < n → ∀ y, y < n → g x y = g y x)
    (hirr : ∀ x, x < n → g x x = false)
    (hconn : ∀ k, k < n → Reach n (adjB g) 0 k)
    (hcard : (edgeFinset n g).card = n - 1) :
    ∀ v c1 c2, v < n → c1 < n → c2 < n → g v c1 = true → g v c2 = true →
      c1 ≠ c2 → ¬ Reach n (AvoidAdj n g v) c1 c2 := by
  intro v c1 c2 hv hc1 hc2 hgc1 hgc2 hcc hpath
  have hvne1 : v ≠ c1 := by
    intro hc
    rw [hc] at hgc1
    rw [hirr c1 hc1] at hgc1
    cases hgc1
  have hvne2 : v ≠ c2 := by
    intro hc
    rw [hc] at hgc2
    rw [hirr c2 hc2] at hgc2
    cases hgc2
  have hn : 0 < n := by omega
  have hn3 : 3 ≤ n := by omega
  set g2 : Nat → Nat → Bool := fun x y =>
    if (x = v ∧ y = c1) ∨ (x = c1 ∧ y = v) then false else g x y with hg2def
  have hAsymm : ∀ x y, AvoidAdj n g v x y → AvoidAdj n g v y x := by
    rintro x y ⟨hxy, hx, hy, hxn, hyn⟩
    refine ⟨?_, hy, hx, hyn, hxn⟩
    rw [hsym y hyn x hxn]
    exact hxy
  have hpath2 : Reach n (AvoidAdj n g v) c2 c1 := reach_symm hAsymm hc1 hpath
  have hg2avoid : ∀ x y, AvoidAdj n g v x y → g2 x y = true := by
    rintro x y ⟨hxy, hx, hy, _, _⟩
    show (if (x = v ∧ y = c1) ∨ (x = c1 ∧ y = v) then false else g x y) = true
    rw [if_neg]
    · exact hxy
    · rintro (⟨h1, _⟩ | ⟨_, h2⟩)
      · exact hx h1
      · exact hy h2
  have hsim : ∀ k, Reach n (adjB g) 0 k → Reach n (adjB g2) 0 k := by
    intro k h
    induction h with
    | refl => exact Reach.refl 0
    | @step j k2 hr hk2 hadj ih =>
      by_cases hfor : (j = v ∧ k2 = c1) ∨ (j = c1 ∧ k2 = v)
      · rcases hfor with ⟨hjv, hkc⟩ | ⟨hjc, hkv⟩
        · refine reach_trans ih ?_
          rw [hjv, hkc]
          have hstep1 : Reach n (adjB g2) v c2 := by
            refine Reach.step (Reach.refl v) hc2 ?_
            show g2 v c2 = true
            show (if (v = v ∧ c2 = c1) ∨ (v = c1 ∧ c2 = v) then false
              else g v c2) = true
            rw [if_neg]
            · exact hgc2
            · rintro (⟨_, h2⟩ | ⟨h1, _⟩)
              · exact hcc h2.symm
              · exact hvne1 h1
          have hstep2 : Reach n (adjB g2) c2 c1 :=
            reach_mono (fun x y hxy => hg2avoid x y hxy) hpath2
          exact reach_trans hstep1 hstep2
        · refine reach_trans ih ?_
          rw [hjc, hkv]
          have hstep1 : Reach n (adjB g2) c1 c2 :=
            reach_mono (fun x y hxy => hg2avoid x y hxy) hpath
          have hstep2 : Reach n (adjB g2) c2 v := by
            refine Reach.step (Reach.refl c2) hv ?_
            show g2 c2 v = true
            show (if (c2 = v ∧ v = c1) ∨ (c2 = c1 ∧ v = v) then false
              else g c2 v) = true
            rw [if_neg]
            · rw [hsym c2 hc2 v hv]
              exact hgc2
            · rintro (⟨h1, _⟩ | ⟨h1, _⟩)
              · exact hvne2 h1.symm
              · exact hcc h1.symm
          exact reach_trans hstep1 hstep2
      · refine Reach.step ih hk2 ?_
        show g2 j k2 = true
        show (if (j = v ∧ k2 = c1) ∨ (j = c1 ∧ k2 = v) then false
          else g j k2) = true
        rw [if_neg hfor]
        exact hadj
  have hedge2 : edgeFinset n g2 = (edgeFinset n g).erase (min v c1, max v c1) := by
    ext q
    simp only [edgeFinset, Finset.mem_filter, Finset.mem_product, Finset.mem_range,
      Finset.mem_erase]
    constructor
    · rintro ⟨⟨hq1, hq2⟩, hlt, hg2q⟩
      by_cases hq : (q.1 = v ∧ q.2 = c1) ∨ (q.1 = c1 ∧ q.2 = v)
      · exfalso
        have : g2 q.1 q.2 = false := by
          show (if (q.1 = v ∧ q.2 = c1) ∨ (q.1 = c1 ∧ q.2 = v) then false
            else g q.1 q.2) = false
          rw [if_pos hq]
        rw [this] at hg2q
        cases hg2q
      · have hgq : g q.1 q.2 = true := by
          have : g2 q.1 q.2 = g q.1 q.2 := by
            show (if (q.1 = v ∧ q.2 = c1) ∨ (q.1 = c1 ∧ q.2 = v) then false
              else g q.1 q.2) = g q.1 q.2
            rw [if_neg hq]
          rw [← this]
          exact hg2q
        refine ⟨?_, ⟨hq1, hq2⟩, hlt, hgq⟩
        intro hc
        apply hq
        have hcf : q.1 = min v c1 := congrArg Prod.fst hc
        have hcs : q.2 = max v c1 := congrArg Prod.snd hc
        rcases le_or_lt v c1 with h | h
        · left
          rw [Nat.min_eq_left h] at hcf
          rw [Nat.max_eq_right h] at hcs
          exact ⟨hcf, hcs⟩
        · right
          rw [Nat.min_eq_right (le_of_lt h)] at hcf
          rw [Nat.max_eq_left (le_of_lt h)] at hcs
          exact ⟨hcf, hcs⟩
    · rintro ⟨hqne, ⟨hq1, hq2⟩, hlt, hgq⟩
      refine ⟨⟨hq1, hq2⟩, hlt, ?_⟩
      show (if (q.1 = v ∧ q.2 = c1) ∨ (q.1 = c1 ∧ q.2 = v) then false
        else g q.1 q.2) = true
      rw [if_neg]
      · exact hgq
      · rintro (⟨h1, h2⟩ | ⟨h1, h2⟩)
        · apply hqne
          have hvc : v < c1 := by omega
          have e1 : q.1 = min v c1 := by
            rw [Nat.min_eq_left (le_of_lt hvc)]
            exact h1
          have e2 : q.2 = max v c1 := by
            rw [Nat.max_eq_right (le_of_lt hvc)]
            exact h2
          rw [Prod.ext_iff]
          exact ⟨e1, e2⟩
        · apply hqne
          have hvc : c1 < v := by omega
          have e1 : q.1 = min v c1 := by
            rw [Nat.min_eq_right (le_of_lt hvc)]
            exact h1
          have e2 : q.2 = max v c1 := by
            rw [Nat.max_eq_left (le_of_lt hvc)]
            exact h2
          rw [Prod.ext_iff]
          exact ⟨e1, e2⟩
  have hmemvc : (min v c1, max v c1) ∈ edgeFinset n g := by
    simp only [edgeFinset, Finset.mem_filter, Finset.mem_product, Finset.mem_range]
    refine ⟨⟨lt_of_le_of_lt (min_le_left _ _) hv, max_lt hv hc1⟩,
      min_lt_max.mpr hvne1, ?_⟩
    rcases le_or_lt v c1 with h | h
    · rw [Nat.min_eq_left h, Nat.max_eq_right h]
      exact hgc1
    · rw [Nat.min_eq_right (le_of_lt h), Nat.max_eq_left (le_of_lt h)]
      rw [hsym c1 hc1 v hv]
      exact hgc1
  have hcard2 : (edgeFinset n g2).card = n - 2 := by
    rw [hedge2, Finset.card_erase_of_mem hmemvc, hcard]
    omega
  have hsym2 : ∀ x, x < n → ∀ y, y < n → g2 x y = g2 y x := by
    intro x hx y hy
    show (if (x = v ∧ y = c1) ∨ (x = c1 ∧ y = v) then false else g x y) =
      (if (y = v ∧ x = c1) ∨ (y = c1 ∧ x = v) then false else g y x)
    by_cases h : (x = v ∧ y = c1) ∨ (x = c1 ∧ y = v)
    · rw [if_pos h, if_pos]
      rcases h with ⟨h1, h2⟩ | ⟨h1, h2⟩
      · exact Or.inr ⟨h2, h1⟩
      · exact Or.inl ⟨h2, h1⟩
    · rw [if_neg h, if_neg, hsym x hx y hy]
      rintro (⟨h1, h2⟩ | ⟨h1, h2⟩)
      · exact h (Or.inr ⟨h2, h1⟩)
      · exact h (Or.inl ⟨h2, h1⟩)
  have hirr2 : ∀ x, x < n → g2 x x = false := by
    intro x hx
    show (if (x = v ∧ x = c1) ∨ (x = c1 ∧ x = v) then false else g x x) = false
    by_cases h : (x = v ∧ x = c1) ∨ (x = c1 ∧ x = v)
    · rw [if_pos h]
    · rw [if_neg h]
      exact hirr x hx
  have hmin := min_edges n g2 hn hsym2 hirr2 (fun k hk => hsim k (hconn k hk))
  rw [hcard2] at hmin
  omega

/-- Helper: a visited-avoiding chain from an unvisited in-range city keeps
its endpoint unvisited and in range. -/
theorem reachAvoid_endpoints {n : Nat} {g : Nat → Nat → Bool} {vis : Nat → Bool}
    {c u : Nat} (h : ReachAvoid n g vis c u) (hc : vis c = false) (hcn : c < n) :
    vis u = false ∧ u < n := by
  induction h with
  | refl => exact ⟨hc, hcn⟩
  | @step j k hr hk hadj ih => exact ⟨hadj.2, hk⟩

/-- Helper: the adjacency avoiding one vertex is symmetric. -/
theorem avoidAdj_symm {n : Nat} {g : Nat → Nat → Bool} {v : Nat}
    (hsym : ∀ x, x < n → ∀ y, y < n → g x y = g y x) :
    ∀ x y, AvoidAdj n g v x y → AvoidAdj n g v y x := by
  rintro x y ⟨hxy, hx, hy, hxn, hyn⟩
  refine ⟨?_, hy, hx, hyn, hxn⟩
  rw [hsym y hyn x hxn]
  exact hxy

/-- Helper: a visited-avoiding chain from an unvisited city lifts into the
adjacency avoiding any single visited vertex. -/
theorem reachAvoid_lift {n : Nat} {g : Nat → Nat → Bool} {vis : Nat → Bool}
    {node c u : Nat} (hnode : vis node = true) (hc : vis c = false) (hcn : c < n)
    (h : ReachAvoid n g vis c u) : Reach n (AvoidAdj n g node) c u := by
  induction h with
  | refl => exact Reach.refl c
  | @step j k hr hk hadj ih =>
    have hj := reachAvoid_endpoints hr hc hcn
    refine Reach.step ih hk ⟨hadj.1, ?_, ?_, hj.2, hk⟩
    · intro hjn
      have hjf := hj.1
      rw [hjn, hnode] at hjf
      cases hjf
    · intro hkn
      have hkf := hadj.2
      rw [hkn, hnode] at hkf
      cases hkf

/-- Helper: under the child-scan invariant (every visited city is an old
one, the node itself, or attached to an already-scanned child), a child of
`node` that is still in the scan list and is not the parent cannot be
visited yet — otherwise the tree would contain a cycle through `node`. -/
theorem kids_child_unvisited (n : Nat) (g : Nat → Nat → Bool)
    (hirr : ∀ x, x < n → g x x = false)
    (hacy : ∀ v c1 c2, v < n → c1 < n → c2 < n → g v c1 = true →
      g v c2 = true → c1 ≠ c2 → ¬ Reach n (AvoidAdj n g v) c1 c2)
    {node par : Nat} {vis visc : Nat → Bool} {l : List Nat}
    (hn : node < n)
    (hsep : ∀ u w, ReachAvoid n g vis node u → w < n → g u w = true →
      vis w = true → u = node ∧ w = par)
    (hATT : ∀ w, visc w = true → vis w = true ∨ w = node ∨
      ∃ e, e < n ∧ g node e = true ∧ e ≠ par ∧ e ∉ l ∧ visc e = true ∧
        Reach n (AvoidAdj n g node) e w)
    {i : Nat} (hi : i ∈ l) (hin : i < n) (hgi : g node i = true)
    (hipar : i ≠ par) : visc i = false := by
  by_contra hvc
  rcases hATT i (bool_eq_true hvc) with hv | hnodei | ⟨e, hen, hge, _, hel, _, hpath⟩
  · exact hipar (hsep node i (Reach.refl node) hin hgi hv).2
  · rw [hnodei] at hgi
    rw [hirr node hn] at hgi
    cases hgi
  · have hei : e ≠ i := fun hc => hel (hc ▸ hi)
    exact hacy node e i hn hen hin hge hgi hei hpath

/-- Helper: entering an unvisited child `c` of `node`, the separation
property holds for the child call: the region reachable from `c` avoiding
the current visited set touches that set only at `node`, through `c`
itself. -/
theorem kids_child_sep (n : Nat) (g : Nat → Nat → Bool)
    (hsym : ∀ x, x < n → ∀ y, y < n → g x y = g y x)
    (hacy : ∀ v c1 c2, v < n → c1 < n → c2 < n → g v c1 = true →
      g v c2 = true → c1 ≠ c2 → ¬ Reach n (AvoidAdj n g v) c1 c2)
    {node par : Nat} {vis visc : Nat → Bool}
    (hn : node < n)
    (hsep : ∀ u w, ReachAvoid n g vis node u → w < n → g u w = true →
      vis w = true → u = node ∧ w = par)
    (hmono : ∀ x, vis x = true → visc x = true)
    (hnodev : visc node = true)
    (hATT : ∀ w, visc w = true → vis w = true ∨ w = node ∨
      ∃ e, e < n ∧ g node e = true ∧ e ≠ par ∧ visc e = true ∧
        Reach n (AvoidAdj n g node) e w)
    {c : Nat} (hcn : c < n) (hviscc : visc c = false) (hgc : g node c = true) :
    ∀ u w, ReachAvoid n g visc c u → w < n → g u w = true →
      visc w = true → u = c ∧ w = node := by
  intro u w hr hw hguw hvw
  have hu := reachAvoid_endpoints hr hviscc hcn
  have hune : u ≠ node := by
    intro hc
    have huf := hu.1
    rw [hc, hnodev] at huf
    cases huf
  by_cases hwn : w = node
  · refine ⟨?_, hwn⟩
    by_contra huc
    have hgnu : g node u = true := by
      rw [hsym node hn u hu.2]
      rw [← hwn]
      exact hguw
    have hlift : Reach n (AvoidAdj n g node) c u :=
      reachAvoid_lift hnodev hviscc hcn hr
    exact hacy node c u hn hcn hu.2 hgc hgnu (fun hc2 => huc hc2.symm) hlift
  · exfalso
    rcases hATT w hvw with hvisw | hwnode | ⟨e, hen, hge, _, hve, hpath⟩
    · have hvisc : vis c = false := by
        by_contra hvc
        have := hmono c (bool_eq_true hvc)
        rw [hviscc] at this
        cases this
      have hchain : ReachAvoid n g vis node u := by
        have h1 : ReachAvoid n g vis node c :=
          Reach.step (Reach.refl node) hcn ⟨hgc, hvisc⟩
        have h2 : ReachAvoid n g vis c u := by
          refine reach_mono ?_ hr
          rintro x y ⟨hxy, hyc⟩
          refine ⟨hxy, ?_⟩
          by_contra hvy
          have := hmono y (bool_eq_true hvy)
          rw [hyc] at this
          cases this
        exact reach_trans h1 h2
      exact hune (hsep u w hchain hw hguw hvisw).1
    · exact hwn hwnode
    · have hec : e ≠ c := by
        intro h
        rw [h, hviscc] at hve
        cases hve
      have hupath : Reach n (AvoidAdj n g node) e u := by
        refine Reach.step hpath hu.2 ⟨?_, hwn, hune, hw, hu.2⟩
        rw [hsym w hw u hu.2]
        exact hguw
      have hcu : Reach n (AvoidAdj n g node) c u :=
        reachAvoid_lift hnodev hviscc hcn hr
      have huc : Reach n (AvoidAdj n g node) u c :=
        reach_symm (avoidAdj_symm hsym) hcn hcu
      exact hacy node e c hn hen hcn hge hgc hec (reach_trans hupath huc)

/-- Helper: on a tree (symmetric, irreflexive and acyclic in the sense of
`tree_acy`), the dfs of HeuristicTour.c produces exactly the walk described
by the spec (`eulerTour`), by joint induction on the fuel: the visited-set
test of the code and the parent test of the spec coincide because the
unvisited region hanging off a node touches the visited cities only at that
node. -/
theorem dfs_eq_euler (n : Nat) (g : Nat → Nat → Bool)
    (hsym : ∀ x, x < n → ∀ y, y < n → g x y = g y x)
    (hirr : ∀ x, x < n → g x x = false)
    (hacy : ∀ v c1 c2, v < n → c1 < n → c2 < n → g v c1 = true →
      g v c2 = true → c1 ≠ c2 → ¬ Reach n (AvoidAdj n g v) c1 c2) :
    ∀ fuel,
      (∀ node par vis, node < n → vis node = false →
        (unvis n vis).card ≤ fuel →
        (par = node ∨ (par < n ∧ vis par = true ∧ g node par = true)) →
        (∀ u w, ReachAvoid n g vis node u → w < n → g u w = true →
          vis w = true → u = node ∧ w = par) →
        (dfs g n fuel node vis).2 = eulerTour g n fuel node par) ∧
      (∀ node par vis (l : List Nat) (st : (Nat → Bool) × List Nat),
        node < n → vis node = false → l.Nodup → (∀ i ∈ l, i < n) →
        (unvis n st.1).card ≤ fuel →
        (par = node ∨ (par < n ∧ vis par = true ∧ g node par = true)) →
        (∀ u w, ReachAvoid n g vis node u → w < n → g u w = true →
          vis w = true → u = node ∧ w = par) →
        (∀ x, vis x = true → st.1 x = true) → st.1 node = true →
        (∀ w, st.1 w = true → vis w = true ∨ w = node ∨
          ∃ e, e < n ∧ g node e = true ∧ e ≠ par ∧ e ∉ l ∧ st.1 e = true ∧
            Reach n (AvoidAdj n g node) e w) →
        (dfsKids (dfs g n fuel) g node l st).2 =
          st.2 ++ eulerKids (fun c p => eulerTour g n fuel c p) g node par l) := by
  intro fuel
  induction fuel with
  | zero =>
    constructor
    · intro node par vis hn hv hcard _ _
      exfalso
      have hmem : node ∈ unvis n vis := by simp [unvis, hn, hv]
      have := Finset.card_pos.mpr ⟨node, hmem⟩
      omega
    · intro node par vis l
      induction l with
      | nil =>
        intro st _ _ _ _ _ _ _ _ _ _
        rw [dfsKids, eulerKids]
        simp
      | cons i rest ih =>
        intro st hn hv hnd hil hcard hpar hsep hmono hnodev hATT
        have hin : i < n := hil i (by simp)
        have hiv : st.1 i = true := by
          by_contra hiv
          have hmem : i ∈ unvis n st.1 := by
            simp only [unvis, Finset.mem_filter, Finset.mem_range]
            exact ⟨hin, bool_eq_false hiv⟩
          have := Finset.card_pos.mpr ⟨i, hmem⟩
          omega
        have hcond : ¬(g node i = true ∧ st.1 i = false) := by
          rintro ⟨_, h2⟩
          rw [hiv] at h2
          cases h2
        have hcond2 : ¬(g node i = true ∧ i ≠ par) := by
          rintro ⟨hgi, hipar⟩
          have hunv := kids_child_unvisited n g hirr hacy hn hsep hATT
            (List.mem_cons_self i rest) hin hgi hipar
          rw [hiv] at hunv
          cases hunv
        rw [dfsKids, if_neg hcond, eulerKids, if_neg hcond2]
        exact ih st hn hv (List.Nodup.of_cons hnd)
          (fun j hj => hil j (by simp [hj])) hcard hpar hsep hmono hnodev
          (fun w hw => by
            rcases hATT w hw with h | h | ⟨e, he1, he2, he3, he4, he5, he6⟩
            · exact Or.inl h
            · exact Or.inr (Or.inl h)
            · exact Or.inr (Or.inr ⟨e, he1, he2, he3,
                fun hc => he4 (by simp [hc]), he5, he6⟩))
  | succ f ihf =>
    have hdfs : ∀ node par vis, node < n → vis node = false →
        (unvis n vis).card ≤ f + 1 →
        (par = node ∨ (par < n ∧ vis par = true ∧ g node par = true)) →
        (∀ u w, ReachAvoid n g vis node u → w < n → g u w = true →
          vis w = true → u = node ∧ w = par) →
        (dfs g n (f + 1) node vis).2 = eulerTour g n (f + 1) node par := by
      intro node par vis hn hv hcard hpar hsep
      rw [dfs, eulerTour]
      set st0 : (Nat → Bool) × List Nat :=
        (fun k => if k = node then true else vis k, [node]) with hst0
      have hnodemem : node ∈ unvis n vis := by simp [unvis, hn, hv]
      have hcard0 : (unvis n st0.1).card = (unvis n vis).card - 1 := by
        rw [show st0.1 = (fun k => if k = node then true else vis k) from rfl,
          unvis_mark, Finset.card_erase_of_mem hnodemem]
      have hcardpos : 0 < (unvis n vis).card := Finset.card_pos.mpr ⟨node, hnodemem⟩
      have hK := ihf.2 node par vis (List.range n) st0 hn hv (List.nodup_range n)
        (fun i hi => List.mem_range.mp hi) (by omega) hpar hsep
        (fun x hx => by simp [hst0, hx]) (by simp [hst0])
        (fun w hw => by
          simp only [hst0] at hw
          by_cases hwn : w = node
          · exact Or.inr (Or.inl hwn)
          · simp [hwn] at hw
            exact Or.inl hw)
      rw [hK]
      simp [hst0]
    refine ⟨hdfs, ?_⟩
    intro node par vis l
    induction l with
    | nil =>
      intro st _ _ _ _ _ _ _ _ _ _
      rw [dfsKids, eulerKids]
      simp
    | cons i rest ih =>
      intro st hn hv hnd hil hcard hpar hsep hmono hnodev hATT
      have hin : i < n := hil i (by simp)
      by_cases hcond : g node i = true ∧ st.1 i = false
      · have hipar : i ≠ par := by
          rcases hpar with hp | ⟨hpn, hpv, hpg⟩
          · intro hc
            have h2 := hcond.2
            rw [hc, hp, hnodev] at h2
            cases h2
          · intro hc
            have h2 := hmono par hpv
            rw [← hc] at h2
            rw [hcond.2] at h2
            cases h2
        rw [dfsKids, if_pos hcond, eulerKids, if_pos ⟨hcond.1, hipar⟩]
        have D := (dfs_master g n (f + 1)).1 i st.1 hin hcond.2 hcard
        have hATTe : ∀ w, st.1 w = true → vis w = true ∨ w = node ∨
            ∃ e, e < n ∧ g node e = true ∧ e ≠ par ∧ st.1 e = true ∧
              Reach n (AvoidAdj n g node) e w := by
          intro w hw
          rcases hATT w hw with h | h | ⟨e, he1, he2, he3, _, he5, he6⟩
          · exact Or.inl h
          · exact Or.inr (Or.inl h)
          · exact Or.inr (Or.inr ⟨e, he1, he2, he3, he5, he6⟩)
        have hsep_i := kids_child_sep n g hsym hacy hn hsep hmono hnodev hATTe
          hin hcond.2 hcond.1
        have hgin : g i node = true := by
          rw [hsym i hin node hn]
          exact hcond.1
        have hchild : (dfs g n (f + 1) i st.1).2 = eulerTour g n (f + 1) i node :=
          hdfs i node st.1 hin hcond.2 hcard (Or.inr ⟨hn, hnodev, hgin⟩) hsep_i
        set stN : (Nat → Bool) × List Nat :=
          ((dfs g n (f + 1) i st.1).1, st.2 ++ (dfs g n (f + 1) i st.1).2 ++ [node])
          with hstN
        have hcardN : (unvis n stN.1).card ≤ f + 1 := by
          have h1 := D.card_lt
          have h2 : (unvis n stN.1).card =
              (unvis n (dfs g n (f + 1) i st.1).1).card := rfl
          omega
        have hiNotRest : i ∉ rest := (List.nodup_cons.mp hnd).1
        have hATTN : ∀ w, stN.1 w = true → vis w = true ∨ w = node ∨
            ∃ e, e < n ∧ g node e = true ∧ e ≠ par ∧ e ∉ rest ∧ stN.1 e = true ∧
              Reach n (AvoidAdj n g node) e w := by
          intro w hw
          by_cases hw0 : st.1 w = true
          · rcases hATT w hw0 with h | h | ⟨e, he1, he2, he3, he4, he5, he6⟩
            · exact Or.inl h
            · exact Or.inr (Or.inl h)
            · exact Or.inr (Or.inr ⟨e, he1, he2, he3,
                fun hc => he4 (by simp [hc]), D.mono e he5, he6⟩)
          · have hw' : (dfs g n (f + 1) i st.1).1 w = true := hw
            rcases D.sound w hw' with h | ⟨hwn2, hwf, hrw⟩
            · exact absurd h hw0
            · exact Or.inr (Or.inr ⟨i, hin, hcond.1, hipar, hiNotRest,
                D.node_vis, reachAvoid_lift hnodev hcond.2 hin hrw⟩)
        have hrec := ih stN hn hv (List.Nodup.of_cons hnd)
          (fun j hj => hil j (by simp [hj])) hcardN hpar hsep
          (fun x hx => D.mono x (hmono x hx)) (D.mono node hnodev) hATTN
        rw [hrec]
        simp [hstN, hchild, List.append_assoc]
      · have hcond2 : ¬(g node i = true ∧ i ≠ par) := by
          rintro ⟨hgi, hipar⟩
          exact hcond ⟨hgi, kids_child_unvisited n g hirr hacy hn hsep hATT
            (List.mem_cons_self i rest) hin hgi hipar⟩
        rw [dfsKids, if_neg hcond, eulerKids, if_neg hcond2]
        exact ih st hn hv (List.Nodup.of_cons hnd)
          (fun j hj => hil j (by simp [hj])) hcard hpar hsep hmono hnodev
          (fun w hw => by
            rcases hATT w hw with h | h | ⟨e, he1, he2, he3, he4, he5, he6⟩
            · exact Or.inl h
            · exact Or.inr (Or.inl h)
            · exact Or.inr (Or.inr ⟨e, he1, he2, he3,
                fun hc => he4 (by simp [hc]), he5, he6⟩))

/-- C6: for every spanning tree connecting all `n` vertices (a symmetric,
irreflexive boolean adjacency that is connected with exactly n−1 undirected
edges), the walk produced by `dfs` from vertex 0 has length exactly
2·(n−1)+1, and equals the spec-side Euler walk `eulerTour` — which by
construction records a visit entry each time control enters a vertex,
including every return to a parent after a child subtree, and visits the
children of each vertex in increasing city-index order. -/
theorem C6_dfs_walk (n : Nat) (g : Nat → Nat → Bool) (hn : 0 < n)
    (hsym : ∀ x, x < n → ∀ y, y < n → g x y = g y x)
    (hirr : ∀ x, x < n → g x x = false)
    (hconn : ∀ k, k < n → Reach n (adjB g) 0 k)
    (hcard : (edgeFinset n g).card = n - 1) :
    (dfs g n n 0 (fun _ => false)).2.length = 2 * (n - 1) + 1 ∧
    (dfs g n n 0 (fun _ => false)).2 = eulerTour g n n 0 0 := by
  have hacy := tree_acy n g hsym hirr hconn hcard
  refine ⟨(dfs_walk_facts n g hn hconn).2.1, ?_⟩
  have hcardv : (unvis n (fun _ => false)).card = n := by simp [unvis]
  refine (dfs_eq_euler n g hsym hirr hacy n).1 0 0 (fun _ => false) hn rfl
    (le_of_eq hcardv) (Or.inl rfl) ?_
  intro u w _ _ _ hvw
  cases hvw

/-- C6 instantiated: the Prim output on four cities with all pairwise
distances 1 is the star rooted at 0; the dfs walk has length 7 and equals
the spec's Euler walk. -/
theorem C6_dfs_walk_witness :
    (0 < 4 ∧
     (∀ x, x < 4 → ∀ y, y < 4 → (buildMST 4 mat2 99 98 97).2 x y =
        (buildMST 4 mat2 99 98 97).2 y x) ∧
     (∀ x, x < 4 → (buildMST 4 mat2 99 98 97).2 x x = false) ∧
     (edgeFinset 4 (buildMST 4 mat2 99 98 97).2).card = 4 - 1) ∧
    ((dfs (buildMST 4 mat2 99 98 97).2 4 4 0 (fun _ => false)).2.length =
        2 * (4 - 1) + 1 ∧
     (dfs (buildMST 4 mat2 99 98 97).2 4 4 0 (fun _ => false)).2 =
        eulerTour (buildMST 4 mat2 99 98 97).2 4 4 0 0) :=
  have hconn : ∀ k, k < 4 → Reach 4 (adjB (buildMST 4 mat2 99 98 97).2) 0 k := by
    intro k hk
    interval_cases k
    · exact Reach.refl 0
    · exact Reach.step (Reach.refl 0) (by omega)
        (show (buildMST 4 mat2 99 98 97).2 0 1 = true by decide)
    · exact Reach.step (Reach.refl 0) (by omega)
        (show (buildMST 4 mat2 99 98 97).2 0 2 = true by decide)
    · exact Reach.step (Reach.refl 0) (by omega)
        (show (buildMST 4 mat2 99 98 97).2 0 3 = true by decide)
  ⟨⟨by decide, by decide, by decide, by decide⟩,
    C6_dfs_walk 4 (buildMST 4 mat2 99 98 97).2 (by decide) (by decide) (by decide)
      hconn (by decide)⟩

/-- C3 failing evaluation: on the symmetric nonnegative 5-city matrix
`mat5`, the cost returned by `getOptimalTour` is 20 while the cost returned
by `getHeuristicTour` is 3, refuting "the optimal cost is less than or equal
to the heuristic cost".  The true optimum is 0 (the Hamiltonian cycle
`[0, 3, 4, 1, 2]` has cost 0): that zero-cost permutation is enumerated
11th of 12, and storing its cost 0 makes `res.cost == INFINITE` true again
(INFINITE is 0), so the 12th permutation, of cost 20, overwrites it. -/
theorem C3_opt_exceeds_heuristic_eval :
    (getOptimalTour 5 mat5 99 98).cost = 20 ∧
    (getHeuristicTour 5 mat5 99 98 97).cost = 3 ∧
    ¬((getOptimalTour 5 mat5 99 98).cost ≤ (getHeuristicTour 5 mat5 99 98 97).cost) ∧
    IsStartTour 5 [0, 3, 4, 1, 2] ∧ tourCost 5 mat5 [0, 3, 4, 1, 2] = 0 ∧
    (∀ i, i < 5 → ∀ j, j < 5 → mat5 i j = mat5 j i ∧ 0 ≤ mat5 i j) := by
  refine ⟨by decide, by decide, by decide, ⟨by decide, by decide⟩, by decide, by decide⟩

/-- Helper: folds agree when the step functions agree on the list members. -/
theorem foldl_ext_mem {α β : Type} (f g : β → α → β) (l : List α) :
    ∀ b, (∀ b' x, x ∈ l → f b' x = g b' x) → l.foldl f b = l.foldl g b := by
  induction l with
  | nil =>
    intro b _
    rfl
  | cons x xs ih =>
    intro b h
    rw [List.foldl_cons, List.foldl_cons, h b x (by simp)]
    exact ih _ (fun b' y hy => h b' y (by simp [hy]))

/-- Helper: a fold whose step fixes the accumulator is the identity. -/
theorem foldl_fix {α β : Type} (f : β → α → β) (l : List α) :
    ∀ b, (∀ b' x, x ∈ l → f b' x = b') → l.foldl f b = b := by
  induction l with
  | nil =>
    intro b _
    rfl
  | cons x xs ih =>
    intro b h
    rw [List.foldl_cons, h b x (by simp)]
    exact ih b (fun b' y hy => h b' y (by simp [hy]))

/-- Helper: pointwise description of a single array write. -/
theorem getD_set {α : Type} (l : List α) (df v : α) (i x : Nat)
    (hi : i < l.length) (hx : x < l.length) :
    (l.set i v).getD x df = if x = i then v else l.getD x df := by
  rw [List.getD_eq_getElem?_getD, List.getD_eq_getElem?_getD, List.getElem?_set]
  by_cases hxi : x = i
  · rw [if_pos hxi, if_pos hxi.symm, if_pos hi]
    rfl
  · rw [if_neg hxi, if_neg (fun hc => hxi hc.symm)]

/-- Helper: length is preserved by the three-assignment swap. -/
theorem listSwap_length {α : Type} (l : List α) (df : α) (i k : Nat) :
    (listSwap l df i k).length = l.length := by
  simp [listSwap]

/-- Helper: pointwise description of the three-assignment swap. -/
theorem listSwap_getD {α : Type} (l : List α) (df : α) (i k : Nat)
    (hi : i < l.length) (hk : k < l.length) (x : Nat) (hx : x < l.length) :
    (listSwap l df i k).getD x df =
      if x = k then l.getD i df else if x = i then l.getD k df else l.getD x df := by
  show ((l.set i (l.getD k df)).set k (l.getD i df)).getD x df = _
  rw [getD_set _ _ _ _ _ (by simpa using hk) (by simpa using hx),
    getD_set _ _ _ _ _ hi hx]

/-- Helper: the direction-flip loop preserves the array length. -/
theorem flipDirs_length (n : Nat) (p : List Nat) (d : List Int) (lm : Nat) :
    (flipDirs n p d lm).length = d.length := by
  show ((List.range' 1 (n - 1)).foldl _ d).length = d.length
  induction List.range' 1 (n - 1) generalizing d with
  | nil => rfl
  | cons j rest ih =>
    rw [List.foldl_cons]
    by_cases h : p.getD j 0 > lm
    · rw [if_pos h]
      rw [ih]
      exact List.length_set _ _ _
    · rw [if_neg h]
      exact ih d

/-- Helper: pointwise description of the direction-flip loop over a
duplicate-free index list of in-range positions. -/
theorem flipFold_getD (p : List Nat) (lm : Nat) :
    ∀ (L : List Nat), L.Nodup → ∀ (d : List Int), (∀ j ∈ L, j < d.length) →
      ∀ (x : Nat), x < d.length →
      ((L.foldl (fun dd j =>
        if p.getD j 0 > lm then
          dd.set j (if dd.getD j 0 = LEFT then RIGHT else LEFT)
        else dd) d)).getD x 0 =
      if x ∈ L ∧ p.getD x 0 > lm then
        (if d.getD x 0 = LEFT then RIGHT else LEFT)
      else d.getD x 0 := by
  intro L
  induction L with
  | nil =>
    intro _ d _ x _
    simp
  | cons j rest ih =>
    intro hnd d hjl x hx
    rw [List.foldl_cons]
    have hjrest : j ∉ rest := (List.nodup_cons.mp hnd).1
    have hjlen : j < d.length := hjl j (by simp)
    by_cases hcond : p.getD j 0 > lm
    · rw [if_pos hcond]
      set d2 := d.set j (if d.getD j 0 = LEFT then RIGHT else LEFT) with hd2
      have hlen2 : d2.length = d.length := List.length_set _ _ _
      rw [ih (List.Nodup.of_cons hnd) d2
        (fun j2 hj2 => by rw [hlen2]; exact hjl j2 (by simp [hj2]))
        x (by rw [hlen2]; exact hx)]
      by_cases hxj : x = j
      · subst hxj
        have hflip : d2.getD x 0 = (if d.getD x 0 = LEFT then RIGHT else LEFT) := by
          rw [hd2, getD_set _ _ _ _ _ hjlen hx]
          rw [if_pos rfl]
        have hn1 : ¬(x ∈ rest ∧ p.getD x 0 > lm) := fun hc => hjrest hc.1
        have hp2 : x ∈ x :: rest ∧ p.getD x 0 > lm :=
          ⟨List.mem_cons_self x rest, hcond⟩
        rw [if_neg hn1, if_pos hp2, hflip]
      · have hd2x : d2.getD x 0 = d.getD x 0 := by
          rw [hd2, getD_set _ _ _ _ _ hjlen hx]
          rw [if_neg hxj]
        rw [hd2x]
        by_cases hxr : x ∈ rest ∧ p.getD x 0 > lm
        · have hp2 : x ∈ j :: rest ∧ p.getD x 0 > lm :=
            ⟨List.mem_cons_of_mem j hxr.1, hxr.2⟩
          rw [if_pos hxr, if_pos hp2]
        · have hn2 : ¬(x ∈ j :: rest ∧ p.getD x 0 > lm) := by
            rintro ⟨hc1, hc2⟩
            rcases List.mem_cons.mp hc1 with h | h
            · exact hxj h
            · exact hxr ⟨h, hc2⟩
          rw [if_neg hxr, if_neg hn2]
    · rw [if_neg hcond]
      rw [ih (List.Nodup.of_cons hnd) d (fun j2 hj2 => hjl j2 (by simp [hj2])) x hx]
      by_cases hxj : x = j
      · have hc1 : ¬(x ∈ rest ∧ p.getD x 0 > lm) :=
          fun hc => hcond (hxj ▸ hc.2)
        have hc2 : ¬(x ∈ j :: rest ∧ p.getD x 0 > lm) :=
          fun hc => hcond (hxj ▸ hc.2)
        rw [if_neg hc1, if_neg hc2]
      · by_cases hxr : x ∈ rest ∧ p.getD x 0 > lm
        · have hp2 : x ∈ j :: rest ∧ p.getD x 0 > lm :=
            ⟨List.mem_cons_of_mem j hxr.1, hxr.2⟩
          rw [if_pos hxr, if_pos hp2]
        · have hn2 : ¬(x ∈ j :: rest ∧ p.getD x 0 > lm) := by
            rintro ⟨hc1, hc2⟩
            rcases List.mem_cons.mp hc1 with h | h
            · exact hxj h
            · exact hxr ⟨h, hc2⟩
          rw [if_neg hxr, if_neg hn2]

/-- Helper: lists of equal length with equal entries are equal. -/
theorem list_ext_getD {α : Type} (l1 l2 : List α) (df : α)
    (hlen : l1.length = l2.length)
    (h : ∀ i, i < l1.length → l1.getD i df = l2.getD i df) : l1 = l2 := by
  apply List.ext_getElem hlen
  intro i h1 h2
  have h3 := h i h1
  rwa [List.getD_eq_getElem _ _ h1, List.getD_eq_getElem _ _ h2] at h3

/-- Helper: the largest-mobile scan either leaves the accumulator unchanged
or returns a pair recorded by a firing scan step: an index that passed the
boundary guard together with its mobile permutation value. -/
theorem mobScan_fold_cases (n : Nat) (p : List Nat) (d : List Int) :
    ∀ (L : List Nat) (acc : Nat × Nat),
      L.foldl (mobileScan n p d) acc = acc ∨
      ∃ j ∈ L, (¬(j = 1 ∧ d.getD j 0 = LEFT) ∧ ¬(j = n - 1 ∧ d.getD j 0 = RIGHT)) ∧
        p.getD j 0 > p.getD (nbr j (d.getD j 0)) 0 ∧
        L.foldl (mobileScan n p d) acc = (p.getD j 0, j) := by
  intro L
  induction L with
  | nil =>
    intro acc
    exact Or.inl rfl
  | cons j rest ih =>
    intro acc
    rw [List.foldl_cons]
    by_cases hg : ¬(j = 1 ∧ d.getD j 0 = LEFT) ∧ ¬(j = n - 1 ∧ d.getD j 0 = RIGHT)
    · by_cases hm : p.getD j 0 > p.getD (nbr j (d.getD j 0)) 0 ∧ p.getD j 0 > acc.1
      · have hstep : mobileScan n p d acc j = (p.getD j 0, j) := by
          unfold mobileScan
          rw [if_pos hg, if_pos hm]
        rw [hstep]
        rcases ih (p.getD j 0, j) with h | ⟨j2, hj2, hg2, hm2, heq⟩
        · exact Or.inr ⟨j, by simp, hg, hm.1, h⟩
        · exact Or.inr ⟨j2, by simp [hj2], hg2, hm2, heq⟩
      · have hstep : mobileScan n p d acc j = acc := by
          unfold mobileScan
          rw [if_pos hg, if_neg hm]
        rw [hstep]
        rcases ih acc with h | ⟨j2, hj2, hg2, hm2, heq⟩
        · exact Or.inl h
        · exact Or.inr ⟨j2, by simp [hj2], hg2, hm2, heq⟩
    · have hstep : mobileScan n p d acc j = acc := by
        unfold mobileScan
        rw [if_neg hg]
      rw [hstep]
      rcases ih acc with h | ⟨j2, hj2, hg2, hm2, heq⟩
      · exact Or.inl h
      · exact Or.inr ⟨j2, by simp [hj2], hg2, hm2, heq⟩

/-- Helper: a scan over indices whose values stay at or below the current
maximum leaves the accumulator unchanged. -/
theorem mobScan_fold_bounded (n : Nat) (p : List Nat) (d : List Int) :
    ∀ (L : List Nat) (acc : Nat × Nat),
      (∀ j ∈ L, p.getD j 0 ≤ acc.1) →
      L.foldl (mobileScan n p d) acc = acc := by
  intro L
  induction L with
  | nil =>
    intro acc _
    rfl
  | cons j rest ih =>
    intro acc h
    rw [List.foldl_cons]
    have hstep : mobileScan n p d acc j = acc := by
      unfold mobileScan
      by_cases hg : ¬(j = 1 ∧ d.getD j 0 = LEFT) ∧ ¬(j = n - 1 ∧ d.getD j 0 = RIGHT)
      · rw [if_pos hg, if_neg]
        rintro ⟨_, h2⟩
        have := h j (by simp)
        omega
      · rw [if_neg hg]
    rw [hstep]
    exact ih acc (fun j2 hj2 => h j2 (by simp [hj2]))

/-- Helper: when the unique maximal value sits mobile at index `t`, the
largest-mobile scan returns exactly that value and index. -/
theorem mobScan_fold_largest (n : Nat) (p : List Nat) (d : List Int)
    (t M : Nat) (hpt : p.getD t 0 = M)
    (hguard : ¬(t = 1 ∧ d.getD t 0 = LEFT) ∧ ¬(t = n - 1 ∧ d.getD t 0 = RIGHT))
    (hmob : p.getD t 0 > p.getD (nbr t (d.getD t 0)) 0) :
    ∀ (L1 : List Nat), ∀ (L2 : List Nat) (acc : Nat × Nat),
      (∀ j ∈ L1, p.getD j 0 < M) → (∀ j ∈ L2, p.getD j 0 ≤ M) →
      acc.1 < M →
      ((L1 ++ t :: L2).foldl (mobileScan n p d) acc) = (M, t) := by
  intro L1
  induction L1 with
  | nil =>
    intro L2 acc _ h2 hacc
    rw [List.nil_append, List.foldl_cons]
    have hc : p.getD t 0 > p.getD (nbr t (d.getD t 0)) 0 ∧ p.getD t 0 > acc.1 := by
      refine ⟨hmob, ?_⟩
      rw [hpt]
      exact hacc
    have hstep : mobileScan n p d acc t = (M, t) := by
      unfold mobileScan
      rw [if_pos hguard, if_pos hc, hpt]
    rw [hstep]
    exact mobScan_fold_bounded n p d L2 (M, t) (fun j hj => h2 j hj)
  | cons j1 r1 ih =>
    intro L2 acc h1 h2 hacc
    rw [List.cons_append, List.foldl_cons]
    have hj1 : p.getD j1 0 < M := h1 j1 (by simp)
    have hfst : mobileScan n p d acc j1 = acc ∨
        mobileScan n p d acc j1 = (p.getD j1 0, j1) := by
      unfold mobileScan
      by_cases hg : ¬(j1 = 1 ∧ d.getD j1 0 = LEFT) ∧
          ¬(j1 = n - 1 ∧ d.getD j1 0 = RIGHT)
      · by_cases hm : p.getD j1 0 > p.getD (nbr j1 (d.getD j1 0)) 0 ∧
            p.getD j1 0 > acc.1
        · rw [if_pos hg, if_pos hm]
          exact Or.inr rfl
        · rw [if_pos hg, if_neg hm]
          exact Or.inl rfl
      · rw [if_neg hg]
        exact Or.inl rfl
    rcases hfst with h | h
    · rw [h]
      exact ih L2 acc (fun j hj => h1 j (by simp [hj])) h2 hacc
    · rw [h]
      exact ih L2 _ (fun j hj => h1 j (by simp [hj])) h2 hj1

/-- Helper: the scan result does not depend on the stale initial index: the
found values always agree, and when some step fired the pairs agree. -/
theorem mobScan_fold_indep (n : Nat) (p : List Nat) (d : List Int) :
    ∀ (L : List Nat) (acc1 acc2 : Nat × Nat), acc1.1 = acc2.1 →
      (0 < acc1.1 → acc1 = acc2) →
      (L.foldl (mobileScan n p d) acc1).1 = (L.foldl (mobileScan n p d) acc2).1 ∧
      (0 < (L.foldl (mobileScan n p d) acc1).1 →
        L.foldl (mobileScan n p d) acc1 = L.foldl (mobileScan n p d) acc2) := by
  intro L
  induction L with
  | nil =>
    intro acc1 acc2 h1 h2
    exact ⟨h1, h2⟩
  | cons j rest ih =>
    intro acc1 acc2 h1 h2
    rw [List.foldl_cons, List.foldl_cons]
    have hsteps : (mobileScan n p d acc1 j).1 = (mobileScan n p d acc2 j).1 ∧
        (0 < (mobileScan n p d acc1 j).1 →
          mobileScan n p d acc1 j = mobileScan n p d acc2 j) := by
      unfold mobileScan
      by_cases hg : ¬(j = 1 ∧ d.getD j 0 = LEFT) ∧ ¬(j = n - 1 ∧ d.getD j 0 = RIGHT)
      · by_cases hm : p.getD j 0 > p.getD (nbr j (d.getD j 0)) 0 ∧
            p.getD j 0 > acc1.1
        · have hm2 : p.getD j 0 > p.getD (nbr j (d.getD j 0)) 0 ∧
              p.getD j 0 > acc2.1 := by
            rw [← h1]
            exact hm
          rw [if_pos hg, if_pos hm, if_pos hg, if_pos hm2]
          exact ⟨rfl, fun _ => rfl⟩
        · have hm2 : ¬(p.getD j 0 > p.getD (nbr j (d.getD j 0)) 0 ∧
              p.getD j 0 > acc2.1) := by
            rw [← h1]
            exact hm
          rw [if_pos hg, if_neg hm, if_pos hg, if_neg hm2]
          exact ⟨h1, h2⟩
      · rw [if_neg hg, if_neg hg]
        exact ⟨h1, h2⟩
    exact ih _ _ hsteps.1 hsteps.2

/-- Helper: when the search fires, its result ignores the stale previous
index entirely. -/
theorem findMobile_indep (n : Nat) (p : List Nat) (d : List Int) (a b : Nat)
    (hpos : 0 < (findMobile n p d a).1) :
    findMobile n p d a = findMobile n p d b := by
  have h := mobScan_fold_indep n p d (List.range' 1 (n - 1)) (0, a) (0, b) rfl
    (fun hc => absurd hc (lt_irrefl 0))
  exact h.2 hpos

/-- Helper: bounds read off a successful largest-mobile search: the found
index is one of the scanned positions `1, …, n-1`, it carries the found
value, it is mobile, and the boundary guard forces an interior position or
an inward direction. -/
theorem mobile_bounds (m : Nat) {s : SJT} (hW : SJTWf m s) (a : Nat)
    (hpos : 0 < (findMobile m s.p s.d a).1) :
    1 ≤ (findMobile m s.p s.d a).2 ∧ (findMobile m s.p s.d a).2 ≤ m - 1 ∧
    (findMobile m s.p s.d a).1 = s.p.getD (findMobile m s.p s.d a).2 0 ∧
    s.p.getD (findMobile m s.p s.d a).2 0 >
      s.p.getD (nbr (findMobile m s.p s.d a).2
        (s.d.getD (findMobile m s.p s.d a).2 0)) 0 ∧
    ((s.d.getD (findMobile m s.p s.d a).2 0 = LEFT ∧
        2 ≤ (findMobile m s.p s.d a).2) ∨
     (s.d.getD (findMobile m s.p s.d a).2 0 = RIGHT ∧
        (findMobile m s.p s.d a).2 ≤ m - 2)) := by
  rcases mobScan_fold_cases m s.p s.d (List.range' 1 (m - 1)) (0, a) with
    h | ⟨j, hj, hg, hm, heq⟩
  · exfalso
    have hFM : findMobile m s.p s.d a = (0, a) := h
    rw [hFM] at hpos
    exact absurd hpos (lt_irrefl 0)
  · have hFM : findMobile m s.p s.d a = (s.p.getD j 0, j) := heq
    obtain ⟨hj1, hj2⟩ := List.mem_range'_1.mp hj
    have hjm : j < m := by omega
    rw [hFM]
    refine ⟨hj1, by omega, rfl, hm, ?_⟩
    rcases hW.dpm j hjm with h | h
    · refine Or.inl ⟨h, ?_⟩
      rcases Nat.lt_or_ge j 2 with h2 | h2
      · exfalso
        have hj1' : j = 1 := by omega
        exact hg.1 ⟨hj1', h⟩
      · exact h2
    · refine Or.inr ⟨h, ?_⟩
      rcases Nat.lt_or_ge (m - 2) j with h2 | h2
      · exfalso
        have hjm1 : j = m - 1 := by omega
        exact hg.2 ⟨hjm1, h⟩
      · exact h2

/-- Helper: the directed neighbour of a LEFT-moving index. -/
theorem nbr_left (t : Nat) : nbr t LEFT = t - 1 := by
  simp only [nbr, LEFT]
  omega

/-- Helper: the directed neighbour of a RIGHT-moving index. -/
theorem nbr_right (t : Nat) : nbr t RIGHT = t + 1 := by
  simp only [nbr, RIGHT]
  omega

/-- Helper: the boundary directions differ. -/
theorem left_ne_right : LEFT ≠ RIGHT := by decide

/-- Helper: a decomposed state is well-formed when its sub-state is. -/
theorem wf_of_dec (n t : Nat) (dl : Int) {s σ : SJT} (hD : SJTDec n t dl s σ)
    (hW : SJTWf (n - 1) σ) (ht1 : 1 ≤ t) (ht2 : t ≤ n - 1)
    (hdl : dl = LEFT ∨ dl = RIGHT) : SJTWf n s where
  plen := hD.plen
  dlen := hD.dlen
  vals := by
    intro i hi
    by_cases hit : i = t
    · rw [hit, hD.pv]
      omega
    · rcases Nat.lt_or_ge i t with h | h
      · rw [hD.plo i h]
        have := hW.vals i (by omega)
        omega
      · have h' : t < i := lt_of_le_of_ne h (Ne.symm hit)
        rw [hD.phi i h' hi]
        have := hW.vals (i - 1) (by omega)
        omega
  dpm := by
    intro i hi
    by_cases hit : i = t
    · rw [hit, hD.dv]
      exact hdl
    · rcases Nat.lt_or_ge i t with h | h
      · rw [hD.dlo i h]
        exact hW.dpm i (by omega)
      · have h' : t < i := lt_of_le_of_ne h (Ne.symm hit)
        rw [hD.dhi i h' hi]
        exact hW.dpm (i - 1) (by omega)

/-- Helper: the values of a decomposed state away from the carrier position
stay strictly below `n - 1`. -/
theorem dec_val_lt (n t : Nat) (dl : Int) {s σ : SJT} (hD : SJTDec n t dl s σ)
    (hW : SJTWf (n - 1) σ) (ht2 : t ≤ n - 1) :
    ∀ i, i < n → i ≠ t → s.p.getD i 0 < n - 1 := by
  intro i hi hit
  rcases Nat.lt_or_ge i t with h | h
  · rw [hD.plo i h]
    exact hW.vals i (by omega)
  · have h' : t < i := lt_of_le_of_ne h (Ne.symm hit)
    rw [hD.phi i h' hi]
    exact hW.vals (i - 1) (by omega)

/-- Helper: splitting the scanned index range at a chosen position. -/
theorem range'_split_at (n t : Nat) (ht1 : 1 ≤ t) (ht2 : t ≤ n - 1) :
    List.range' 1 (n - 1) =
      List.range' 1 (t - 1) ++ t :: List.range' (t + 1) (n - 1 - t) := by
  have h1 := List.range'_append 1 (t - 1) (n - t) 1
  rw [show 1 + 1 * (t - 1) = t by omega] at h1
  rw [show (n - t) + (t - 1) = n - 1 by omega] at h1
  have h2 : List.range' t (n - t) = t :: List.range' (t + 1) (n - t - 1) := by
    have h3 := List.range'_succ t (n - t - 1) 1
    rw [show (n - t - 1) + 1 = n - t by omega] at h3
    exact h3
  rw [← h1, h2, show n - t - 1 = n - 1 - t by omega]

/-- Helper: the largest value is found and moved one place left by
`sjtStep` when it is LEFT-directed away from the left boundary; the
sub-state is untouched. -/
theorem sjt_step_left (n : Nat) (hn : 3 ≤ n) {s σ : SJT} {t : Nat}
    (hD : SJTDec n t LEFT s σ) (hW : SJTWf (n - 1) σ)
    (ht1 : 2 ≤ t) (ht2 : t ≤ n - 1) :
    (∀ a, findMobile n s.p s.d a = (n - 1, t)) ∧
    SJTDec n (t - 1) LEFT (sjtStep n s) σ := by
  have hplen := hD.plen
  have hdlen := hD.dlen
  have htn : t < n := by omega
  have htn1 : t - 1 < n := by omega
  have hguard : ¬(t = 1 ∧ s.d.getD t 0 = LEFT) ∧
      ¬(t = n - 1 ∧ s.d.getD t 0 = RIGHT) := by
    constructor
    · rintro ⟨h1, _⟩
      omega
    · rintro ⟨_, h2⟩
      rw [hD.dv] at h2
      exact left_ne_right h2
  have hmob : s.p.getD t 0 > s.p.getD (nbr t (s.d.getD t 0)) 0 := by
    rw [hD.dv, nbr_left, hD.pv]
    have := dec_val_lt n t LEFT hD hW ht2 (t - 1) (by omega) (by omega)
    omega
  have hFM : ∀ a, findMobile n s.p s.d a = (n - 1, t) := by
    intro a
    show (List.range' 1 (n - 1)).foldl (mobileScan n s.p s.d) (0, a) = (n - 1, t)
    rw [range'_split_at n t (by omega) ht2]
    refine mobScan_fold_largest n s.p s.d t (n - 1) hD.pv hguard hmob _ _ _
      ?_ ?_ (by simp; omega)
    · intro j hj
      obtain ⟨h1, h2⟩ := List.mem_range'_1.mp hj
      exact dec_val_lt n t LEFT hD hW ht2 j (by omega) (by omega)
    · intro j hj
      obtain ⟨h1, h2⟩ := List.mem_range'_1.mp hj
      have := dec_val_lt n t LEFT hD hW ht2 j (by omega) (by omega)
      omega
  have hstep : sjtStep n s =
      ⟨listSwap s.p 0 t (nbr t (s.d.getD t 0)),
       flipDirs n (listSwap s.p 0 t (nbr t (s.d.getD t 0)))
         (listSwap s.d 0 t (nbr t (s.d.getD t 0))) (n - 1), t⟩ := by
    unfold sjtStep
    rw [hFM s.lmi]
  rw [hD.dv, nbr_left] at hstep
  have hp2len : (listSwap s.p 0 t (t - 1)).length = n := by
    rw [listSwap_length, hplen]
  have hd2len : (listSwap s.d 0 t (t - 1)).length = n := by
    rw [listSwap_length, hdlen]
  have hp2 : ∀ x, x < n → (listSwap s.p 0 t (t - 1)).getD x 0 =
      if x = t - 1 then s.p.getD t 0 else if x = t then s.p.getD (t - 1) 0
      else s.p.getD x 0 := by
    intro x hx
    exact listSwap_getD s.p 0 t (t - 1) (by omega) (by omega) x (by omega)
  have hd2 : ∀ x, x < n → (listSwap s.d 0 t (t - 1)).getD x 0 =
      if x = t - 1 then s.d.getD t 0 else if x = t then s.d.getD (t - 1) 0
      else s.d.getD x 0 := by
    intro x hx
    exact listSwap_getD s.d 0 t (t - 1) (by omega) (by omega) x (by omega)
  have hp2le : ∀ x, x < n → (listSwap s.p 0 t (t - 1)).getD x 0 ≤ n - 1 := by
    intro x hx
    rw [hp2 x hx]
    have hvt := hD.pv
    have hv1 : s.p.getD (t - 1) 0 < n - 1 :=
      dec_val_lt n t LEFT hD hW ht2 (t - 1) (by omega) (by omega)
    by_cases h1 : x = t - 1
    · rw [if_pos h1]
      omega
    · rw [if_neg h1]
      by_cases h2 : x = t
      · rw [if_pos h2]
        omega
      · rw [if_neg h2]
        have := dec_val_lt n t LEFT hD hW ht2 x hx h2
        omega
  have hflip : flipDirs n (listSwap s.p 0 t (t - 1)) (listSwap s.d 0 t (t - 1))
      (n - 1) = listSwap s.d 0 t (t - 1) := by
    apply foldl_fix
    intro dd j hj
    obtain ⟨h1, h2⟩ := List.mem_range'_1.mp hj
    rw [if_neg]
    have := hp2le j (by omega)
    omega
  rw [hflip] at hstep
  refine ⟨hFM, ?_⟩
  refine ⟨by rw [hstep]; exact hp2len, by rw [hstep]; exact hd2len, ?_, ?_, ?_, ?_, ?_, ?_⟩
  · rw [hstep]
    show (listSwap s.p 0 t (t - 1)).getD (t - 1) 0 = n - 1
    rw [hp2 (t - 1) htn1, if_pos rfl, hD.pv]
  · rw [hstep]
    show (listSwap s.d 0 t (t - 1)).getD (t - 1) 0 = LEFT
    rw [hd2 (t - 1) htn1, if_pos rfl, hD.dv]
  · intro i hi
    rw [hstep]
    show (listSwap s.p 0 t (t - 1)).getD i 0 = σ.p.getD i 0
    rw [hp2 i (by omega), if_neg (by omega), if_neg (by omega)]
    exact hD.plo i (by omega)
  · intro i hi1 hi2
    rw [hstep]
    show (listSwap s.p 0 t (t - 1)).getD i 0 = σ.p.getD (i - 1) 0
    rw [hp2 i hi2, if_neg (by omega)]
    by_cases hit : i = t
    · rw [if_pos hit]
      rw [hD.plo (t - 1) (by omega)]
      rw [hit]
    · rw [if_neg hit]
      exact hD.phi i (by omega) hi2
  · intro i hi
    rw [hstep]
    show (listSwap s.d 0 t (t - 1)).getD i 0 = σ.d.getD i 0
    rw [hd2 i (by omega), if_neg (by omega), if_neg (by omega)]
    exact hD.dlo i (by omega)
  · intro i hi1 hi2
    rw [hstep]
    show (listSwap s.d 0 t (t - 1)).getD i 0 = σ.d.getD (i - 1) 0
    rw [hd2 i hi2, if_neg (by omega)]
    by_cases hit : i = t
    · rw [if_pos hit]
      rw [hD.dlo (t - 1) (by omega)]
      rw [hit]
    · rw [if_neg hit]
      exact hD.dhi i (by omega) hi2

/-- Helper: the largest value is found and moved one place right by
`sjtStep` when it is RIGHT-directed away from the right boundary; the
sub-state is untouched. -/
theorem sjt_step_right (n : Nat) (hn : 3 ≤ n) {s σ : SJT} {t : Nat}
    (hD : SJTDec n t RIGHT s σ) (hW : SJTWf (n - 1) σ)
    (ht1 : 1 ≤ t) (ht2 : t ≤ n - 2) :
    (∀ a, findMobile n s.p s.d a = (n - 1, t)) ∧
    SJTDec n (t + 1) RIGHT (sjtStep n s) σ := by
  have hplen := hD.plen
  have hdlen := hD.dlen
  have htn : t < n := by omega
  have htn1 : t + 1 < n := by omega
  have hguard : ¬(t = 1 ∧ s.d.getD t 0 = LEFT) ∧
      ¬(t = n - 1 ∧ s.d.getD t 0 = RIGHT) := by
    constructor
    · rintro ⟨_, h2⟩
      rw [hD.dv] at h2
      exact left_ne_right h2.symm
    · rintro ⟨h1, _⟩
      omega
  have hmob : s.p.getD t 0 > s.p.getD (nbr t (s.d.getD t 0)) 0 := by
    rw [hD.dv, nbr_right, hD.pv]
    have := dec_val_lt n t RIGHT hD hW (by omega) (t + 1) (by omega) (by omega)
    omega
  have hFM : ∀ a, findMobile n s.p s.d a = (n - 1, t) := by
    intro a
    show (List.range' 1 (n - 1)).foldl (mobileScan n s.p s.d) (0, a) = (n - 1, t)
    rw [range'_split_at n t (by omega) (by omega)]
    refine mobScan_fold_largest n s.p s.d t (n - 1) hD.pv hguard hmob _ _ _
      ?_ ?_ (by simp; omega)
    · intro j hj
      obtain ⟨h1, h2⟩ := List.mem_range'_1.mp hj
      exact dec_val_lt n t RIGHT hD hW (by omega) j (by omega) (by omega)
    · intro j hj
      obtain ⟨h1, h2⟩ := List.mem_range'_1.mp hj
      have := dec_val_lt n t RIGHT hD hW (by omega) j (by omega) (by omega)
      omega
  have hstep : sjtStep n s =
      ⟨listSwap s.p 0 t (nbr t (s.d.getD t 0)),
       flipDirs n (listSwap s.p 0 t (nbr t (s.d.getD t 0)))
         (listSwap s.d 0 t (nbr t (s.d.getD t 0))) (n - 1), t⟩ := by
    unfold sjtStep
    rw [hFM s.lmi]
  rw [hD.dv, nbr_right] at hstep
  have hp2len : (listSwap s.p 0 t (t + 1)).length = n := by
    rw [listSwap_length, hplen]
  have hd2len : (listSwap s.d 0 t (t + 1)).length = n := by
    rw [listSwap_length, hdlen]
  have hp2 : ∀ x, x < n → (listSwap s.p 0 t (t + 1)).getD x 0 =
      if x = t + 1 then s.p.getD t 0 else if x = t then s.p.getD (t + 1) 0
      else s.p.getD x 0 := by
    intro x hx
    exact listSwap_getD s.p 0 t (t + 1) (by omega) (by omega) x (by omega)
  have hd2 : ∀ x, x < n → (listSwap s.d 0 t (t + 1)).getD x 0 =
      if x = t + 1 then s.d.getD t 0 else if x = t then s.d.getD (t + 1) 0
      else s.d.getD x 0 := by
    intro x hx
    exact listSwap_getD s.d 0 t (t + 1) (by omega) (by omega) x (by omega)
  have hp2le : ∀ x, x < n → (listSwap s.p 0 t (t + 1)).getD x 0 ≤ n - 1 := by
    intro x hx
    rw [hp2 x hx]
    have hvt := hD.pv
    have hv1 : s.p.getD (t + 1) 0 < n - 1 :=
      dec_val_lt n t RIGHT hD hW (by omega) (t + 1) (by omega) (by omega)
    by_cases h1 : x = t + 1
    · rw [if_pos h1]
      omega
    · rw [if_neg h1]
      by_cases h2 : x = t
      · rw [if_pos h2]
        omega
      · rw [if_neg h2]
        have := dec_val_lt n t RIGHT hD hW (by omega) x hx h2
        omega
  have hflip : flipDirs n (listSwap s.p 0 t (t + 1)) (listSwap s.d 0 t (t + 1))
      (n - 1) = listSwap s.d 0 t (t + 1) := by
    apply foldl_fix
    intro dd j hj
    obtain ⟨h1, h2⟩ := List.mem_range'_1.mp hj
    rw [if_neg]
    have := hp2le j (by omega)
    omega
  rw [hflip] at hstep
  refine ⟨hFM, ?_⟩
  refine ⟨by rw [hstep]; exact hp2len, by rw [hstep]; exact hd2len, ?_, ?_, ?_, ?_, ?_, ?_⟩
  · rw [hstep]
    show (listSwap s.p 0 t (t + 1)).getD (t + 1) 0 = n - 1
    rw [hp2 (t + 1) htn1, if_pos rfl, hD.pv]
  · rw [hstep]
    show (listSwap s.d 0 t (t + 1)).getD (t + 1) 0 = RIGHT
    rw [hd2 (t + 1) htn1, if_pos rfl, hD.dv]
  · intro i hi
    rw [hstep]
    show (listSwap s.p 0 t (t + 1)).getD i 0 = σ.p.getD i 0
    rw [hp2 i (by omega), if_neg (by omega)]
    by_cases hit : i = t
    · rw [if_pos hit]
      have h := hD.phi (t + 1) (by omega) (by omega)
      rw [h, show t + 1 - 1 = t from rfl, hit]
    · rw [if_neg hit]
      exact hD.plo i (by omega)
  · intro i hi1 hi2
    rw [hstep]
    show (listSwap s.p 0 t (t + 1)).getD i 0 = σ.p.getD (i - 1) 0
    rw [hp2 i hi2, if_neg (by omega), if_neg (by omega)]
    exact hD.phi i (by omega) hi2
  · intro i hi
    rw [hstep]
    show (listSwap s.d 0 t (t + 1)).getD i 0 = σ.d.getD i 0
    rw [hd2 i (by omega), if_neg (by omega)]
    by_cases hit : i = t
    · rw [if_pos hit]
      have h := hD.dhi (t + 1) (by omega) (by omega)
      rw [h, show t + 1 - 1 = t from rfl, hit]
    · rw [if_neg hit]
      exact hD.dlo i (by omega)
  · intro i hi1 hi2
    rw [hstep]
    show (listSwap s.d 0 t (t + 1)).getD i 0 = σ.d.getD (i - 1) 0
    rw [hd2 i hi2, if_neg (by omega), if_neg (by omega)]
    exact hD.dhi i (by omega) hi2

/-- Helper: with the largest value stuck at the right boundary, the full
scan coincides with the sub-machine scan (the boundary position is
guard-excluded and the interior positions carry the sub-state). -/
theorem stuck_right_fold (n : Nat) (hn : 4 ≤ n) {s σ : SJT}
    (hD : SJTDec n (n - 1) RIGHT s σ) (hW : SJTWf (n - 1) σ) :
    ∀ (acc : Nat × Nat),
      (List.range' 1 (n - 1)).foldl (mobileScan n s.p s.d) acc =
      (List.range' 1 (n - 2)).foldl (mobileScan (n - 1) σ.p σ.d) acc := by
  intro acc
  have hsplit : List.range' 1 (n - 1) = List.range' 1 (n - 2) ++ [n - 1] := by
    have h1 := List.range'_append 1 (n - 2) 1 1
    rw [show 1 + 1 * (n - 2) = n - 1 by omega] at h1
    rw [show 1 + (n - 2) = n - 1 by omega] at h1
    rw [← h1, List.range'_one]
  rw [hsplit, List.foldl_append, List.foldl_cons, List.foldl_nil]
  have hlast : ∀ acc2 : Nat × Nat, mobileScan n s.p s.d acc2 (n - 1) = acc2 := by
    intro acc2
    unfold mobileScan
    rw [if_neg]
    rintro ⟨_, h2⟩
    exact h2 ⟨rfl, hD.dv⟩
  rw [hlast]
  apply foldl_ext_mem
  intro acc2 j hj
  obtain ⟨hj1, hj2⟩ := List.mem_range'_1.mp hj
  have hpj : s.p.getD j 0 = σ.p.getD j 0 := hD.plo j (by omega)
  have hdj : s.d.getD j 0 = σ.d.getD j 0 := hD.dlo j (by omega)
  unfold mobileScan
  rw [hpj, hdj]
  by_cases hA : j = 1 ∧ σ.d.getD j 0 = LEFT
  · have hf : ¬(¬(j = 1 ∧ σ.d.getD j 0 = LEFT) ∧
        ¬(j = n - 1 ∧ σ.d.getD j 0 = RIGHT)) := fun hc => hc.1 hA
    have hs : ¬(¬(j = 1 ∧ σ.d.getD j 0 = LEFT) ∧
        ¬(j = n - 1 - 1 ∧ σ.d.getD j 0 = RIGHT)) := fun hc => hc.1 hA
    rw [if_neg hf, if_neg hs]
  · by_cases hB : j = n - 1 - 1 ∧ σ.d.getD j 0 = RIGHT
    · have hs : ¬(¬(j = 1 ∧ σ.d.getD j 0 = LEFT) ∧
          ¬(j = n - 1 - 1 ∧ σ.d.getD j 0 = RIGHT)) := fun hc => hc.2 hB
      have hfull : ¬(j = 1 ∧ σ.d.getD j 0 = LEFT) ∧
          ¬(j = n - 1 ∧ σ.d.getD j 0 = RIGHT) := by
        refine ⟨hA, ?_⟩
        rintro ⟨h1, _⟩
        omega
      rw [if_pos hfull, if_neg hs]
      rw [if_neg]
      rintro ⟨h1, _⟩
      have hval : s.p.getD (nbr j (σ.d.getD j 0)) 0 = n - 1 := by
        rw [hB.2, nbr_right, show j + 1 = n - 1 by omega, hD.pv]
      rw [hval] at h1
      have := hW.vals j (by omega)
      omega
    · have hfg : ¬(j = 1 ∧ σ.d.getD j 0 = LEFT) ∧
          ¬(j = n - 1 ∧ σ.d.getD j 0 = RIGHT) := by
        refine ⟨hA, ?_⟩
        rintro ⟨h1, _⟩
        omega
      have hsg : ¬(j = 1 ∧ σ.d.getD j 0 = LEFT) ∧
          ¬(j = n - 1 - 1 ∧ σ.d.getD j 0 = RIGHT) := ⟨hA, hB⟩
      rw [if_pos hfg, if_pos hsg]
      have htgt : nbr j (σ.d.getD j 0) < n - 1 := by
        rcases hW.dpm j (by omega) with h | h
        · rw [h, nbr_left]
          omega
        · rw [h, nbr_right]
          have h2 : ¬(j = n - 1 - 1) := fun hc => hB ⟨hc, h⟩
          omega
      rw [hD.plo (nbr j (σ.d.getD j 0)) htgt]

/-- Helper: with the largest value stuck RIGHT at the right boundary, one
`sjtStep` of the full machine performs one `sjtStep` of the sub-machine and
flips the largest value to LEFT, in place. -/
theorem sjt_step_stuck_right (n : Nat) (hn : 4 ≤ n) {s σ : SJT}
    (hD : SJTDec n (n - 1) RIGHT s σ) (hW : SJTWf (n - 1) σ)
    (hM : HasMobile (n - 1) σ) :
    (∀ a, 0 < (findMobile n s.p s.d a).1) ∧
    SJTDec n (n - 1) LEFT (sjtStep n s) (sjtStep (n - 1) σ) := by
  have hfold := stuck_right_fold n hn hD hW
  have hpos : ∀ a, 0 < (findMobile n s.p s.d a).1 := by
    intro a
    have h1 : findMobile n s.p s.d a = findMobile (n - 1) σ.p σ.d a := hfold (0, a)
    rw [h1]
    exact hM a
  refine ⟨hpos, ?_⟩
  obtain ⟨hi1, hi2, hival, himob, hidir⟩ := mobile_bounds (n - 1) hW σ.lmi (hM σ.lmi)
  set iv := (findMobile (n - 1) σ.p σ.d σ.lmi).2 with hiv
  set mv := (findMobile (n - 1) σ.p σ.d σ.lmi).1 with hmv
  set tv := nbr iv (σ.d.getD iv 0) with htv_def
  have htv : 1 ≤ tv ∧ tv ≤ n - 2 ∧ tv ≠ iv := by
    rcases hidir with ⟨hdl, hge⟩ | ⟨hdr, hle⟩
    · rw [htv_def, hdl, nbr_left]
      omega
    · rw [htv_def, hdr, nbr_right]
      omega
  have hFMsub : findMobile (n - 1) σ.p σ.d σ.lmi = (mv, iv) := Prod.mk.eta.symm
  have hFMfull : findMobile n s.p s.d s.lmi = (mv, iv) := by
    have h1 : findMobile n s.p s.d s.lmi = findMobile (n - 1) σ.p σ.d s.lmi :=
      hfold (0, s.lmi)
    rw [h1, findMobile_indep (n - 1) σ.p σ.d s.lmi σ.lmi (hM s.lmi), hFMsub]
  have hdiv : s.d.getD iv 0 = σ.d.getD iv 0 := hD.dlo iv (by omega)
  have hstep : sjtStep n s =
      ⟨listSwap s.p 0 iv (nbr iv (s.d.getD iv 0)),
       flipDirs n (listSwap s.p 0 iv (nbr iv (s.d.getD iv 0)))
         (listSwap s.d 0 iv (nbr iv (s.d.getD iv 0))) mv, iv⟩ := by
    unfold sjtStep
    rw [hFMfull]
  rw [hdiv, ← htv_def] at hstep
  have hsubstep : sjtStep (n - 1) σ =
      ⟨listSwap σ.p 0 iv (nbr iv (σ.d.getD iv 0)),
       flipDirs (n - 1) (listSwap σ.p 0 iv (nbr iv (σ.d.getD iv 0)))
         (listSwap σ.d 0 iv (nbr iv (σ.d.getD iv 0))) mv, iv⟩ := by
    unfold sjtStep
    rw [hFMsub]
  rw [← htv_def] at hsubstep
  have hplen := hD.plen
  have hdlen := hD.dlen
  have hsplen := hW.plen
  have hsdlen := hW.dlen
  have hp2 : ∀ x, x < n → (listSwap s.p 0 iv tv).getD x 0 =
      if x = tv then s.p.getD iv 0 else if x = iv then s.p.getD tv 0
      else s.p.getD x 0 :=
    fun x hx => listSwap_getD s.p 0 iv tv (by omega) (by omega) x (by omega)
  have hd2 : ∀ x, x < n → (listSwap s.d 0 iv tv).getD x 0 =
      if x = tv then s.d.getD iv 0 else if x = iv then s.d.getD tv 0
      else s.d.getD x 0 :=
    fun x hx => listSwap_getD s.d 0 iv tv (by omega) (by omega) x (by omega)
  have hp2s : ∀ x, x < n - 1 → (listSwap σ.p 0 iv tv).getD x 0 =
      if x = tv then σ.p.getD iv 0 else if x = iv then σ.p.getD tv 0
      else σ.p.getD x 0 :=
    fun x hx => listSwap_getD σ.p 0 iv tv (by omega) (by omega) x (by omega)
  have hd2s : ∀ x, x < n - 1 → (listSwap σ.d 0 iv tv).getD x 0 =
      if x = tv then σ.d.getD iv 0 else if x = iv then σ.d.getD tv 0
      else σ.d.getD x 0 :=
    fun x hx => listSwap_getD σ.d 0 iv tv (by omega) (by omega) x (by omega)
  have hp2eq : ∀ x, x < n - 1 →
      (listSwap s.p 0 iv tv).getD x 0 = (listSwap σ.p 0 iv tv).getD x 0 := by
    intro x hx
    rw [hp2 x (by omega), hp2s x hx]
    by_cases h1 : x = tv
    · rw [if_pos h1, if_pos h1]
      exact hD.plo iv (by omega)
    · rw [if_neg h1, if_neg h1]
      by_cases h2 : x = iv
      · rw [if_pos h2, if_pos h2]
        exact hD.plo tv (by omega)
      · rw [if_neg h2, if_neg h2]
        exact hD.plo x (by omega)
  have hd2eq : ∀ x, x < n - 1 →
      (listSwap s.d 0 iv tv).getD x 0 = (listSwap σ.d 0 iv tv).getD x 0 := by
    intro x hx
    rw [hd2 x (by omega), hd2s x hx]
    by_cases h1 : x = tv
    · rw [if_pos h1, if_pos h1]
      exact hD.dlo iv (by omega)
    · rw [if_neg h1, if_neg h1]
      by_cases h2 : x = iv
      · rw [if_pos h2, if_pos h2]
        exact hD.dlo tv (by omega)
      · rw [if_neg h2, if_neg h2]
        exact hD.dlo x (by omega)
  have hp2top : (listSwap s.p 0 iv tv).getD (n - 1) 0 = n - 1 := by
    rw [hp2 (n - 1) (by omega), if_neg (by omega), if_neg (by omega)]
    exact hD.pv
  have hd2top : (listSwap s.d 0 iv tv).getD (n - 1) 0 = RIGHT := by
    rw [hd2 (n - 1) (by omega), if_neg (by omega), if_neg (by omega)]
    exact hD.dv
  have hmvlt : mv < n - 1 := by
    rw [hival]
    exact hW.vals iv (by omega)
  have hp2len : (listSwap s.p 0 iv tv).length = n := by
    rw [listSwap_length, hplen]
  have hd2len : (listSwap s.d 0 iv tv).length = n := by
    rw [listSwap_length, hdlen]
  have hp2slen : (listSwap σ.p 0 iv tv).length = n - 1 := by
    rw [listSwap_length, hsplen]
  have hd2slen : (listSwap σ.d 0 iv tv).length = n - 1 := by
    rw [listSwap_length, hsdlen]
  have hflipfull : ∀ x, x < n →
      (flipDirs n (listSwap s.p 0 iv tv) (listSwap s.d 0 iv tv) mv).getD x 0 =
      if x ∈ List.range' 1 (n - 1) ∧ (listSwap s.p 0 iv tv).getD x 0 > mv then
        (if (listSwap s.d 0 iv tv).getD x 0 = LEFT then RIGHT else LEFT)
      else (listSwap s.d 0 iv tv).getD x 0 := by
    intro x hx
    exact flipFold_getD (listSwap s.p 0 iv tv) mv (List.range' 1 (n - 1))
      (List.nodup_range' 1 (n - 1))
      (listSwap s.d 0 iv tv)
      (fun j hj => by
        obtain ⟨h1, h2⟩ := List.mem_range'_1.mp hj
        omega)
      x (by omega)
  have hflipsub : ∀ x, x < n - 1 →
      (flipDirs (n - 1) (listSwap σ.p 0 iv tv) (listSwap σ.d 0 iv tv) mv).getD x 0 =
      if x ∈ List.range' 1 (n - 1 - 1) ∧ (listSwap σ.p 0 iv tv).getD x 0 > mv then
        (if (listSwap σ.d 0 iv tv).getD x 0 = LEFT then RIGHT else LEFT)
      else (listSwap σ.d 0 iv tv).getD x 0 := by
    intro x hx
    exact flipFold_getD (listSwap σ.p 0 iv tv) mv (List.range' 1 (n - 1 - 1))
      (List.nodup_range' 1 (n - 1 - 1))
      (listSwap σ.d 0 iv tv)
      (fun j hj => by
        obtain ⟨h1, h2⟩ := List.mem_range'_1.mp hj
        omega)
      x (by omega)
  have hfliplen : (flipDirs n (listSwap s.p 0 iv tv) (listSwap s.d 0 iv tv)
      mv).length = n := by
    rw [flipDirs_length, hd2len]
  have hflipslen : (flipDirs (n - 1) (listSwap σ.p 0 iv tv)
      (listSwap σ.d 0 iv tv) mv).length = n - 1 := by
    rw [flipDirs_length, hd2slen]
  refine ⟨by rw [hstep]; exact hp2len, by rw [hstep]; exact hfliplen, ?_, ?_, ?_, ?_, ?_, ?_⟩
  · rw [hstep]
    show (listSwap s.p 0 iv tv).getD (n - 1) 0 = n - 1
    exact hp2top
  · rw [hstep]
    show (flipDirs n (listSwap s.p 0 iv tv) (listSwap s.d 0 iv tv) mv).getD
      (n - 1) 0 = LEFT
    rw [hflipfull (n - 1) (by omega)]
    have hc : (n - 1) ∈ List.range' 1 (n - 1) ∧
        (listSwap s.p 0 iv tv).getD (n - 1) 0 > mv := by
      refine ⟨List.mem_range'_1.mpr (by omega), ?_⟩
      rw [hp2top]
      omega
    rw [if_pos hc, hd2top]
    rw [if_neg (fun hc2 => left_ne_right hc2.symm)]
  · intro i hi
    rw [hstep, hsubstep]
    show (listSwap s.p 0 iv tv).getD i 0 = (listSwap σ.p 0 iv tv).getD i 0
    exact hp2eq i hi
  · intro i hi1 hi2
    omega
  · intro i hi
    rw [hstep, hsubstep]
    show (flipDirs n (listSwap s.p 0 iv tv) (listSwap s.d 0 iv tv) mv).getD i 0 =
      (flipDirs (n - 1) (listSwap σ.p 0 iv tv) (listSwap σ.d 0 iv tv) mv).getD i 0
    rw [hflipfull i (by omega), hflipsub i hi]
    by_cases hmem : 1 ≤ i
    · have hmf : i ∈ List.range' 1 (n - 1) := List.mem_range'_1.mpr (by omega)
      have hms : i ∈ List.range' 1 (n - 1 - 1) := List.mem_range'_1.mpr (by omega)
      rw [hp2eq i hi, hd2eq i hi]
      by_cases hcond : (listSwap σ.p 0 iv tv).getD i 0 > mv
      · have hc1 : i ∈ List.range' 1 (n - 1) ∧
            (listSwap σ.p 0 iv tv).getD i 0 > mv := ⟨hmf, hcond⟩
        have hc2 : i ∈ List.range' 1 (n - 1 - 1) ∧
            (listSwap σ.p 0 iv tv).getD i 0 > mv := ⟨hms, hcond⟩
        rw [if_pos hc1, if_pos hc2]
      · rw [if_neg (fun hc => hcond hc.2), if_neg (fun hc => hcond hc.2)]
    · have hmf : i ∉ List.range' 1 (n - 1) := by
        intro hc
        obtain ⟨h1, _⟩ := List.mem_range'_1.mp hc
        omega
      have hms : i ∉ List.range' 1 (n - 1 - 1) := by
        intro hc
        obtain ⟨h1, _⟩ := List.mem_range'_1.mp hc
        omega
      rw [if_neg (fun hc => hmf hc.1), if_neg (fun hc => hms hc.1)]
      exact hd2eq i hi
  · intro i hi1 hi2
    omega

/-- Helper: with the largest value stuck at the left boundary, the scan of
positions `2, …` mirrors the sub-machine scan of `1, …` with all found
indices shifted up by one. -/
theorem stuck_left_fold (n : Nat) (hn : 4 ≤ n) {s σ : SJT}
    (hD : SJTDec n 1 LEFT s σ) (hW : SJTWf (n - 1) σ) :
    ∀ (L : List Nat), (∀ j ∈ L, 1 ≤ j ∧ j ≤ n - 2) →
      ∀ (accF accS : Nat × Nat), accF.1 = accS.1 →
      (0 < accF.1 → accF.2 = accS.2 + 1) →
      ((L.map (fun x => x + 1)).foldl (mobileScan n s.p s.d) accF).1 =
        (L.foldl (mobileScan (n - 1) σ.p σ.d) accS).1 ∧
      (0 < ((L.map (fun x => x + 1)).foldl (mobileScan n s.p s.d) accF).1 →
        ((L.map (fun x => x + 1)).foldl (mobileScan n s.p s.d) accF).2 =
          (L.foldl (mobileScan (n - 1) σ.p σ.d) accS).2 + 1) := by
  intro L
  induction L with
  | nil =>
    intro _ accF accS h1 h2
    exact ⟨h1, h2⟩
  | cons j rest ih =>
    intro hjb accF accS h1 h2
    obtain ⟨hj1, hj2⟩ := hjb j (by simp)
    rw [List.map_cons, List.foldl_cons, List.foldl_cons]
    have hpj : s.p.getD (j + 1) 0 = σ.p.getD j 0 := by
      have h := hD.phi (j + 1) (by omega) (by omega)
      simpa using h
    have hdj : s.d.getD (j + 1) 0 = σ.d.getD j 0 := by
      have h := hD.dhi (j + 1) (by omega) (by omega)
      simpa using h
    have hstep : (mobileScan n s.p s.d accF (j + 1)).1 =
        (mobileScan (n - 1) σ.p σ.d accS j).1 ∧
        (0 < (mobileScan n s.p s.d accF (j + 1)).1 →
          (mobileScan n s.p s.d accF (j + 1)).2 =
            (mobileScan (n - 1) σ.p σ.d accS j).2 + 1) := by
      unfold mobileScan
      rw [hpj, hdj]
      by_cases hAs : j = 1 ∧ σ.d.getD j 0 = LEFT
      · have hsg : ¬(¬(j = 1 ∧ σ.d.getD j 0 = LEFT) ∧
            ¬(j = n - 1 - 1 ∧ σ.d.getD j 0 = RIGHT)) := fun hc => hc.1 hAs
        have hfg : ¬(j + 1 = 1 ∧ σ.d.getD j 0 = LEFT) ∧
            ¬(j + 1 = n - 1 ∧ σ.d.getD j 0 = RIGHT) := by
          constructor
          · rintro ⟨hc, _⟩
            omega
          · rintro ⟨_, hc⟩
            rw [hAs.2] at hc
            exact left_ne_right hc
        rw [if_pos hfg, if_neg hsg]
        have hread : s.p.getD (nbr (j + 1) (σ.d.getD j 0)) 0 = n - 1 := by
          rw [hAs.2, nbr_left, show j + 1 - 1 = 1 by omega, hD.pv]
        rw [if_neg]
        · exact ⟨h1, h2⟩
        · rintro ⟨hc, _⟩
          rw [hread] at hc
          have := hW.vals j (by omega)
          omega
      · by_cases hBs : j = n - 1 - 1 ∧ σ.d.getD j 0 = RIGHT
        · have hsg : ¬(¬(j = 1 ∧ σ.d.getD j 0 = LEFT) ∧
              ¬(j = n - 1 - 1 ∧ σ.d.getD j 0 = RIGHT)) := fun hc => hc.2 hBs
          have hfg : ¬(¬(j + 1 = 1 ∧ σ.d.getD j 0 = LEFT) ∧
              ¬(j + 1 = n - 1 ∧ σ.d.getD j 0 = RIGHT)) := by
            rintro ⟨_, hc⟩
            exact hc ⟨by omega, hBs.2⟩
          rw [if_neg hfg, if_neg hsg]
          exact ⟨h1, h2⟩
        · have hsg : ¬(j = 1 ∧ σ.d.getD j 0 = LEFT) ∧
              ¬(j = n - 1 - 1 ∧ σ.d.getD j 0 = RIGHT) := ⟨hAs, hBs⟩
          have hfg : ¬(j + 1 = 1 ∧ σ.d.getD j 0 = LEFT) ∧
              ¬(j + 1 = n - 1 ∧ σ.d.getD j 0 = RIGHT) := by
            constructor
            · rintro ⟨hc, _⟩
              omega
            · rintro ⟨hc1, hc2⟩
              exact hBs ⟨by omega, hc2⟩
          rw [if_pos hfg, if_pos hsg]
          have hnbr : s.p.getD (nbr (j + 1) (σ.d.getD j 0)) 0 =
              σ.p.getD (nbr j (σ.d.getD j 0)) 0 := by
            rcases hW.dpm j (by omega) with h | h
            · rw [h, nbr_left, nbr_left]
              have hjge : 2 ≤ j := by
                rcases Nat.lt_or_ge j 2 with h2 | h2
                · exfalso
                  exact hAs ⟨by omega, h⟩
                · exact h2
              rw [show j + 1 - 1 = j by omega]
              exact hD.phi j (by omega) (by omega)
            · rw [h, nbr_right, nbr_right]
              have hjle : j ≤ n - 3 := by
                rcases Nat.lt_or_ge (n - 3) j with h2 | h2
                · exfalso
                  exact hBs ⟨by omega, h⟩
                · exact h2
              have hh := hD.phi (j + 1 + 1) (by omega) (by omega)
              simpa using hh
          rw [hnbr, h1]
          by_cases hfire : σ.p.getD j 0 > σ.p.getD (nbr j (σ.d.getD j 0)) 0 ∧
              σ.p.getD j 0 > accS.1
          · rw [if_pos hfire, if_pos hfire]
            refine ⟨rfl, fun _ => rfl⟩
          · rw [if_neg hfire, if_neg hfire]
            exact ⟨h1, h2⟩
    exact ih (fun j2 hj2 => hjb j2 (by simp [hj2])) _ _ hstep.1 hstep.2

/-- Helper: with the largest value stuck LEFT at the left boundary, one
`sjtStep` of the full machine performs one `sjtStep` of the sub-machine
(with positions shifted up by one) and flips the largest value to RIGHT,
in place. -/
theorem sjt_step_stuck_left (n : Nat) (hn : 4 ≤ n) {s σ : SJT}
    (hD : SJTDec n 1 LEFT s σ) (hW : SJTWf (n - 1) σ)
    (hM : HasMobile (n - 1) σ) :
    (∀ a, 0 < (findMobile n s.p s.d a).1) ∧
    SJTDec n 1 RIGHT (sjtStep n s) (sjtStep (n - 1) σ) := by
  have hsplit : List.range' 1 (n - 1) = 1 :: List.range' 2 (n - 2) := by
    have h := List.range'_succ 1 (n - 2) 1
    rw [show (n - 2) + 1 = n - 1 by omega] at h
    exact h
  have hmap : List.range' 2 (n - 2) =
      (List.range' 1 (n - 2)).map (fun x => x + 1) := by
    rw [List.range'_eq_map_range 1 (n - 2), List.range'_eq_map_range 2 (n - 2),
      List.map_map]
    apply List.map_congr_left
    intro a _
    show 2 + a = 1 + a + 1
    omega
  have hfirst : ∀ acc : Nat × Nat, mobileScan n s.p s.d acc 1 = acc := by
    intro acc
    unfold mobileScan
    rw [if_neg]
    rintro ⟨hc, _⟩
    exact hc ⟨rfl, hD.dv⟩
  have hsubfm : ∀ a, findMobile (n - 1) σ.p σ.d a =
      (List.range' 1 (n - 2)).foldl (mobileScan (n - 1) σ.p σ.d) (0, a) := by
    intro a
    show (List.range' 1 (n - 1 - 1)).foldl _ _ = _
    rw [show n - 1 - 1 = n - 2 by omega]
  have hfold : ∀ a, (findMobile n s.p s.d a).1 = (findMobile (n - 1) σ.p σ.d a).1 ∧
      (0 < (findMobile n s.p s.d a).1 →
        (findMobile n s.p s.d a).2 = (findMobile (n - 1) σ.p σ.d a).2 + 1) := by
    intro a
    have h1 : findMobile n s.p s.d a =
        (List.range' 2 (n - 2)).foldl (mobileScan n s.p s.d) (0, a) := by
      show (List.range' 1 (n - 1)).foldl (mobileScan n s.p s.d) (0, a) = _
      rw [hsplit, List.foldl_cons, hfirst]
    rw [h1, hmap, hsubfm a]
    exact stuck_left_fold n hn hD hW (List.range' 1 (n - 2))
      (fun j hj => by
        obtain ⟨ha, hb⟩ := List.mem_range'_1.mp hj
        omega)
      (0, a) (0, a) rfl (fun hc => absurd hc (lt_irrefl 0))
  have hpos : ∀ a, 0 < (findMobile n s.p s.d a).1 := by
    intro a
    rw [(hfold a).1]
    exact hM a
  refine ⟨hpos, ?_⟩
  obtain ⟨hi1, hi2, hival, himob, hidir⟩ := mobile_bounds (n - 1) hW σ.lmi (hM σ.lmi)
  set iv := (findMobile (n - 1) σ.p σ.d σ.lmi).2 with hiv
  set mv := (findMobile (n - 1) σ.p σ.d σ.lmi).1 with hmv
  set tv := nbr iv (σ.d.getD iv 0) with htv_def
  have htv : 1 ≤ tv ∧ tv ≤ n - 2 ∧ tv ≠ iv := by
    rcases hidir with ⟨hdl, hge⟩ | ⟨hdr, hle⟩
    · rw [htv_def, hdl, nbr_left]
      omega
    · rw [htv_def, hdr, nbr_right]
      omega
  have hFMsub : findMobile (n - 1) σ.p σ.d σ.lmi = (mv, iv) := Prod.mk.eta.symm
  have hindep : findMobile (n - 1) σ.p σ.d s.lmi = (mv, iv) := by
    rw [findMobile_indep (n - 1) σ.p σ.d s.lmi σ.lmi (hM s.lmi), hFMsub]
  have hFMfull : findMobile n s.p s.d s.lmi = (mv, iv + 1) := by
    have h1 := (hfold s.lmi).1
    have h2 := (hfold s.lmi).2 (hpos s.lmi)
    rw [hindep] at h1 h2
    have h3 : (findMobile n s.p s.d s.lmi).1 = mv := h1
    have h4 : (findMobile n s.p s.d s.lmi).2 = iv + 1 := h2
    rw [← h3, ← h4]
  have hdiv : s.d.getD (iv + 1) 0 = σ.d.getD iv 0 := by
    have h := hD.dhi (iv + 1) (by omega) (by omega)
    simpa using h
  have htvf : nbr (iv + 1) (σ.d.getD iv 0) = tv + 1 := by
    rcases hidir with ⟨hdl, hge⟩ | ⟨hdr, hle⟩
    · rw [htv_def, hdl, nbr_left, nbr_left]
      omega
    · rw [htv_def, hdr, nbr_right, nbr_right]
  have hstep : sjtStep n s =
      ⟨listSwap s.p 0 (iv + 1) (nbr (iv + 1) (s.d.getD (iv + 1) 0)),
       flipDirs n (listSwap s.p 0 (iv + 1) (nbr (iv + 1) (s.d.getD (iv + 1) 0)))
         (listSwap s.d 0 (iv + 1) (nbr (iv + 1) (s.d.getD (iv + 1) 0))) mv,
       iv + 1⟩ := by
    unfold sjtStep
    rw [hFMfull]
  rw [hdiv, htvf] at hstep
  have hsubstep : sjtStep (n - 1) σ =
      ⟨listSwap σ.p 0 iv (nbr iv (σ.d.getD iv 0)),
       flipDirs (n - 1) (listSwap σ.p 0 iv (nbr iv (σ.d.getD iv 0)))
         (listSwap σ.d 0 iv (nbr iv (σ.d.getD iv 0))) mv, iv⟩ := by
    unfold sjtStep
    rw [hFMsub]
  rw [← htv_def] at hsubstep
  have hplen := hD.plen
  have hdlen := hD.dlen
  have hsplen := hW.plen
  have hsdlen := hW.dlen
  have hp2 : ∀ x, x < n → (listSwap s.p 0 (iv + 1) (tv + 1)).getD x 0 =
      if x = tv + 1 then s.p.getD (iv + 1) 0
      else if x = iv + 1 then s.p.getD (tv + 1) 0
      else s.p.getD x 0 :=
    fun x hx => listSwap_getD s.p 0 (iv + 1) (tv + 1) (by omega) (by omega) x (by omega)
  have hd2 : ∀ x, x < n → (listSwap s.d 0 (iv + 1) (tv + 1)).getD x 0 =
      if x = tv + 1 then s.d.getD (iv + 1) 0
      else if x = iv + 1 then s.d.getD (tv + 1) 0
      else s.d.getD x 0 :=
    fun x hx => listSwap_getD s.d 0 (iv + 1) (tv + 1) (by omega) (by omega) x (by omega)
  have hp2s : ∀ x, x < n - 1 → (listSwap σ.p 0 iv tv).getD x 0 =
      if x = tv then σ.p.getD iv 0 else if x = iv then σ.p.getD tv 0
      else σ.p.getD x 0 :=
    fun x hx => listSwap_getD σ.p 0 iv tv (by omega) (by omega) x (by omega)
  have hd2s : ∀ x, x < n - 1 → (listSwap σ.d 0 iv tv).getD x 0 =
      if x = tv then σ.d.getD iv 0 else if x = iv then σ.d.getD tv 0
      else σ.d.getD x 0 :=
    fun x hx => listSwap_getD σ.d 0 iv tv (by omega) (by omega) x (by omega)
  have hpshift : ∀ i, 1 ≤ i → i < n - 1 → s.p.getD (i + 1) 0 = σ.p.getD i 0 := by
    intro i h1 h2
    have h := hD.phi (i + 1) (by omega) (by omega)
    simpa using h
  have hdshift : ∀ i, 1 ≤ i → i < n - 1 → s.d.getD (i + 1) 0 = σ.d.getD i 0 := by
    intro i h1 h2
    have h := hD.dhi (i + 1) (by omega) (by omega)
    simpa using h
  have hp2shift : ∀ i, 1 < i → i < n →
      (listSwap s.p 0 (iv + 1) (tv + 1)).getD i 0 =
      (listSwap σ.p 0 iv tv).getD (i - 1) 0 := by
    intro i h1 h2
    rw [hp2 i h2, hp2s (i - 1) (by omega)]
    by_cases hc1 : i = tv + 1
    · have hc1' : i - 1 = tv := by omega
      rw [if_pos hc1, if_pos hc1']
      exact hpshift iv (by omega) (by omega)
    · have hc1' : ¬(i - 1 = tv) := by omega
      rw [if_neg hc1, if_neg hc1']
      by_cases hc2 : i = iv + 1
      · have hc2' : i - 1 = iv := by omega
        rw [if_pos hc2, if_pos hc2']
        exact hpshift tv (by omega) (by omega)
      · have hc2' : ¬(i - 1 = iv) := by omega
        rw [if_neg hc2, if_neg hc2']
        have h := hpshift (i - 1) (by omega) (by omega)
        rw [show i - 1 + 1 = i by omega] at h
        exact h
  have hd2shift : ∀ i, 1 < i → i < n →
      (listSwap s.d 0 (iv + 1) (tv + 1)).getD i 0 =
      (listSwap σ.d 0 iv tv).getD (i - 1) 0 := by
    intro i h1 h2
    rw [hd2 i h2, hd2s (i - 1) (by omega)]
    by_cases hc1 : i = tv + 1
    · have hc1' : i - 1 = tv := by omega
      rw [if_pos hc1, if_pos hc1']
      exact hdshift iv (by omega) (by omega)
    · have hc1' : ¬(i - 1 = tv) := by omega
      rw [if_neg hc1, if_neg hc1']
      by_cases hc2 : i = iv + 1
      · have hc2' : i - 1 = iv := by omega
        rw [if_pos hc2, if_pos hc2']
        exact hdshift tv (by omega) (by omega)
      · have hc2' : ¬(i - 1 = iv) := by omega
        rw [if_neg hc2, if_neg hc2']
        have h := hdshift (i - 1) (by omega) (by omega)
        rw [show i - 1 + 1 = i by omega] at h
        exact h
  have hp2one : (listSwap s.p 0 (iv + 1) (tv + 1)).getD 1 0 = n - 1 := by
    rw [hp2 1 (by omega), if_neg (by omega), if_neg (by omega)]
    exact hD.pv
  have hd2one : (listSwap s.d 0 (iv + 1) (tv + 1)).getD 1 0 = LEFT := by
    rw [hd2 1 (by omega), if_neg (by omega), if_neg (by omega)]
    exact hD.dv
  have hp2zero : (listSwap s.p 0 (iv + 1) (tv + 1)).getD 0 0 =
      (listSwap σ.p 0 iv tv).getD 0 0 := by
    rw [hp2 0 (by omega), if_neg (by omega), if_neg (by omega),
      hp2s 0 (by omega), if_neg (by omega), if_neg (by omega)]
    exact hD.plo 0 (by omega)
  have hd2zero : (listSwap s.d 0 (iv + 1) (tv + 1)).getD 0 0 =
      (listSwap σ.d 0 iv tv).getD 0 0 := by
    rw [hd2 0 (by omega), if_neg (by omega), if_neg (by omega),
      hd2s 0 (by omega), if_neg (by omega), if_neg (by omega)]
    exact hD.dlo 0 (by omega)
  have hmvlt : mv < n - 1 := by
    rw [hival]
    exact hW.vals iv (by omega)
  have hp2len : (listSwap s.p 0 (iv + 1) (tv + 1)).length = n := by
    rw [listSwap_length, hplen]
  have hd2len : (listSwap s.d 0 (iv + 1) (tv + 1)).length = n := by
    rw [listSwap_length, hdlen]
  have hflipfull : ∀ x, x < n →
      (flipDirs n (listSwap s.p 0 (iv + 1) (tv + 1))
        (listSwap s.d 0 (iv + 1) (tv + 1)) mv).getD x 0 =
      if x ∈ List.range' 1 (n - 1) ∧
          (listSwap s.p 0 (iv + 1) (tv + 1)).getD x 0 > mv then
        (if (listSwap s.d 0 (iv + 1) (tv + 1)).getD x 0 = LEFT then RIGHT else LEFT)
      else (listSwap s.d 0 (iv + 1) (tv + 1)).getD x 0 := by
    intro x hx
    exact flipFold_getD (listSwap s.p 0 (iv + 1) (tv + 1)) mv
      (List.range' 1 (n - 1)) (List.nodup_range' 1 (n - 1))
      (listSwap s.d 0 (iv + 1) (tv + 1))
      (fun j hj => by
        obtain ⟨h1, h2⟩ := List.mem_range'_1.mp hj
        omega)
      x (by omega)
  have hd2slen : (listSwap σ.d 0 iv tv).length = n - 1 := by
    rw [listSwap_length, hsdlen]
  have hflipsub : ∀ x, x < n - 1 →
      (flipDirs (n - 1) (listSwap σ.p 0 iv tv) (listSwap σ.d 0 iv tv) mv).getD x 0 =
      if x ∈ List.range' 1 (n - 1 - 1) ∧ (listSwap σ.p 0 iv tv).getD x 0 > mv then
        (if (listSwap σ.d 0 iv tv).getD x 0 = LEFT then RIGHT else LEFT)
      else (listSwap σ.d 0 iv tv).getD x 0 := by
    intro x hx
    exact flipFold_getD (listSwap σ.p 0 iv tv) mv (List.range' 1 (n - 1 - 1))
      (List.nodup_range' 1 (n - 1 - 1))
      (listSwap σ.d 0 iv tv)
      (fun j hj => by
        obtain ⟨h1, h2⟩ := List.mem_range'_1.mp hj
        omega)
      x (by omega)
  have hfliplen : (flipDirs n (listSwap s.p 0 (iv + 1) (tv + 1))
      (listSwap s.d 0 (iv + 1) (tv + 1)) mv).length = n := by
    rw [flipDirs_length, hd2len]
  refine ⟨by rw [hstep]; exact hp2len, by rw [hstep]; exact hfliplen, ?_, ?_, ?_, ?_, ?_, ?_⟩
  · rw [hstep]
    show (listSwap s.p 0 (iv + 1) (tv + 1)).getD 1 0 = n - 1
    exact hp2one
  · rw [hstep]
    show (flipDirs n (listSwap s.p 0 (iv + 1) (tv + 1))
      (listSwap s.d 0 (iv + 1) (tv + 1)) mv).getD 1 0 = RIGHT
    rw [hflipfull 1 (by omega)]
    have hc : (1 : Nat) ∈ List.range' 1 (n - 1) ∧
        (listSwap s.p 0 (iv + 1) (tv + 1)).getD 1 0 > mv := by
      refine ⟨List.mem_range'_1.mpr (by omega), ?_⟩
      rw [hp2one]
      omega
    rw [if_pos hc, hd2one, if_pos rfl]
  · intro i hi
    have hi0 : i = 0 := by omega
    rw [hstep, hsubstep, hi0]
    show (listSwap s.p 0 (iv + 1) (tv + 1)).getD 0 0 =
      (listSwap σ.p 0 iv tv).getD 0 0
    exact hp2zero
  · intro i hi1 hi2
    rw [hstep, hsubstep]
    show (listSwap s.p 0 (iv + 1) (tv + 1)).getD i 0 =
      (listSwap σ.p 0 iv tv).getD (i - 1) 0
    exact hp2shift i hi1 hi2
  · intro i hi
    have hi0 : i = 0 := by omega
    rw [hstep, hsubstep, hi0]
    show (flipDirs n (listSwap s.p 0 (iv + 1) (tv + 1))
        (listSwap s.d 0 (iv + 1) (tv + 1)) mv).getD 0 0 =
      (flipDirs (n - 1) (listSwap σ.p 0 iv tv) (listSwap σ.d 0 iv tv) mv).getD 0 0
    rw [hflipfull 0 (by omega), hflipsub 0 (by omega)]
    have hm1 : (0 : Nat) ∉ List.range' 1 (n - 1) := by
      intro hc
      obtain ⟨h1, _⟩ := List.mem_range'_1.mp hc
      omega
    have hm2 : (0 : Nat) ∉ List.range' 1 (n - 1 - 1) := by
      intro hc
      obtain ⟨h1, _⟩ := List.mem_range'_1.mp hc
      omega
    rw [if_neg (fun hc => hm1 hc.1), if_neg (fun hc => hm2 hc.1)]
    exact hd2zero
  · intro i hi1 hi2
    rw [hstep, hsubstep]
    show (flipDirs n (listSwap s.p 0 (iv + 1) (tv + 1))
        (listSwap s.d 0 (iv + 1) (tv + 1)) mv).getD i 0 =
      (flipDirs (n - 1) (listSwap σ.p 0 iv tv) (listSwap σ.d 0 iv tv) mv).getD
        (i - 1) 0
    rw [hflipfull i (by omega), hflipsub (i - 1) (by omega)]
    have hmf : i ∈ List.range' 1 (n - 1) := List.mem_range'_1.mpr (by omega)
    have hms : i - 1 ∈ List.range' 1 (n - 1 - 1) := List.mem_range'_1.mpr (by omega)
    rw [hp2shift i hi1 hi2, hd2shift i hi1 hi2]
    by_cases hcond : (listSwap σ.p 0 iv tv).getD (i - 1) 0 > mv
    · have hc1 : i ∈ List.range' 1 (n - 1) ∧
          (listSwap σ.p 0 iv tv).getD (i - 1) 0 > mv := ⟨hmf, hcond⟩
      have hc2 : i - 1 ∈ List.range' 1 (n - 1 - 1) ∧
          (listSwap σ.p 0 iv tv).getD (i - 1) 0 > mv := ⟨hms, hcond⟩
      rw [if_pos hc1, if_pos hc2]
    · rw [if_neg (fun hc => hcond hc.2), if_neg (fun hc => hcond hc.2)]

/-- Helper: the factorial loop of CheapestTour.c satisfies the defining
recurrence. -/
theorem factorial_succ (n : Nat) : factorial (n + 1) = factorial n * (n + 1) := by
  rcases Nat.eq_zero_or_pos n with h0 | hpos
  · rw [h0]
    decide
  · show (List.range' 2 (n + 1 - 1)).foldl (fun r i => r * i) 1 = _
    rw [show n + 1 - 1 = n by omega]
    have hsplit : List.range' 2 n = List.range' 2 (n - 1) ++ [n + 1] := by
      have h1 := List.range'_append 2 (n - 1) 1 1
      rw [show 2 + 1 * (n - 1) = n + 1 by omega] at h1
      rw [show 1 + (n - 1) = n by omega] at h1
      rw [← h1, List.range'_one]
    rw [hsplit, List.foldl_append, List.foldl_cons, List.foldl_nil]
    rfl

/-- Helper: the factorial loop result is positive. -/
theorem factorial_pos (n : Nat) : 1 ≤ factorial n := by
  induction n with
  | zero => decide
  | succ m ih =>
    rw [factorial_succ]
    exact Nat.mul_pos ih (by omega)

/-- Helper: the factorial of a number at least 2 is at least 2. -/
theorem factorial_ge_two (n : Nat) (hn : 2 ≤ n) : 2 ≤ factorial n := by
  induction n with
  | zero => omega
  | succ m ih =>
    rcases Nat.lt_or_ge m 2 with h | h
    · have hm1 : m = 1 := by omega
      rw [hm1]
      decide
    · rw [factorial_succ]
      have h1 := ih h
      have h2 := Nat.le_mul_of_pos_right (factorial m) (show 0 < m + 1 by omega)
      omega

/-- Helper: the factorial of a number at most 2 is at most 2. -/
theorem factorial_small (n : Nat) (hn : n ≤ 2) : factorial n ≤ 2 := by
  interval_cases n
  · decide
  · decide
  · decide

/-- Helper: stepping a counter inside a block of size `n`. -/
theorem div_mod_succ_lt (k n : Nat) (hn : 0 < n) (hs : k % n + 1 < n) :
    (k + 1) / n = k / n ∧ (k + 1) % n = k % n + 1 := by
  have hdm := Nat.div_add_mod k n
  have h1 : k + 1 = (k % n + 1) + n * (k / n) := by omega
  constructor
  · rw [h1, Nat.add_mul_div_left _ _ hn, Nat.div_eq_of_lt hs, Nat.zero_add]
  · rw [h1, Nat.add_mul_mod_self_left, Nat.mod_eq_of_lt hs]

/-- Helper: stepping a counter across a block boundary. -/
theorem div_mod_succ_eq (k n : Nat) (hn : 0 < n) (hs : k % n + 1 = n) :
    (k + 1) / n = k / n + 1 ∧ (k + 1) % n = 0 := by
  have hdm := Nat.div_add_mod k n
  have hmul : n * (k / n + 1) = n * (k / n) + n := by ring
  have h1 : k + 1 = 0 + n * (k / n + 1) := by omega
  constructor
  · rw [h1, Nat.add_mul_div_left _ _ hn, Nat.zero_div, Nat.zero_add]
  · rw [h1, Nat.add_mul_mod_self_left, Nat.zero_mod]

/-- Helper: the carrier position formula, on the machine `m + 1`. -/
theorem vpos_succ_machine (m k : Nat) : vpos (m + 1) k =
    if (k / m) % 2 = 0 then m - k % m else 1 + k % m := by
  unfold vpos
  simp only [Nat.add_sub_cancel]

/-- Helper: the carrier direction on an even sweep. -/
theorem vdir_even {q : Nat} (h : q % 2 = 0) : vdir q = LEFT := by
  unfold vdir
  rw [if_pos h]

/-- Helper: the carrier direction on an odd sweep. -/
theorem vdir_odd {q : Nat} (h : q % 2 = 1) : vdir q = RIGHT := by
  unfold vdir
  rw [if_neg (by omega)]

/-- Helper: the initial enumeration state is well-formed. -/
theorem sjtIter_zero_wf (n j : Nat) : SJTWf n (sjtIter n j 0) where
  plen := List.length_range n
  dlen := List.length_replicate n LEFT
  vals := by
    intro i hi
    show (List.range n).getD i 0 < n
    rw [List.getD_eq_getElem _ _ (by simpa using hi), List.getElem_range]
    exact hi
  dpm := by
    intro i hi
    show (List.replicate n LEFT).getD i 0 = LEFT ∨ _
    rw [List.getD_eq_getElem _ _ (by simpa using hi), List.getElem_replicate]
    exact Or.inl rfl

/-- Helper: the initial state of the `n`-city machine decomposes over the
initial state of the `n-1`-city machine, with the largest value at the
right end directed LEFT. -/
theorem sjtIter_zero_dec (n j j2 : Nat) (hn : 3 ≤ n) :
    SJTDec n (n - 1) LEFT (sjtIter n j 0) (sjtIter (n - 1) j2 0) where
  plen := List.length_range n
  dlen := List.length_replicate n LEFT
  pv := by
    show (List.range n).getD (n - 1) 0 = n - 1
    rw [List.getD_eq_getElem _ _ (by simp; omega), List.getElem_range]
  dv := by
    show (List.replicate n LEFT).getD (n - 1) 0 = LEFT
    rw [List.getD_eq_getElem _ _ (by simp; omega), List.getElem_replicate]
  plo := by
    intro i hi
    show (List.range n).getD i 0 = (List.range (n - 1)).getD i 0
    rw [List.getD_eq_getElem _ _ (by simp; omega), List.getElem_range,
      List.getD_eq_getElem _ _ (by simpa using hi), List.getElem_range]
  phi := by
    intro i hi1 hi2
    omega
  dlo := by
    intro i hi
    show (List.replicate n LEFT).getD i 0 = (List.replicate (n - 1) LEFT).getD i 0
    rw [List.getD_eq_getElem _ _ (by simp; omega), List.getElem_replicate,
      List.getD_eq_getElem _ _ (by simpa using hi), List.getElem_replicate]
  dhi := by
    intro i hi1 hi2
    omega

/-- Helper: unfolding one enumeration step. -/
theorem sjtIter_succ (n j k : Nat) :
    sjtIter n j (k + 1) = sjtStep n (sjtIter n j k) := rfl

/-- Master invariant of the Steinhaus–Johnson–Trotter stepper of
`getOptimalTour`: within the first `(n-1)!` states every state is
well-formed and (for `n ≥ 3`) decomposes as the largest value `n-1`
riding over the `(n-1)`-city machine according to the block formulas
`vpos`/`vdir`; moreover at every state before the last one the
largest-mobile search succeeds. -/
theorem sjt_master (n : Nat) (hn : 2 ≤ n) :
    (∀ k, k ≤ factorial (n - 1) - 1 → ∀ j, SJTWf n (sjtIter n j k) ∧
      (3 ≤ n → SJTDec n (vpos n k) (vdir (k / (n - 1))) (sjtIter n j k)
        (sjtIter (n - 1) 0 (k / (n - 1))))) ∧
    (∀ k, k < factorial (n - 1) - 1 → ∀ j, HasMobile n (sjtIter n j k)) := by
  induction n, hn using Nat.le_induction with
  | base =>
    have hF1 : factorial (2 - 1) = 1 := by decide
    constructor
    · intro k hk j
      have hk0 : k = 0 := by omega
      rw [hk0]
      exact ⟨sjtIter_zero_wf 2 j, fun h3 => absurd h3 (by omega)⟩
    · intro k hk j
      omega
  | succ n hn2 ih =>
    simp only [Nat.add_sub_cancel]
    have hn0 : 0 < n := by omega
    have hFn : factorial n = factorial (n - 1) * n := by
      have h := factorial_succ (n - 1)
      rw [show n - 1 + 1 = n by omega] at h
      exact h
    have hF1 : 1 ≤ factorial (n - 1) := factorial_pos _
    have hFn1 : 1 ≤ factorial n := factorial_pos _
    have hqle : ∀ k, k ≤ factorial n - 1 → k / n ≤ factorial (n - 1) - 1 := by
      intro k hk
      have h1 : k < n * factorial (n - 1) := by
        have h2 : factorial (n - 1) * n = n * factorial (n - 1) := Nat.mul_comm _ _
        omega
      have h2 : k / n < factorial (n - 1) := Nat.div_lt_of_lt_mul h1
      omega
    have key : ∀ k, k ≤ factorial n - 1 → ∀ j, SJTWf (n + 1) (sjtIter (n + 1) j k) ∧
        SJTDec (n + 1) (vpos (n + 1) k) (vdir (k / n)) (sjtIter (n + 1) j k)
          (sjtIter n 0 (k / n)) := by
      intro k
      induction k with
      | zero =>
        intro _ j
        refine ⟨sjtIter_zero_wf (n + 1) j, ?_⟩
        have hv : vpos (n + 1) 0 = n := by
          rw [vpos_succ_machine]
          simp
        have hd : vdir (0 / n) = LEFT := by
          rw [Nat.zero_div]
          exact vdir_even (by decide)
        rw [hv, hd, Nat.zero_div]
        exact sjtIter_zero_dec (n + 1) j 0 (by omega)
      | succ k ihk =>
        intro hk1 j
        have hk : k ≤ factorial n - 1 := by omega
        obtain ⟨hWk, hDk⟩ := ihk hk j
        have hWσ : SJTWf n (sjtIter n 0 (k / n)) := (ih.1 (k / n) (hqle k hk) 0).1
        rcases Nat.lt_or_ge (k % n + 1) n with hs | hs
        · -- sweep step: the block counter does not advance
          obtain ⟨hdiv, hmod⟩ := div_mod_succ_lt k n hn0 hs
          rcases Nat.mod_two_eq_zero_or_one (k / n) with hq | hq
          · have hvp : vpos (n + 1) k = n - k % n := by
              rw [vpos_succ_machine, if_pos hq]
            have hvd : vdir (k / n) = LEFT := vdir_even hq
            rw [hvp, hvd] at hDk
            have hstep := sjt_step_left (n + 1) (by omega) hDk hWσ (by omega) (by omega)
            have hvp' : vpos (n + 1) (k + 1) = n - k % n - 1 := by
              rw [vpos_succ_machine, hdiv, if_pos hq, hmod]
              omega
            have hvd' : vdir ((k + 1) / n) = LEFT := by
              rw [hdiv]
              exact vdir_even hq
            rw [hvp', hvd', hdiv, sjtIter_succ (n + 1) j k]
            exact ⟨wf_of_dec (n + 1) (n - k % n - 1) LEFT hstep.2 hWσ (by omega)
              (by omega) (Or.inl rfl), hstep.2⟩
          · have hne : ¬(k / n) % 2 = 0 := by omega
            have hvp : vpos (n + 1) k = 1 + k % n := by
              rw [vpos_succ_machine, if_neg hne]
            have hvd : vdir (k / n) = RIGHT := vdir_odd hq
            rw [hvp, hvd] at hDk
            have hstep := sjt_step_right (n + 1) (by omega) hDk hWσ (by omega) (by omega)
            have hvp' : vpos (n + 1) (k + 1) = 1 + k % n + 1 := by
              rw [vpos_succ_machine, hdiv, if_neg hne, hmod]
              omega
            have hvd' : vdir ((k + 1) / n) = RIGHT := by
              rw [hdiv]
              exact vdir_odd hq
            rw [hvp', hvd', hdiv, sjtIter_succ (n + 1) j k]
            exact ⟨wf_of_dec (n + 1) (1 + k % n + 1) RIGHT hstep.2 hWσ (by omega)
              (by omega) (Or.inr rfl), hstep.2⟩
        · -- stuck step: the largest value is at its end; the sub-machine advances
          have hmlt : k % n < n := Nat.mod_lt k hn0
          have hs' : k % n + 1 = n := by omega
          obtain ⟨hdiv2, hmod2⟩ := div_mod_succ_eq k n hn0 hs'
          have hq1 : k + 1 = n * (k / n + 1) := by
            have hdm := Nat.div_add_mod k n
            have hmul : n * (k / n + 1) = n * (k / n) + n := by ring
            omega
          have hqlt : k / n + 1 < factorial (n - 1) := by
            have h2 : n * (k / n + 1) < n * factorial (n - 1) := by
              have h3 : factorial (n - 1) * n = n * factorial (n - 1) := Nat.mul_comm _ _
              omega
            exact Nat.lt_of_mul_lt_mul_left h2
          have hn3 : 3 ≤ n := by
            by_contra hc
            have hn2' : n = 2 := by omega
            rw [hn2'] at hqlt
            have hF2 : factorial (2 - 1) = 1 := by decide
            omega
          have hMσ : HasMobile n (sjtIter n 0 (k / n)) :=
            ih.2 (k / n) (by omega) 0
          have hWσ' : SJTWf n (sjtIter n 0 (k / n + 1)) :=
            (ih.1 (k / n + 1) (by omega) 0).1
          rcases Nat.mod_two_eq_zero_or_one (k / n) with hq | hq
          · have hvp : vpos (n + 1) k = 1 := by
              rw [vpos_succ_machine, if_pos hq]
              omega
            have hvd : vdir (k / n) = LEFT := vdir_even hq
            rw [hvp, hvd] at hDk
            have hstep := sjt_step_stuck_left (n + 1) (by omega) hDk hWσ hMσ
            have hvp' : vpos (n + 1) (k + 1) = 1 := by
              rw [vpos_succ_machine, hdiv2, hmod2]
              have hne : ¬(k / n + 1) % 2 = 0 := by omega
              rw [if_neg hne]
            have hvd' : vdir ((k + 1) / n) = RIGHT := by
              rw [hdiv2]
              exact vdir_odd (by omega)
            have hstep2 : SJTDec (n + 1) 1 RIGHT (sjtStep (n + 1) (sjtIter (n + 1) j k))
                (sjtIter n 0 (k / n + 1)) := hstep.2
            rw [hvp', hvd', hdiv2, sjtIter_succ (n + 1) j k]
            exact ⟨wf_of_dec (n + 1) 1 RIGHT hstep2 hWσ' (by omega)
              (by omega) (Or.inr rfl), hstep2⟩
          · have hne : ¬(k / n) % 2 = 0 := by omega
            have hvp : vpos (n + 1) k = n := by
              rw [vpos_succ_machine, if_neg hne]
              omega
            have hvd : vdir (k / n) = RIGHT := vdir_odd hq
            rw [hvp, hvd] at hDk
            have hstep := sjt_step_stuck_right (n + 1) (by omega) hDk hWσ hMσ
            have hvp' : vpos (n + 1) (k + 1) = n := by
              rw [vpos_succ_machine, hdiv2, hmod2]
              have hev : (k / n + 1) % 2 = 0 := by omega
              rw [if_pos hev]
              omega
            have hvd' : vdir ((k + 1) / n) = LEFT := by
              rw [hdiv2]
              exact vdir_even (by omega)
            have hstep2 : SJTDec (n + 1) n LEFT (sjtStep (n + 1) (sjtIter (n + 1) j k))
                (sjtIter n 0 (k / n + 1)) := hstep.2
            rw [hvp', hvd', hdiv2, sjtIter_succ (n + 1) j k]
            exact ⟨wf_of_dec (n + 1) n LEFT hstep2 hWσ' (by omega)
              (by omega) (Or.inl rfl), hstep2⟩
    constructor
    · intro k hk j
      exact ⟨(key k hk j).1, fun _ => (key k hk j).2⟩
    · intro k hk j
      obtain ⟨hWk, hDk⟩ := key k (by omega) j
      have hWσ : SJTWf n (sjtIter n 0 (k / n)) := (ih.1 (k / n) (hqle k (by omega)) 0).1
      rcases Nat.lt_or_ge (k % n + 1) n with hs | hs
      · rcases Nat.mod_two_eq_zero_or_one (k / n) with hq | hq
        · have hvp : vpos (n + 1) k = n - k % n := by
            rw [vpos_succ_machine, if_pos hq]
          have hvd : vdir (k / n) = LEFT := vdir_even hq
          rw [hvp, hvd] at hDk
          have hstep := sjt_step_left (n + 1) (by omega) hDk hWσ (by omega) (by omega)
          intro a
          rw [hstep.1 a]
          show 0 < n + 1 - 1
          omega
        · have hne : ¬(k / n) % 2 = 0 := by omega
          have hvp : vpos (n + 1) k = 1 + k % n := by
            rw [vpos_succ_machine, if_neg hne]
          have hvd : vdir (k / n) = RIGHT := vdir_odd hq
          rw [hvp, hvd] at hDk
          have hstep := sjt_step_right (n + 1) (by omega) hDk hWσ (by omega) (by omega)
          intro a
          rw [hstep.1 a]
          show 0 < n + 1 - 1
          omega
      · have hmlt : k % n < n := Nat.mod_lt k hn0
        have hs' : k % n + 1 = n := by omega
        have hq1 : k + 1 = n * (k / n + 1) := by
          have hdm := Nat.div_add_mod k n
          have hmul : n * (k / n + 1) = n * (k / n) + n := by ring
          omega
        have hqlt : k / n + 1 < factorial (n - 1) := by
          have h2 : n * (k / n + 1) < n * factorial (n - 1) := by
            have h3 : factorial (n - 1) * n = n * factorial (n - 1) := Nat.mul_comm _ _
            omega
          exact Nat.lt_of_mul_lt_mul_left h2
        have hn3 : 3 ≤ n := by
          by_contra hc
          have hn2' : n = 2 := by omega
          rw [hn2'] at hqlt
          have hF2 : factorial (2 - 1) = 1 := by decide
          omega
        have hMσ : HasMobile n (sjtIter n 0 (k / n)) :=
          ih.2 (k / n) (by omega) 0
        rcases Nat.mod_two_eq_zero_or_one (k / n) with hq | hq
        · have hvp : vpos (n + 1) k = 1 := by
            rw [vpos_succ_machine, if_pos hq]
            omega
          have hvd : vdir (k / n) = LEFT := vdir_even hq
          rw [hvp, hvd] at hDk
          exact (sjt_step_stuck_left (n + 1) (by omega) hDk hWσ hMσ).1
        · have hne : ¬(k / n) % 2 = 0 := by omega
          have hvp : vpos (n + 1) k = n := by
            rw [vpos_succ_machine, if_neg hne]
            omega
          have hvd : vdir (k / n) = RIGHT := vdir_odd hq
          rw [hvp, hvd] at hDk
          exact (sjt_step_stuck_right (n + 1) (by omega) hDk hWσ hMσ).1

/-- Helper: the SJT component of the enumeration loop state after `k`
iterations is `sjtIter`: the best-tour bookkeeping never feeds back into
the permutation generator. -/
theorem optLoop_sjt (n k : Nat) (cities : Nat → Nat → Int) (res0 : CResult)
    (junkIdx : Nat) :
    ((List.range k).foldl (optLoopStep n cities)
      (res0, ⟨List.range n, List.replicate n LEFT, junkIdx⟩)).2 =
    sjtIter n junkIdx k := by
  induction k with
  | zero => rfl
  | succ k ih =>
    rw [List.range_succ, List.foldl_append, List.foldl_cons, List.foldl_nil,
      sjtIter_succ, ← ih]
    rfl

/-- **C10.** For every `n ≥ 3` and every iteration `k < (n-1)!/2` of the
enumeration loop of `getOptimalTour`, the SJT state at the top of the
iteration equals `sjtIter n junkIdx k` whatever the best-tour bookkeeping
holds, and on that state the largest-mobile search succeeds: its result is
independent of the stale `largestMobileIndex` seed, `largestMobile` ends
positive, the assigned `largestMobileIndex` is an index `j` with
`1 ≤ j ≤ n-1`, the direction entry `d[j]` is `±1`, and
`0 ≤ j + d[j] ≤ n-1`; both arrays have length `n`, so the subsequent swaps
of `p` and `d` read and write only in-bounds cells. -/
theorem C10_mobile_search_safe (n k : Nat) (hn : 3 ≤ n)
    (hk : k < factorial (n - 1) / 2) (cities : Nat → Nat → Int)
    (res0 : CResult) (junkIdx : Nat) (s : SJT)
    (hs : s = ((List.range k).foldl (optLoopStep n cities)
      (res0, ⟨List.range n, List.replicate n LEFT, junkIdx⟩)).2) :
    s = sjtIter n junkIdx k ∧
    s.p.length = n ∧ s.d.length = n ∧
    (∀ a b, findMobile n s.p s.d a = findMobile n s.p s.d b) ∧
    ∀ a, 0 < (findMobile n s.p s.d a).1 ∧
      1 ≤ (findMobile n s.p s.d a).2 ∧ (findMobile n s.p s.d a).2 ≤ n - 1 ∧
      (s.d.getD (findMobile n s.p s.d a).2 0 = LEFT ∨
        s.d.getD (findMobile n s.p s.d a).2 0 = RIGHT) ∧
      0 ≤ ((findMobile n s.p s.d a).2 : Int) +
        s.d.getD (findMobile n s.p s.d a).2 0 ∧
      ((findMobile n s.p s.d a).2 : Int) +
        s.d.getD (findMobile n s.p s.d a).2 0 ≤ (n : Int) - 1 := by
  have hF2 : 2 ≤ factorial (n - 1) := factorial_ge_two (n - 1) (by omega)
  have hkb : k < factorial (n - 1) - 1 := by omega
  have hlink := optLoop_sjt n k cities res0 junkIdx
  rw [hlink] at hs
  subst hs
  have hM : HasMobile n (sjtIter n junkIdx k) :=
    (sjt_master n (by omega)).2 k hkb junkIdx
  have hW : SJTWf n (sjtIter n junkIdx k) :=
    ((sjt_master n (by omega)).1 k (by omega) junkIdx).1
  refine ⟨rfl, hW.plen, hW.dlen, ?_, ?_⟩
  · intro a b
    exact findMobile_indep n _ _ a b (hM a)
  · intro a
    have hpos := hM a
    obtain ⟨h1, h2, h3, h4, h5⟩ := mobile_bounds n hW a hpos
    have hL : LEFT = -1 := rfl
    have hR : RIGHT = (1 : Int) := rfl
    rcases h5 with ⟨hd, hb⟩ | ⟨hd, hb⟩
    · refine ⟨hpos, h1, h2, Or.inl hd, ?_, ?_⟩
      · rw [hd, hL]
        omega
      · rw [hd, hL]
        omega
    · refine ⟨hpos, h1, h2, Or.inr hd, ?_, ?_⟩
      · rw [hd, hR]
        omega
      · rw [hd, hR]
        omega

/-- Witness for C10 at `n = 4`, `k = 1`, the spec's 4-city matrix, a junk
tour buffer, and stale index 9: the loop state is `sjtIter 4 9 1` and the
mobile search lands on index 3 with direction LEFT. -/
theorem C10_mobile_search_safe_witness :
    ((3 : Nat) ≤ 4 ∧ 1 < factorial (4 - 1) / 2 ∧
      (⟨[0, 1, 3, 2], [LEFT, LEFT, LEFT, LEFT], 3⟩ : SJT) =
        ((List.range 1).foldl (optLoopStep 4 mat4)
          (⟨INFINITE, List.replicate 5 7, 5⟩,
           ⟨List.range 4, List.replicate 4 LEFT, 9⟩)).2) ∧
    ((⟨[0, 1, 3, 2], [LEFT, LEFT, LEFT, LEFT], 3⟩ : SJT) = sjtIter 4 9 1 ∧
      ([0, 1, 3, 2] : List Nat).length = 4 ∧
      ([LEFT, LEFT, LEFT, LEFT] : List Int).length = 4 ∧
      (∀ a b, findMobile 4 [0, 1, 3, 2] [LEFT, LEFT, LEFT, LEFT] a =
        findMobile 4 [0, 1, 3, 2] [LEFT, LEFT, LEFT, LEFT] b) ∧
      ∀ a, 0 < (findMobile 4 [0, 1, 3, 2] [LEFT, LEFT, LEFT, LEFT] a).1 ∧
        1 ≤ (findMobile 4 [0, 1, 3, 2] [LEFT, LEFT, LEFT, LEFT] a).2 ∧
        (findMobile 4 [0, 1, 3, 2] [LEFT, LEFT, LEFT, LEFT] a).2 ≤ 4 - 1 ∧
        (([LEFT, LEFT, LEFT, LEFT] : List Int).getD
            (findMobile 4 [0, 1, 3, 2] [LEFT, LEFT, LEFT, LEFT] a).2 0 = LEFT ∨
          ([LEFT, LEFT, LEFT, LEFT] : List Int).getD
            (findMobile 4 [0, 1, 3, 2] [LEFT, LEFT, LEFT, LEFT] a).2 0 = RIGHT) ∧
        0 ≤ ((findMobile 4 [0, 1, 3, 2] [LEFT, LEFT, LEFT, LEFT] a).2 : Int) +
            ([LEFT, LEFT, LEFT, LEFT] : List Int).getD
              (findMobile 4 [0, 1, 3, 2] [LEFT, LEFT, LEFT, LEFT] a).2 0 ∧
        ((findMobile 4 [0, 1, 3, 2] [LEFT, LEFT, LEFT, LEFT] a).2 : Int) +
            ([LEFT, LEFT, LEFT, LEFT] : List Int).getD
              (findMobile 4 [0, 1, 3, 2] [LEFT, LEFT, LEFT, LEFT] a).2 0 ≤
          (4 : Int) - 1) :=
  ⟨⟨by decide, by decide, by decide⟩,
   C10_mobile_search_safe 4 1 (by decide) (by decide) mat4
     ⟨INFINITE, List.replicate 5 7, 5⟩ 9
     ⟨[0, 1, 3, 2], [LEFT, LEFT, LEFT, LEFT], 3⟩ (by decide)⟩

end TSP
